import Mathlib

/-!
# CPHistogram: a shallow embedding of `lib/Analysis/CPHistogram.cpp`

The weighted histogram of the combined-profiling pass, embedded function by
function.  Conventions of the embedding:

* a C++ `double` is an exact rational (`ℚ`): the development is about the
  arithmetic the code performs, not about rounding.  A division by zero, which
  yields `inf`/`NaN` in C++, yields `0` in `ℚ`; the places where it can occur are
  noted at the definitions;
* where rounding decides a discrete outcome (the bin that `whichBin` answers, the
  index at which the scan of `quantile` stops, the `assert`s of `estProbLessThan`)
  the function is embedded a second time, with the rounding of every `double`
  operation explicit: `whichBinFl`, `getRangeWeightFl`, `quantileFl`,
  `estProbLessThanFl` and the functions they call take the machine arithmetic
  `A : Arith` as their first argument; `Arith.exact` gives back the first
  embedding and `Arith.binary64` is the arithmetic of IEEE 754 binary64;
* `FP_FUDGE_EPS` is defined in `CPHistogram.h`, which is not part of the sources
  at hand.  Every function that reads it takes it as its first argument `eps`;
* the bin array `_bins` is a list; the empty list stands for the `NULL` pointer
  (`setBinCount` never allocates an array of length 0);
* an operation that dereferences `NULL`, reads outside the bin array or trips an
  `assert` has no result (`none`);
* `unsigned` values are natural numbers; the two places where the source converts
  between signed and unsigned integers (`whichBin`, `deserialize`) are modelled
  with the wrap-around of 32-bit integers.
-/

namespace CPHistogram

/-- The pair `WeightedValue` of the source: `first` is the value, `second` the weight. -/
abbrev WeightedValue := ℚ × ℚ

/-- The inner class `CPHistogram::Stats`. -/
structure Stats where
  sumOfSquares : ℚ
  sumOfValues : ℚ
  sumOfWeights : ℚ
  totalWeight : ℚ
deriving DecidableEq

/-- `Stats::clear` (and the default constructor): all four sums are 0. -/
def Stats.clear : Stats := ⟨0, 0, 0, 0⟩

/-- First loop of `Stats::Stats(const WeightedValueVec&)`: sums of weights and of
weighted values. -/
def Stats.sumStep (s : Stats) (wv : WeightedValue) : Stats :=
  if wv.2 = 0 then s
  else
    let s1 : Stats := { s with totalWeight := s.totalWeight + wv.2 }
    if wv.1 ≠ 0 then
      { s1 with sumOfWeights := s1.sumOfWeights + wv.2,
                sumOfValues := s1.sumOfValues + wv.1 * wv.2 }
    else s1

/-- Second loop of `Stats::Stats(const WeightedValueVec&)`: weighted squared
deviations from `mean`. -/
def Stats.squareStep (mean : ℚ) (s : Stats) (wv : WeightedValue) : Stats :=
  if wv.2 = 0 then s
  else
    let delta := wv.1 - mean
    { s with sumOfSquares := s.sumOfSquares + delta * delta * wv.2 }

/-- The constructor `Stats::Stats(const WeightedValueVec& vals)`.
`sumOfValues/sumOfWeights` is `0/0` when no entry has a non-zero value and a
non-zero weight. -/
def Stats.ofVals (vals : List WeightedValue) : Stats :=
  if vals.length = 0 then Stats.clear
  else
    let s1 := vals.foldl Stats.sumStep Stats.clear
    let mean := s1.sumOfValues / s1.sumOfWeights
    vals.foldl (Stats.squareStep mean) s1

/-- `Stats::combineStats(const Stats& s2)`, returning the new value of `*this`.
The three sums are updated first; `na` and `Sa` are read after that update, as in
the source. -/
def Stats.combineStats (s s2 : Stats) : Stats :=
  if s2.totalWeight = 0 then s
  else if s.totalWeight = 0 then s2
  else
    let sumOfValues := s.sumOfValues + s2.sumOfValues
    let sumOfWeights := s.sumOfWeights + s2.sumOfWeights
    let totalWeight := s.totalWeight + s2.totalWeight
    let na := sumOfWeights
    let nb := s2.sumOfWeights
    let SSb := s2.sumOfSquares
    let Sa := sumOfValues
    let Sb := s2.sumOfValues
    let delta := Sa / na - Sb / nb
    { sumOfSquares := s.sumOfSquares + (SSb + na * nb / (na + nb) * delta * delta),
      sumOfValues := sumOfValues,
      sumOfWeights := sumOfWeights,
      totalWeight := totalWeight }

end CPHistogram

/-- The class `CPHistogram`: range, bin array, statistics and the pending add list.
The diagnostic instance counter `_id` is left out. -/
structure CPHistogram where
  _min : ℚ
  _max : ℚ
  _bincount : Nat
  _bins : List ℚ
  _stats : CPHistogram.Stats
  _addList : List CPHistogram.WeightedValue
deriving DecidableEq

namespace CPHistogram

/-- The default constructor `CPHistogram()`: a point histogram at 0. -/
def empty : CPHistogram :=
  { _min := 0, _max := 0, _bincount := 0, _bins := [], _stats := Stats.clear, _addList := [] }

/-- `CPHistogram::nonZero`. -/
def nonZero (eps : ℚ) (h : CPHistogram) : Bool :=
  decide (h._stats.sumOfWeights > eps)

/-- `CPHistogram::isPoint`. -/
def isPoint (eps : ℚ) (h : CPHistogram) : Bool :=
  if !nonZero eps h then true else decide (h._min = h._max)

/-- `CPHistogram::nonZeroWeight`. -/
def nonZeroWeight (eps : ℚ) (h : CPHistogram) : ℚ :=
  if h._stats.sumOfWeights < eps then 0 else h._stats.sumOfWeights

/-- `CPHistogram::zeroWeight`. -/
def zeroWeight (eps : ℚ) (h : CPHistogram) : ℚ :=
  if h._stats.totalWeight < eps then 0 else h._stats.totalWeight - h._stats.sumOfWeights

/-- `CPHistogram::totalWeight`. -/
def totalWeight (eps : ℚ) (h : CPHistogram) : ℚ :=
  if h._stats.totalWeight < eps then 0 else h._stats.totalWeight

/-- `CPHistogram::min`. -/
def min (eps : ℚ) (h : CPHistogram) : ℚ :=
  if !nonZero eps h then 0 else h._min

/-- `CPHistogram::max`. -/
def max (eps : ℚ) (h : CPHistogram) : ℚ :=
  if !nonZero eps h then 0 else h._max

/-- `CPHistogram::bins`. -/
def bins (h : CPHistogram) : Nat := h._bincount

/-- `CPHistogram::getBinWidth`.  The source asserts `_bincount > 0` before the
division; with `_bincount = 0` the quotient is `0` here. -/
def getBinWidth (eps : ℚ) (h : CPHistogram) : ℚ :=
  if !nonZero eps h then 0
  else if isPoint eps h then 0
  else (h._max - h._min) / (h._bincount : ℚ)

/-- `CPHistogram::getBinCenter`. -/
def getBinCenter (eps : ℚ) (h : CPHistogram) (b : Nat) : ℚ :=
  if !nonZero eps h then 0 else h._min + getBinWidth eps h * ((b : ℚ) + 1 / 2)

/-- `CPHistogram::getBinUpperLimit`. -/
def getBinUpperLimit (eps : ℚ) (h : CPHistogram) (b : Nat) : ℚ :=
  if !nonZero eps h then 0 else h._min + getBinWidth eps h * ((b : ℚ) + 1)

/-- `CPHistogram::getBinLowerLimit`. -/
def getBinLowerLimit (eps : ℚ) (h : CPHistogram) (b : Nat) : ℚ :=
  if !nonZero eps h then 0 else h._min + getBinWidth eps h * (b : ℚ)

/-- `CPHistogram::getBinWeight`. -/
def getBinWeight (h : CPHistogram) (b : Nat) : ℚ :=
  if h._bins ≠ [] then h._bins.getD b 0 else 0

/-- `CPHistogram::setBinCount`: a fresh zero-filled array of `n` bins (`NULL` for 0). -/
def setBinCount (h : CPHistogram) (n : Nat) : CPHistogram :=
  { h with _bincount := n, _bins := List.replicate n 0 }

/-- `CPHistogram::clear`: a point histogram at 0 without bins.  The add list is
kept (the call to `clearList` is commented out in the source). -/
def clear (h : CPHistogram) : CPHistogram :=
  { setBinCount h 0 with _stats := Stats.clear, _min := 0, _max := 0 }

/-- `CPHistogram::clearList`. -/
def clearList (h : CPHistogram) : CPHistogram :=
  { h with _addList := [] }

/-- `CPHistogram::setRange`. -/
def setRange (h : CPHistogram) (min max : ℚ) : CPHistogram :=
  let lo := if min > max then max else min
  let hi := if min > max then min else max
  let lo := if lo < 0 then 0 else lo
  let hi := if hi < 0 then 0 else hi
  { h with _min := lo, _max := hi }

/-- The value of `n-1` computed on `unsigned`: it wraps to `2^32-1` for `n = 0`. -/
def predU32 (n : Nat) : Nat := if n = 0 then 4294967295 else n - 1

/-- `CPHistogram::whichBin` in exact arithmetic.  `bin` is the `int` of the source
(the quotient is not rounded and the conversion of the floor to `int` is taken to
be in range); `_bincount-1` is computed on `unsigned`.  `whichBinFl` below is the
same function with the rounding and the conversion explicit. -/
def whichBin (eps : ℚ) (h : CPHistogram) (v : ℚ) : Nat :=
  if !nonZero eps h then 0
  else
    let bin : Int := ⌊(v - h._min) / getBinWidth eps h⌋
    if isPoint eps h then 0
    else if bin < 0 then 0
    else if bin.toNat ≥ h._bincount then predU32 h._bincount
    else bin.toNat

/-- `CPHistogram::addToBin`.  The function ends with `return(_bins[b])`, so it has
a result only when `b` indexes an allocated bin. -/
def addToBin (eps : ℚ) (h : CPHistogram) (b : Nat) (w : ℚ) : Option CPHistogram :=
  if b < h._bins.length then
    if isPoint eps h then some h
    else if b ≥ h._bincount then some h
    else some { h with _bins := h._bins.modify (fun x => x + w) b }
  else none

/-- `CPHistogram::setBinWeight`: `_bins[b] = w` without a check of `b`; it has a
result only when the write is inside the array. -/
def setBinWeight (eps : ℚ) (h : CPHistogram) (b : Nat) (w : ℚ) : Option CPHistogram :=
  if isPoint eps h then some h
  else if b < h._bins.length then some { h with _bins := h._bins.set b w }
  else none

/-- `CPHistogram::addToList(const WeightedValue& wv)`: drops pairs with a
non-positive value or weight. -/
def addToListWV (h : CPHistogram) (wv : WeightedValue) : CPHistogram :=
  if wv.1 > 0 ∧ wv.2 > 0 then { h with _addList := h._addList ++ [wv] } else h

/-- The local variables of the filtering loop of `buildFromList`. -/
structure FilterState where
  vals : List WeightedValue
  weight : ℚ
  minVal : ℚ
  maxVal : ℚ

/-- One iteration of the filtering loop of `buildFromList`. -/
def filterStep (eps : ℚ) (st : FilterState) (wv : WeightedValue) : FilterState :=
  if wv.1 > eps ∧ wv.2 > eps then
    { vals := st.vals ++ [wv],
      weight := st.weight + wv.2,
      minVal := if wv.1 < st.minVal then wv.1 else st.minVal,
      maxVal := if wv.1 > st.maxVal then wv.1 else st.maxVal }
  else st

/-- The loop of `buildFromList` that drops the surviving values into their bins. -/
def depositAll (eps : ℚ) : CPHistogram → List WeightedValue → Option CPHistogram
  | h, [] => some h
  | h, wv :: rest =>
    match addToBin eps h (whichBin eps h wv.1) wv.2 with
    | none => none
    | some h1 => depositAll eps h1 rest

/-- `CPHistogram::buildFromList(bincount, totalweight, min, max)` on the histogram
`h0`, whose `_addList` holds the pending pairs. -/
def buildFromList (eps : ℚ) (h0 : CPHistogram) (bincount : Nat) (totalweight min max : ℚ) :
    Option CPHistogram :=
  let h := clear h0
  if h._addList.length = 0 then
    some { h with _stats := { h._stats with totalWeight := totalweight } }
  else
    let st := h._addList.foldl (filterStep eps)
      { vals := [], weight := 0, minVal := min, maxVal := max }
    if st.vals.length = 0 then some h
    else
      let stats := Stats.ofVals st.vals
      let stats : Stats :=
        if st.weight < totalweight then
          { stats with totalWeight := stats.totalWeight + (totalweight - st.weight) }
        else stats
      let h1 := setRange { h with _stats := stats } st.minVal st.maxVal
      if !isPoint eps h1 then
        (depositAll eps (setBinCount h1 bincount) st.vals).map clearList
      else some (clearList h1)

/-- The block of `getRangeWeight` that snaps the upper bound `ub`, lying in bin
`ubBin`, to a bin boundary.  The result is the new `ub`, the new `ubBin` and
`ubIsBoundary`; `none` is the early `return(0)`. -/
def snapUpper (eps : ℚ) (h : CPHistogram) (ub : ℚ) (ubBin : Nat) : Option (ℚ × Nat × Bool) :=
  if ub > getBinUpperLimit eps h ubBin - eps then
    some (getBinUpperLimit eps h ubBin, ubBin, true)
  else if ub < getBinLowerLimit eps h ubBin + eps then
    (if ubBin > 0 then some (getBinLowerLimit eps h ubBin, ubBin - 1, true) else none)
  else some (ub, ubBin, false)

/-- The block of `getRangeWeight` that snaps the lower bound `lb`, lying in bin
`lbBin`, to a bin boundary; `none` is the early `return(0)`. -/
def snapLower (eps : ℚ) (h : CPHistogram) (lb : ℚ) (lbBin : Nat) : Option (ℚ × Nat × Bool) :=
  if lb < getBinLowerLimit eps h lbBin + eps then
    some (getBinLowerLimit eps h lbBin, lbBin, true)
  else if lb > getBinUpperLimit eps h lbBin - eps then
    (if lbBin < predU32 h._bincount then some (getBinUpperLimit eps h lbBin, lbBin + 1, true)
     else none)
  else some (lb, lbBin, false)

/-- `CPHistogram::getRangeWeight(lb, ub)`.  A read `_bins[i]` is `getD i 0`; the
two `assert`s of the source (`bw > 0`, `weight >= 0`) do not enter the result. -/
def getRangeWeight (eps : ℚ) (h : CPHistogram) (lb ub : ℚ) : ℚ :=
  if !nonZero eps h then 0
  else if lb > ub then 0
  else if ub - lb < eps then 0
  else if isPoint eps h then
    (if lb ≤ h._min ∧ ub ≥ h._max then nonZeroWeight eps h else 0)
  else if h._bins = [] then 0
  else if ub ≤ h._min ∨ lb ≥ h._max then 0
  else
    let lb := if lb < h._min then h._min else lb
    let ub := if ub > h._max then h._max else ub
    let bw := getBinWidth eps h
    match snapUpper eps h ub (whichBin eps h ub) with
    | none => 0
    | some (ub, ubBin, ubIsBoundary) =>
      match snapLower eps h lb (whichBin eps h lb) with
      | none => 0
      | some (lb, lbBin, lbIsBoundary) =>
        if lbBin = ubBin then
          if lbIsBoundary && ubIsBoundary then h._bins.getD lbBin 0
          else
            let w := (ub - lb) / bw * h._bins.getD lbBin 0
            if w < 0 then 0 else w
        else
          let w1 :=
            if lbIsBoundary then h._bins.getD lbBin 0
            else (getBinUpperLimit eps h lbBin - lb) / bw * h._bins.getD lbBin 0
          let weight := 0 + (if w1 < 0 then 0 else w1)
          let w2 :=
            if ubIsBoundary then h._bins.getD ubBin 0
            else (ub - getBinLowerLimit eps h ubBin) / bw * h._bins.getD ubBin 0
          let weight := weight + (if w2 < 0 then 0 else w2)
          (List.range' (lbBin + 1) (ubBin - (lbBin + 1))).foldl
            (fun acc i => acc + h._bins.getD i 0) weight

/-- `CPHistogram::copyBins(other)`. -/
def copyBins (eps : ℚ) (h other : CPHistogram) : CPHistogram :=
  let h1 := setBinCount h other._bincount
  if other._bincount > 0 ∧ !isPoint eps other then
    { h1 with _bins := (List.range h1._bincount).map (fun i => other._bins.getD i 0) }
  else h1

/-- `CPHistogram::operator=`: bins, statistics and range of `rhs`; the add list of
the target is kept. -/
def assign (eps : ℚ) (h rhs : CPHistogram) : CPHistogram :=
  { copyBins eps h rhs with _stats := rhs._stats, _min := rhs._min, _max := rhs._max }

/-- The constant `std::numeric_limits<double>::max()`. -/
def DBL_MAX : ℚ := (2 ^ 53 - 1) * 2 ^ 971

/-- The local variables of the statistics loop of the combining constructor,
together with `_stats`. -/
structure MergeState where
  stats : Stats
  minVal : ℚ
  maxVal : ℚ
  rangeUpdate : Bool

/-- One iteration of the statistics loop of the combining constructor. -/
def mergeStep (st : MergeState) (H : CPHistogram) : MergeState :=
  let stats := st.stats.combineStats H._stats
  let lo : ℚ × Bool := if H._min < st.minVal then (H._min, true) else (st.minVal, st.rangeUpdate)
  let hi : ℚ × Bool := if H._max > st.maxVal then (H._max, true) else (st.maxVal, lo.2)
  { stats := stats, minVal := lo.1, maxVal := hi.1, rangeUpdate := hi.2 }

/-- Inner loop of the re-binning step: every source histogram adds its weight on
the range of bin `i` of `h`. -/
def fillBin (eps : ℚ) (i : Nat) : CPHistogram → List CPHistogram → Option CPHistogram
  | h, [] => some h
  | h, H :: rest =>
    let l := getBinLowerLimit eps h i
    let u := getBinUpperLimit eps h i
    match addToBin eps h i (getRangeWeight eps H l u) with
    | none => none
    | some h1 => fillBin eps i h1 rest

/-- Outer loop of the re-binning step, over the bin indices `is`. -/
def fillBins (eps : ℚ) (hl : List CPHistogram) : CPHistogram → List Nat → Option CPHistogram
  | h, [] => some h
  | h, i :: is =>
    match fillBin eps i h hl with
    | none => none
    | some h1 => fillBins eps hl h1 is

/-- The combining constructor `CPHistogram(unsigned bincount, double totalweight,
CPHistogramList& hl)`.  The list holds pointers, `none` being `NULL`; with a
single `NULL` entry the constructor dereferences it and has no result.  The local
`Stats s2` is taken to be default-constructed with all sums 0. -/
def ofHistogramList (eps : ℚ) (bincount : Nat) (totalweight : ℚ)
    (hl : List (Option CPHistogram)) : Option CPHistogram :=
  let this := clear { empty with _bincount := bincount }
  match hl with
  | [] => some this
  | [none] => none
  | [some H] => some (assign eps this H)
  | _ =>
    let hl1 : List CPHistogram := hl.filterMap (fun o =>
      match o with
      | none => none
      | some H => if nonZero eps H then some H else none)
    if hl1.length = 0 then some this
    else
      let st := hl1.foldl mergeStep
        { stats := this._stats, minVal := DBL_MAX, maxVal := 0, rangeUpdate := false }
      let stats :=
        if st.stats.totalWeight < totalweight then
          st.stats.combineStats { Stats.clear with totalWeight := totalweight - st.stats.totalWeight }
        else st.stats
      let minVal := if !st.rangeUpdate then 0 else st.minVal
      let maxVal := if !st.rangeUpdate then 0 else st.maxVal
      let h1 := setRange { this with _stats := stats } minVal maxVal
      if isPoint eps h1 then some (setBinCount h1 0)
      else fillBins eps hl1 (setBinCount h1 bincount) (List.range bincount)

/-- `CPHistogram::cross(const CPHistogram& other)`. -/
def cross (eps : ℚ) (h other : CPHistogram) : Option CPHistogram :=
  let tw := h._stats.totalWeight * other._stats.totalWeight
  let rc := empty
  if !(nonZero eps h && nonZero eps other) then some rc
  else
    let filled : CPHistogram × Nat :=
      if isPoint eps h || isPoint eps other then
        if isPoint eps h && isPoint eps other then
          (addToListWV rc (h._min * other._min,
            h._stats.sumOfWeights * other._stats.sumOfWeights), h._bincount)
        else if isPoint eps h then
          ((List.range other._bincount).foldl (fun rc i =>
              addToListWV rc (h._min * getBinCenter eps other i,
                h._stats.sumOfWeights * other._bins.getD i 0)) rc, other._bincount)
        else
          ((List.range h._bincount).foldl (fun rc i =>
              addToListWV rc (getBinCenter eps h i * other._min,
                h._bins.getD i 0 * other._stats.sumOfWeights)) rc, h._bincount)
      else
        ((List.range h._bincount).foldl (fun rc i =>
            (List.range other._bincount).foldl (fun rc j =>
              addToListWV rc (getBinCenter eps h i * getBinCenter eps other j,
                h._bins.getD i 0 * other._bins.getD j 0)) rc) rc, h._bincount)
    let lb := h._min * other._min
    let ub := h._max * other._max
    buildFromList eps filled.1 filled.2 tw lb ub

/-- The value `(w < ow) ? w : ow` of `overlap`, set to 0 below `eps`. -/
def overlapOf (eps w ow : ℚ) : ℚ :=
  let overlap := if w < ow then w else ow
  if overlap < eps then 0 else overlap

/-- `CPHistogram::overlap(other, includeZero)`. -/
def overlap (eps : ℚ) (h other : CPHistogram) (includeZero : Bool) : ℚ :=
  if !nonZero eps h && !nonZero eps other then 1
  else if bins h ≠ bins other then 0
  else if min eps h ≠ min eps other ∨ max eps h ≠ max eps other then 0
  else if totalWeight eps h ≠ totalWeight eps other then 0
  else if nonZeroWeight eps h ≠ nonZeroWeight eps other then 0
  else
    let weight := if includeZero then totalWeight eps h else nonZeroWeight eps h
    let rc : ℚ := if includeZero then overlapOf eps (zeroWeight eps h) (zeroWeight eps other) else 0
    if weight = 0 then 0
    else if isPoint eps h || isPoint eps other then
      let rc :=
        if (isPoint eps h && isPoint eps other) ∧ min eps h = min eps other then
          rc + overlapOf eps (nonZeroWeight eps h) (nonZeroWeight eps other)
        else rc
      rc / weight
    else
      let rc := (List.range (bins h)).foldl
        (fun rc b => rc + overlapOf eps (getBinWeight h b) (getBinWeight other b)) rc
      let rc := rc / weight
      if rc > 1 then 1 else rc

/-- `CPHistogram::getBinsUsed`. -/
def getBinsUsed (eps : ℚ) (h : CPHistogram) : Nat :=
  if h._bins = [] then 0
  else (List.range h._bincount).foldl
    (fun n i => if h._bins.getD i 0 > eps then n + 1 else n) 0

/-- The record `CPHistogramHeader` of `ProfileInfoTypes.h`, with the fields that
`serialize` and `deserialize` use. -/
structure CPHistogramHeader where
  ID : Nat
  sumOfSquares : ℚ
  sumOfValues : ℚ
  sumOfWeights : ℚ
  min : ℚ
  max : ℚ
  binsUsed : Nat

/-- The record `CPHistogramBin` of `ProfileInfoTypes.h`. -/
structure CPHistogramBin where
  index : Nat
  weight : ℚ

/-- What `serialize` leaves behind: the header and the bin records written to the
file, and the histogram, whose bins below `eps` were set to 0. -/
structure Serialized where
  header : CPHistogramHeader
  records : List CPHistogramBin
  hist : CPHistogram

/-- `CPHistogram::serialize(ID, f)` on a file that accepts every write (a failing
`fwrite` is the only way to the result `false`). -/
def serialize (eps : ℚ) (h : CPHistogram) (ID : Nat) : Serialized :=
  let snap := fun (x : ℚ) => if x < eps then 0 else x
  let snapped : List ℚ := (List.range h._bincount).foldl
    (fun bs b => if bs.getD b 0 < eps then bs.set b 0 else bs) h._bins
  let h1 : CPHistogram := if h._bins ≠ [] then { h with _bins := snapped } else h
  let entry : CPHistogramHeader :=
    { ID := ID,
      sumOfSquares := snap h._stats.sumOfSquares,
      sumOfValues := snap h._stats.sumOfValues,
      sumOfWeights := snap h._stats.sumOfWeights,
      min := snap h._min,
      max := snap h._max,
      binsUsed := getBinsUsed eps h1 }
  if isPoint eps h1 then { header := entry, records := [], hist := h1 }
  else
    { header := entry,
      records := ((List.range h1._bincount).filter (fun j => getBinWeight h1 j ≠ 0)).map
        (fun j => { index := j, weight := getBinWeight h1 j }),
      hist := h1 }

/-- The conversion of an `unsigned` to the `int` that `deserialize` returns. -/
def toInt32 (n : Nat) : Int :=
  if n % 4294967296 < 2147483648 then ((n % 4294967296 : Nat) : Int)
  else ((n % 4294967296 : Nat) : Int) - 4294967296

/-- The bin-reading loop of `deserialize`: `n` records are still to be read from
`recs`.  `none` is a write outside the bin array.  Otherwise the result is the
histogram with the records stored so far and a flag: `true` when all `n` records
were read, `false` when an `fread` failed (the records read before it stay in the
histogram). -/
def readBins (eps : ℚ) : Nat → CPHistogram → List CPHistogramBin → Option (Bool × CPHistogram)
  | 0, h, _ => some (true, h)
  | _ + 1, h, [] => some (false, h)
  | n + 1, h, r :: rest =>
    match setBinWeight eps h r.index r.weight with
    | none => none
    | some h1 => readBins eps n h1 rest

/-- `CPHistogram::deserialize(bincount, totalweight, f)`: `header` is the header
that `fread` delivers (`none` when the read fails) and `recs` the bin records that
follow it in the file.  The result is the returned `int` and the histogram. -/
def deserialize (eps : ℚ) (h : CPHistogram) (bincount : Nat) (totalweight : ℚ)
    (header : Option CPHistogramHeader) (recs : List CPHistogramBin) :
    Option (Int × CPHistogram) :=
  match header with
  | none => some (-1, h)
  | some entry =>
    let h1 := clear h
    let h2 : CPHistogram :=
      { h1 with
        _stats := { sumOfSquares := entry.sumOfSquares, sumOfValues := entry.sumOfValues,
                    sumOfWeights := entry.sumOfWeights, totalWeight := totalweight },
        _min := entry.min, _max := entry.max }
    if isPoint eps h2 then some (toInt32 entry.ID, h2)
    else
      let h3 := setBinCount h2 bincount
      if bincount < entry.binsUsed then some (-1, h3)
      else
        match readBins eps entry.binsUsed h3 recs with
        | none => none
        | some (false, h4) => some (-1, h4)
        | some (true, h4) => some (toInt32 entry.ID, h4)

/-- `Stats::mean(inclZeros)`. -/
def Stats.mean (s : Stats) (inclZeros : Bool) : ℚ :=
  if s.sumOfWeights = 0 then 0
  else if inclZeros then s.sumOfValues / s.totalWeight
  else s.sumOfValues / s.sumOfWeights

/-- `Stats::stdev(inclZeros)`.  The rationals have no square root, so the function
`sqrt` of `<cmath>` is an argument; `zeros` is `totalWeight - totalWeight`, as in
the source. -/
def Stats.stdev (sqrt : ℚ → ℚ) (s : Stats) (inclZeros : Bool) : ℚ :=
  if s.sumOfWeights = 0 then 0
  else if !inclZeros then sqrt (s.sumOfSquares / s.sumOfWeights)
  else
    let zeros := s.totalWeight - s.totalWeight
    let delta := s.sumOfValues / s.sumOfWeights
    let ss0 := s.sumOfSquares + delta * delta * zeros
    sqrt (ss0 / s.totalWeight)

/-- `CPHistogram::mean(inclZeros)`. -/
def mean (h : CPHistogram) (inclZeros : Bool) : ℚ := h._stats.mean inclZeros

/-- `CPHistogram::stdev(inclZeros)`. -/
def stdev (sqrt : ℚ → ℚ) (h : CPHistogram) (inclZeros : Bool) : ℚ :=
  h._stats.stdev sqrt inclZeros

/-- The `while` loop of `quantile` in exact arithmetic: `w` is the weight of the
bins passed, `i` the index of the bin read next, and the list holds the bins from
index `i` on.  The loop has no test of `i`; when it runs past the last bin (or
`_bins` is `NULL`) the read `_bins[i]` is outside the array and there is no result.
`quantileScanFl` below is the same loop with the running sum rounded. -/
def quantileScan (q2 : ℚ) : ℚ → Nat → List ℚ → Option (ℚ × Nat)
  | _, _, [] => none
  | w, i, b :: rest => if w + b < q2 then quantileScan q2 (w + b) (i + 1) rest else some (w, i)

/-- `CPHistogram::quantile(q)`. -/
def quantile (eps : ℚ) (h : CPHistogram) (q : ℚ) : Option ℚ :=
  if !nonZero eps h then some 0
  else if isPoint eps h then some h._min
  else if q ≤ 0 then some h._min
  else if q ≥ 1 then some h._max
  else
    let q2 := q * nonZeroWeight eps h
    match quantileScan q2 0 0 h._bins with
    | none => none
    | some (w, i) =>
      let p := (q2 - w) / h._bins.getD i 0
      some (getBinLowerLimit eps h i + getBinWidth eps h * p)

/-- `CPHistogram::probLessThan(v)`. -/
def probLessThan (eps : ℚ) (h : CPHistogram) (v : ℚ) : ℚ :=
  if !nonZero eps h then 0
  else
    let rc := getRangeWeight eps h 0 v / h._stats.sumOfWeights
    if rc < eps then 0 else rc

/-- The divisors of the divisions that `Stats::combineStats(s2)` evaluates, in the
order of the source: `na` and `nb` in `Sa/na - Sb/nb`, then `na+nb` in
`na*nb/(na+nb)`.  The list is empty when the function returns before them. -/
def Stats.combineStatsDivisors (s s2 : Stats) : List ℚ :=
  if s2.totalWeight = 0 then []
  else if s.totalWeight = 0 then []
  else
    let sumOfWeights := s.sumOfWeights + s2.sumOfWeights
    let na := sumOfWeights
    let nb := s2.sumOfWeights
    [na, nb, na + nb]

/-- `CPHistogram::quantileRange(min, max)`.  The scan for the upper quantile goes
on from the `w` and `i` that the scan for the lower one has left; a scan that
leaves the bin array has no result. -/
def quantileRange (eps : ℚ) (h : CPHistogram) (min max : ℚ) : Option (ℚ × ℚ) :=
  if !nonZero eps h then some (-1, -1)
  else if isPoint eps h then some (h._min, h._min)
  else if min > max then some (-1, -1)
  else
    let first : Option (ℚ × ℚ × Nat) :=
      if min ≤ 0 then some (h._min, 0, 0)
      else if min ≥ 1 then some (h._max, 0, 0)
      else
        let qmin := min * nonZeroWeight eps h
        match quantileScan qmin 0 0 h._bins with
        | none => none
        | some (w, i) =>
          let p := (qmin - w) / h._bins.getD i 0
          some (getBinLowerLimit eps h i + getBinWidth eps h * p, w, i)
    match first with
    | none => none
    | some (vmin, w, i) =>
      if max ≥ 1 then some (vmin, h._max)
      else if max ≤ 0 then some (vmin, h._min)
      else
        let qmax := max * nonZeroWeight eps h
        match quantileScan qmax w i (h._bins.drop i) with
        | none => none
        | some (w2, i2) =>
          let p := (qmax - w2) / h._bins.getD i2 0
          some (vmin, getBinLowerLimit eps h i2 + getBinWidth eps h * p)

/-- `CPHistogram::applyOnRange(min, max, F)`; `F` is the callback `CPHistFunc`. -/
def applyOnRange (eps : ℚ) (h : CPHistogram) (min max : ℚ) (F : ℚ → ℚ → ℚ) : ℚ :=
  if !nonZero eps h then 0
  else if min ≥ max then 0
  else if isPoint eps h then
    (if min ≤ h._min ∧ max ≥ h._min then F h._min 1 else F h._min 0)
  else
    let bmin := whichBin eps h min
    let bmax := whichBin eps h max
    let bw := getBinWidth eps h
    let nzw := nonZeroWeight eps h
    if bmin = bmax then
      let v := (max + min) / 2
      let p := (max - min) / bw
      let w := getBinWeight h bmin * p / nzw
      F v w
    else
      let ub := getBinUpperLimit eps h bmin
      let rc := 0 + F ((ub + min) / 2) (getBinWeight h bmin * ((ub - min) / bw) / nzw)
      let rc := (List.range' (bmin + 1) (bmax - (bmin + 1))).foldl
        (fun rc b => rc + F (getBinCenter eps h b) (getBinWeight h b / nzw)) rc
      let lb := getBinLowerLimit eps h bmax
      rc + F ((lb + max) / 2) (getBinWeight h bmax * ((max - lb) / bw) / nzw)

/-- `CPHistogram::applyOnQuantile(min, max, F)`. -/
def applyOnQuantile (eps : ℚ) (h : CPHistogram) (min max : ℚ) (F : ℚ → ℚ → ℚ) : Option ℚ :=
  if !nonZero eps h then some 0
  else if min ≥ max then some 0
  else
    let min := if min < 0 then 0 else min
    let max := if max > 1 then 1 else max
    if isPoint eps h then
      let p := max - min
      let w := p * nonZeroWeight eps h
      some (F h._min w)
    else
      match quantileRange eps h min max with
      | none => none
      | some range => some (applyOnRange eps h range.1 range.2 F)

/-- The scan of `cross(const CPHistogramList&)` for a zero histogram: it stops at
the first one.  The list holds pointers, `none` being `NULL`, which the scan
dereferences. -/
def crossScanZero (eps : ℚ) : List (Option CPHistogram) → Option Bool
  | [] => some false
  | none :: _ => none
  | some H :: rest => if !nonZero eps H then some true else crossScanZero eps rest

/-- The local variables of the main loop of `cross(const CPHistogramList&)`. -/
structure CrossState where
  tw : ℚ
  min : ℚ
  max : ℚ
  invals : List WeightedValue
  outvals : List WeightedValue

/-- One iteration of the main loop of `cross(const CPHistogramList&)`.  The pairs
are appended to `outvals`, which is then swapped with `invals` and is not
emptied. -/
def crossStep (eps : ℚ) (st : CrossState) (H : CPHistogram) : CrossState :=
  let outvals : List WeightedValue :=
    if isPoint eps H then
      st.outvals ++ st.invals.map (fun iv => (iv.1 * H._min, iv.2 * H._stats.sumOfWeights))
    else
      (List.range H._bincount).foldl (fun out j =>
        let w := H._bins.getD j 0
        if w ≠ 0 then
          out ++ st.invals.map (fun iv => (iv.1 * getBinCenter eps H j, iv.2 * w))
        else out) st.outvals
  { tw := st.tw * H._stats.totalWeight,
    min := st.min * H._min,
    max := st.max * H._max,
    invals := outvals,
    outvals := st.invals }

/-- `CPHistogram::cross(const CPHistogramList& others)`. -/
def crossList (eps : ℚ) (h : CPHistogram) (others : List (Option CPHistogram)) :
    Option CPHistogram :=
  if !nonZero eps h then some empty
  else
    match crossScanZero eps others with
    | none => none
    | some true => some empty
    | some false =>
      let invals : List WeightedValue :=
        if isPoint eps h then [(h._min, h._stats.sumOfWeights)]
        else
          (List.range h._bincount).foldl (fun acc i =>
            let w := h._bins.getD i 0
            if w ≠ 0 then acc ++ [(getBinCenter eps h i, w)] else acc) []
      let st := (others.filterMap id).foldl (crossStep eps)
        { tw := h._stats.totalWeight, min := h._min, max := h._max,
          invals := invals, outvals := [] }
      let rc := st.invals.foldl addToListWV empty
      buildFromList eps rc h._bincount st.tw st.min st.max

/-- `CPHistogram::estProbLessThan(Y)` in exact arithmetic.  The loop reads
`Y._bins[i]` for every `i < Y._bincount`: there is no result when the array is
shorter than that, and none when one of the two final `assert`s (`p >= 0`,
`p <= 1`) fails.  `estProbLessThanFl` below is the same function with every
operation rounded. -/
def estProbLessThan (eps : ℚ) (h Y : CPHistogram) : Option ℚ :=
  if !(nonZero eps h && nonZero eps Y) then some 0
  else if h._max < Y._min then some 1
  else if h._min > Y._max then some 0
  else if Y._bins.length < Y._bincount then none
  else
    let p := (List.range Y._bincount).foldl
      (fun p i => p + probLessThan eps h (getBinCenter eps Y i) *
        (Y._bins.getD i 0 / Y._stats.sumOfWeights)) 0
    if p ≥ 0 ∧ p ≤ 1 then some p else none

/-- The entries of an add list that pass the filter of `buildFromList`. -/
def survivors (eps : ℚ) (l : List WeightedValue) : List WeightedValue :=
  l.filter (fun wv => decide (wv.1 > eps ∧ wv.2 > eps))

/-- The statistics that `buildFromList` stores when some entry survives:
`Stats(vals)` with the weight missing to `totalweight` added to `totalWeight`. -/
def builtStats (eps : ℚ) (l : List WeightedValue) (tw : ℚ) : Stats :=
  if ((survivors eps l).map Prod.snd).sum < tw then
    { Stats.ofVals (survivors eps l) with
      totalWeight := (Stats.ofVals (survivors eps l)).totalWeight +
        (tw - ((survivors eps l).map Prod.snd).sum) }
  else Stats.ofVals (survivors eps l)

/-- The histogram of `buildFromList` right after its call of `setRange`. -/
def rangedHist (eps : ℚ) (h0 : CPHistogram) (tw mn mx : ℚ) : CPHistogram :=
  setRange { clear h0 with _stats := builtStats eps h0._addList tw }
    (h0._addList.foldl (filterStep eps)
      { vals := [], weight := 0, minVal := mn, maxVal := mx }).minVal
    (h0._addList.foldl (filterStep eps)
      { vals := [], weight := 0, minVal := mn, maxVal := mx }).maxVal

/-- A histogram whose add list is `l` and that is otherwise freshly constructed. -/
def withList (l : List WeightedValue) : CPHistogram :=
  { empty with _addList := l }

/-! ### Rounded arithmetic -/

/-- The number of times `n` can be halved before it drops below 2 (the position of
its leading binary digit); the first argument bounds the number of halvings. -/
def log2Nat : Nat → Nat → Nat
  | 0, _ => 0
  | fuel + 1, n => if n < 2 then 0 else log2Nat fuel (n / 2) + 1

/-- Rounding to the nearest number with a 53-bit significand, ties to the even
significand: the rounding that IEEE 754 binary64 applies to the exact result of an
operation, for results in the normal range (no overflow, no subnormal numbers).
`e` is the binary exponent of `x` and `u` the spacing of the 53-bit numbers at `x`. -/
def roundBinary64 (x : ℚ) : ℚ :=
  if x = 0 then 0
  else
    let e0 : ℤ := (log2Nat 2200 x.num.natAbs : ℤ) - (log2Nat 2200 x.den : ℤ)
    let e : ℤ := if |x| < 2 ^ e0 then e0 - 1 else e0
    let u : ℚ := 2 ^ (e - 52)
    let t : ℚ := x / u
    let f : ℤ := ⌊t⌋
    let m : ℤ :=
      if t - f < 1 / 2 then f
      else if t - f > 1 / 2 then f + 1
      else if f % 2 = 0 then f else f + 1
    m * u

/-- The machine arithmetic that the functions below are read with: `rnd` maps the
exact result of one `double` operation to the `double` that the operation delivers,
and `toInt` is the conversion `(int)` of an integral `double`. -/
structure Arith where
  rnd : ℚ → ℚ
  toInt : ℤ → ℤ

/-- Arithmetic without rounding, the reading of `double` in the definitions above. -/
def Arith.exact : Arith := { rnd := fun x => x, toInt := fun z => z }

/-- The arithmetic of binary64.  The conversion `(int)` of a value outside the range
of `int` is undefined in C++; the conversion instruction of x86 delivers `-2^31`,
which is the value taken here. -/
def Arith.binary64 : Arith :=
  { rnd := roundBinary64,
    toInt := fun z => if -2147483648 ≤ z ∧ z < 2147483648 then z else -2147483648 }

/-- `CPHistogram::getBinWidth`, every operation rounded by `A`. -/
def getBinWidthFl (A : Arith) (eps : ℚ) (h : CPHistogram) : ℚ :=
  if !nonZero eps h then 0
  else if isPoint eps h then 0
  else A.rnd (A.rnd (h._max - h._min) / (h._bincount : ℚ))

/-- `CPHistogram::getBinCenter`, every operation rounded by `A`. -/
def getBinCenterFl (A : Arith) (eps : ℚ) (h : CPHistogram) (b : Nat) : ℚ :=
  if !nonZero eps h then 0
  else A.rnd (h._min + A.rnd (getBinWidthFl A eps h * A.rnd ((b : ℚ) + 1 / 2)))

/-- `CPHistogram::getBinUpperLimit`, every operation rounded by `A`. -/
def getBinUpperLimitFl (A : Arith) (eps : ℚ) (h : CPHistogram) (b : Nat) : ℚ :=
  if !nonZero eps h then 0
  else A.rnd (h._min + A.rnd (getBinWidthFl A eps h * ((b : ℚ) + 1)))

/-- `CPHistogram::getBinLowerLimit`, every operation rounded by `A`. -/
def getBinLowerLimitFl (A : Arith) (eps : ℚ) (h : CPHistogram) (b : Nat) : ℚ :=
  if !nonZero eps h then 0
  else A.rnd (h._min + A.rnd (getBinWidthFl A eps h * (b : ℚ)))

/-- `CPHistogram::whichBin`, every operation rounded by `A`: `bin` is the `int`
that the conversion of `floor((v-_min) / getBinWidth())` delivers. -/
def whichBinFl (A : Arith) (eps : ℚ) (h : CPHistogram) (v : ℚ) : Nat :=
  if !nonZero eps h then 0
  else
    let bin : Int := A.toInt ⌊A.rnd (A.rnd (v - h._min) / getBinWidthFl A eps h)⌋
    if isPoint eps h then 0
    else if bin < 0 then 0
    else if bin.toNat ≥ h._bincount then predU32 h._bincount
    else bin.toNat

/-- The block of `getRangeWeight` that snaps the upper bound, every operation
rounded by `A`. -/
def snapUpperFl (A : Arith) (eps : ℚ) (h : CPHistogram) (ub : ℚ) (ubBin : Nat) :
    Option (ℚ × Nat × Bool) :=
  if ub > A.rnd (getBinUpperLimitFl A eps h ubBin - eps) then
    some (getBinUpperLimitFl A eps h ubBin, ubBin, true)
  else if ub < A.rnd (getBinLowerLimitFl A eps h ubBin + eps) then
    (if ubBin > 0 then some (getBinLowerLimitFl A eps h ubBin, ubBin - 1, true) else none)
  else some (ub, ubBin, false)

/-- The block of `getRangeWeight` that snaps the lower bound, every operation
rounded by `A`. -/
def snapLowerFl (A : Arith) (eps : ℚ) (h : CPHistogram) (lb : ℚ) (lbBin : Nat) :
    Option (ℚ × Nat × Bool) :=
  if lb < A.rnd (getBinLowerLimitFl A eps h lbBin + eps) then
    some (getBinLowerLimitFl A eps h lbBin, lbBin, true)
  else if lb > A.rnd (getBinUpperLimitFl A eps h lbBin - eps) then
    (if lbBin < predU32 h._bincount then
      some (getBinUpperLimitFl A eps h lbBin, lbBin + 1, true)
     else none)
  else some (lb, lbBin, false)

/-- `CPHistogram::getRangeWeight(lb, ub)`, every operation rounded by `A`. -/
def getRangeWeightFl (A : Arith) (eps : ℚ) (h : CPHistogram) (lb ub : ℚ) : ℚ :=
  if !nonZero eps h then 0
  else if lb > ub then 0
  else if A.rnd (ub - lb) < eps then 0
  else if isPoint eps h then
    (if lb ≤ h._min ∧ ub ≥ h._max then nonZeroWeight eps h else 0)
  else if h._bins = [] then 0
  else if ub ≤ h._min ∨ lb ≥ h._max then 0
  else
    let lb := if lb < h._min then h._min else lb
    let ub := if ub > h._max then h._max else ub
    let bw := getBinWidthFl A eps h
    match snapUpperFl A eps h ub (whichBinFl A eps h ub) with
    | none => 0
    | some (ub, ubBin, ubIsBoundary) =>
      match snapLowerFl A eps h lb (whichBinFl A eps h lb) with
      | none => 0
      | some (lb, lbBin, lbIsBoundary) =>
        if lbBin = ubBin then
          if lbIsBoundary && ubIsBoundary then h._bins.getD lbBin 0
          else
            let w := A.rnd (A.rnd (A.rnd (ub - lb) / bw) * h._bins.getD lbBin 0)
            if w < 0 then 0 else w
        else
          let w1 :=
            if lbIsBoundary then h._bins.getD lbBin 0
            else A.rnd (A.rnd (A.rnd (getBinUpperLimitFl A eps h lbBin - lb) / bw) *
              h._bins.getD lbBin 0)
          let weight := A.rnd (0 + (if w1 < 0 then 0 else w1))
          let w2 :=
            if ubIsBoundary then h._bins.getD ubBin 0
            else A.rnd (A.rnd (A.rnd (ub - getBinLowerLimitFl A eps h ubBin) / bw) *
              h._bins.getD ubBin 0)
          let weight := A.rnd (weight + (if w2 < 0 then 0 else w2))
          (List.range' (lbBin + 1) (ubBin - (lbBin + 1))).foldl
            (fun acc i => A.rnd (acc + h._bins.getD i 0)) weight

/-- `CPHistogram::probLessThan(v)`, every operation rounded by `A`. -/
def probLessThanFl (A : Arith) (eps : ℚ) (h : CPHistogram) (v : ℚ) : ℚ :=
  if !nonZero eps h then 0
  else
    let rc := A.rnd (getRangeWeightFl A eps h 0 v / h._stats.sumOfWeights)
    if rc < eps then 0 else rc

/-- The loop of `estProbLessThan`, every operation rounded by `A`: the value of `p`
after the bins `0 .. Y._bincount-1` of `Y`. -/
def estProbLessThanSum (A : Arith) (eps : ℚ) (h Y : CPHistogram) : ℚ :=
  (List.range Y._bincount).foldl
    (fun p i => A.rnd (p + A.rnd (probLessThanFl A eps h (getBinCenterFl A eps Y i) *
      A.rnd (Y._bins.getD i 0 / Y._stats.sumOfWeights)))) 0

/-- `CPHistogram::estProbLessThan(Y)`, every operation rounded by `A`; there is no
result when the loop reads outside the bin array of `Y` or when one of the two
final `assert`s (`p >= 0`, `p <= 1`) fails. -/
def estProbLessThanFl (A : Arith) (eps : ℚ) (h Y : CPHistogram) : Option ℚ :=
  if !(nonZero eps h && nonZero eps Y) then some 0
  else if h._max < Y._min then some 1
  else if h._min > Y._max then some 0
  else if Y._bins.length < Y._bincount then none
  else
    let p := estProbLessThanSum A eps h Y
    if p ≥ 0 ∧ p ≤ 1 then some p else none

/-- The `while` loop of `quantile` with the running sum rounded by `A`. -/
def quantileScanFl (A : Arith) (q2 : ℚ) : ℚ → Nat → List ℚ → Option (ℚ × Nat)
  | _, _, [] => none
  | w, i, b :: rest =>
    if A.rnd (w + b) < q2 then quantileScanFl A q2 (A.rnd (w + b)) (i + 1) rest
    else some (w, i)

/-- `CPHistogram::quantile(q)`, every operation rounded by `A`. -/
def quantileFl (A : Arith) (eps : ℚ) (h : CPHistogram) (q : ℚ) : Option ℚ :=
  if !nonZero eps h then some 0
  else if isPoint eps h then some h._min
  else if q ≤ 0 then some h._min
  else if q ≥ 1 then some h._max
  else
    let q2 := A.rnd (q * nonZeroWeight eps h)
    match quantileScanFl A q2 0 0 h._bins with
    | none => none
    | some (w, i) =>
      let p := A.rnd (A.rnd (q2 - w) / h._bins.getD i 0)
      some (A.rnd (getBinLowerLimitFl A eps h i + A.rnd (getBinWidthFl A eps h * p)))

end CPHistogram

/-! ## Theorems -/

namespace CPHistogram

theorem foldl_filterStep_vals (eps : ℚ) (l : List WeightedValue) (st : FilterState) :
    (l.foldl (filterStep eps) st).vals = st.vals ++ survivors eps l := by
  induction l generalizing st with
  | nil => simp [survivors]
  | cons a t ih =>
    simp only [List.foldl_cons, ih]
    by_cases hp : a.1 > eps ∧ a.2 > eps
    · simp [filterStep, hp, survivors, List.filter_cons]
    · simp [filterStep, hp, survivors, List.filter_cons]

theorem foldl_filterStep_weight (eps : ℚ) (l : List WeightedValue) (st : FilterState) :
    (l.foldl (filterStep eps) st).weight = st.weight + ((survivors eps l).map Prod.snd).sum := by
  induction l generalizing st with
  | nil => simp [survivors]
  | cons a t ih =>
    simp only [List.foldl_cons, ih]
    by_cases hp : a.1 > eps ∧ a.2 > eps
    · simp [filterStep, hp, survivors, List.filter_cons, add_assoc]
    · simp [filterStep, hp, survivors, List.filter_cons]

theorem mem_survivors {eps : ℚ} {l : List WeightedValue} {wv : WeightedValue}
    (h : wv ∈ survivors eps l) : wv ∈ l ∧ eps < wv.1 ∧ eps < wv.2 := by
  simpa [survivors, List.mem_filter] using h

theorem foldl_sumStep (l : List WeightedValue) (s : Stats)
    (hl : ∀ wv ∈ l, wv.1 ≠ 0 ∧ wv.2 ≠ 0) :
    l.foldl Stats.sumStep s =
      { sumOfSquares := s.sumOfSquares,
        sumOfValues := s.sumOfValues + (l.map (fun wv => wv.1 * wv.2)).sum,
        sumOfWeights := s.sumOfWeights + (l.map Prod.snd).sum,
        totalWeight := s.totalWeight + (l.map Prod.snd).sum } := by
  induction l generalizing s with
  | nil => simp
  | cons a t ih =>
    have ha := hl a (List.mem_cons_self _ _)
    have ht : ∀ wv ∈ t, wv.1 ≠ 0 ∧ wv.2 ≠ 0 := fun wv h => hl wv (List.mem_cons_of_mem _ h)
    simp only [List.foldl_cons, ih _ ht]
    simp [Stats.sumStep, ha.1, ha.2, add_assoc]

theorem foldl_squareStep (mean : ℚ) (l : List WeightedValue) (s : Stats) :
    (l.foldl (Stats.squareStep mean) s).sumOfValues = s.sumOfValues ∧
    (l.foldl (Stats.squareStep mean) s).sumOfWeights = s.sumOfWeights ∧
    (l.foldl (Stats.squareStep mean) s).totalWeight = s.totalWeight := by
  induction l generalizing s with
  | nil => simp
  | cons a t ih =>
    simp only [List.foldl_cons]
    obtain ⟨h1, h2, h3⟩ := ih (Stats.squareStep mean s a)
    rw [h1, h2, h3]
    unfold Stats.squareStep
    split <;> simp

theorem ofVals_sums (l : List WeightedValue) (hl : ∀ wv ∈ l, wv.1 ≠ 0 ∧ wv.2 ≠ 0) :
    (Stats.ofVals l).sumOfValues = (l.map (fun wv => wv.1 * wv.2)).sum ∧
    (Stats.ofVals l).sumOfWeights = (l.map Prod.snd).sum ∧
    (Stats.ofVals l).totalWeight = (l.map Prod.snd).sum := by
  unfold Stats.ofVals
  by_cases h0 : l.length = 0
  · have : l = [] := List.length_eq_zero.mp h0
    subst this
    simp [Stats.clear]
  · simp only [h0, if_false]
    obtain ⟨h1, h2, h3⟩ := foldl_squareStep
      ((l.foldl Stats.sumStep Stats.clear).sumOfValues / (l.foldl Stats.sumStep Stats.clear).sumOfWeights)
      l (l.foldl Stats.sumStep Stats.clear)
    rw [h1, h2, h3, foldl_sumStep l _ hl]
    simp [Stats.clear]

theorem sum_modify_add (w : ℚ) (l : List ℚ) (b : Nat) (hb : b < l.length) :
    (l.modify (fun x => x + w) b).sum = l.sum + w := by
  induction l generalizing b with
  | nil => simp at hb
  | cons a t ih =>
    cases b with
    | zero => simp only [List.modify_zero_cons, List.sum_cons]; ring
    | succ n =>
      have hn : n < t.length := by simpa using hb
      simp only [List.modify_succ_cons, List.sum_cons, ih n hn]; ring

theorem isPoint_false_iff (eps : ℚ) (h : CPHistogram) :
    isPoint eps h = false ↔ eps < h._stats.sumOfWeights ∧ h._min ≠ h._max := by
  unfold isPoint nonZero
  by_cases h1 : h._stats.sumOfWeights > eps <;> simp [h1]

theorem whichBin_lt (eps : ℚ) (h : CPHistogram) (v : ℚ) (hb : 1 ≤ h._bincount) :
    whichBin eps h v < h._bincount := by
  unfold whichBin predU32
  have h0 : h._bincount ≠ 0 := by omega
  simp only [h0, if_false]
  split
  · omega
  · split
    · omega
    · split
      · omega
      · split
        · omega
        · omega

theorem addToBin_eq (eps : ℚ) (h : CPHistogram) (b : Nat) (w : ℚ)
    (hp : isPoint eps h = false) (hlen : h._bins.length = h._bincount) (hb : b < h._bincount) :
    addToBin eps h b w = some { h with _bins := h._bins.modify (fun x => x + w) b } := by
  unfold addToBin
  have h1 : ¬ (b ≥ h._bincount) := by omega
  simp [hlen, hb, hp, h1]

theorem getD_modify_add (w : ℚ) (l : List ℚ) (b i : Nat) :
    (l.modify (fun x => x + w) b).getD i 0 = l.getD i 0 + (if b = i ∧ i < l.length then w else 0) := by
  induction l generalizing b i with
  | nil => simp
  | cons a t ih =>
    cases b with
    | zero =>
      cases i with
      | zero => simp
      | succ j => simp
    | succ n =>
      cases i with
      | zero => simp
      | succ j =>
        have := ih n j
        simp only [List.getD_eq_getElem?_getD] at this
        simp [this]

theorem depositAll_spec (eps : ℚ) (vals : List WeightedValue) (h : CPHistogram)
    (hp : isPoint eps h = false) (hlen : h._bins.length = h._bincount) (hb : 1 ≤ h._bincount) :
    ∃ bs : List ℚ, depositAll eps h vals = some { h with _bins := bs } ∧
      bs.length = h._bincount ∧
      (∀ i, i < h._bincount → bs.getD i 0 = h._bins.getD i 0 +
        ((vals.filter (fun wv => decide (whichBin eps h wv.1 = i))).map Prod.snd).sum) ∧
      bs.sum = h._bins.sum + (vals.map Prod.snd).sum := by
  induction vals generalizing h with
  | nil => exact ⟨h._bins, by simp [depositAll], hlen, by simp, by simp⟩
  | cons a t ih =>
    have hlt := whichBin_lt eps h a.1 hb
    simp only [depositAll, addToBin_eq eps h _ a.2 hp hlen hlt]
    have hp1 : isPoint eps { h with _bins := h._bins.modify (fun x => x + a.2) (whichBin eps h a.1) }
        = false := by
      rw [isPoint_false_iff] at hp ⊢
      exact hp
    obtain ⟨bs, h1, h2, h3, h4⟩ := ih
      { h with _bins := h._bins.modify (fun x => x + a.2) (whichBin eps h a.1) } hp1
      (by simp [hlen]) hb
    refine ⟨bs, h1, h2, ?_, ?_⟩
    · intro i hi
      have hw : ∀ v, whichBin eps
          { h with _bins := h._bins.modify (fun x => x + a.2) (whichBin eps h a.1) } v
          = whichBin eps h v := fun v => rfl
      rw [h3 i hi]
      simp only [hw, getD_modify_add, List.filter_cons]
      by_cases hc : whichBin eps h a.1 = i
      · simp [hc, hlen, hi]; ring
      · simp [hc]
    · rw [h4]
      simp only [List.map_cons, List.sum_cons]
      rw [sum_modify_add a.2 h._bins _ (by rw [hlen]; exact hlt)]
      ring

theorem survivors_ne_zero {eps : ℚ} (heps : 0 < eps) (l : List WeightedValue) :
    ∀ wv ∈ survivors eps l, wv.1 ≠ 0 ∧ wv.2 ≠ 0 := by
  intro wv h
  obtain ⟨_, h1, h2⟩ := mem_survivors h
  exact ⟨ne_of_gt (lt_trans heps h1), ne_of_gt (lt_trans heps h2)⟩

theorem buildFromList_some (eps : ℚ) (h0 : CPHistogram) (bincount : Nat)
    (tw mn mx : ℚ) (hs : survivors eps h0._addList ≠ []) :
    buildFromList eps h0 bincount tw mn mx =
      if isPoint eps (rangedHist eps h0 tw mn mx) = false then
        (depositAll eps (setBinCount (rangedHist eps h0 tw mn mx) bincount)
          (survivors eps h0._addList)).map clearList
      else some (clearList (rangedHist eps h0 tw mn mx)) := by
  have hne : h0._addList ≠ [] := by
    intro h; apply hs; simp [survivors, h]
  have hlen : ¬ (h0._addList.length = 0) := fun h => hne (List.length_eq_zero.mp h)
  have hlen2 : ¬ ((survivors eps h0._addList).length = 0) := fun h => hs (List.length_eq_zero.mp h)
  unfold buildFromList rangedHist builtStats
  simp only [clear, setBinCount, hlen, if_false, foldl_filterStep_vals, foldl_filterStep_weight,
    List.nil_append, zero_add, hlen2]
  split <;> simp_all

theorem buildFromList_no_survivor (eps : ℚ) (h0 : CPHistogram) (bincount : Nat)
    (tw mn mx : ℚ) (hs : survivors eps h0._addList = []) :
    buildFromList eps h0 bincount tw mn mx =
      some (if h0._addList.length = 0 then
        { clear h0 with _stats := { Stats.clear with totalWeight := tw } } else clear h0) := by
  unfold buildFromList
  by_cases hlen : h0._addList.length = 0
  · simp [clear, setBinCount, hlen]
  · simp [clear, setBinCount, hlen, foldl_filterStep_vals, hs]

theorem builtStats_sums {eps : ℚ} (heps : 0 < eps) (l : List WeightedValue) (tw : ℚ) :
    (builtStats eps l tw).sumOfWeights = ((survivors eps l).map Prod.snd).sum ∧
    (builtStats eps l tw).sumOfValues = ((survivors eps l).map (fun wv => wv.1 * wv.2)).sum ∧
    (builtStats eps l tw).sumOfSquares = (Stats.ofVals (survivors eps l)).sumOfSquares ∧
    (builtStats eps l tw).totalWeight =
      (if ((survivors eps l).map Prod.snd).sum < tw then tw
       else ((survivors eps l).map Prod.snd).sum) := by
  obtain ⟨h1, h2, h3⟩ := ofVals_sums _ (survivors_ne_zero heps l)
  unfold builtStats
  split
  · refine ⟨h2, h1, rfl, ?_⟩
    simp only [h3]; ring
  · exact ⟨h2, h1, rfl, h3⟩

/-- The result of `buildFromList` when at least one entry survives the filter. -/
theorem buildFromList_spec (eps : ℚ) (h0 : CPHistogram) (bincount : Nat)
    (hb : 1 ≤ bincount) (tw mn mx : ℚ) (hs : survivors eps h0._addList ≠ []) :
    ∃ H, buildFromList eps h0 bincount tw mn mx = some H ∧
      H._stats = builtStats eps h0._addList tw ∧
      H._min = (rangedHist eps h0 tw mn mx)._min ∧
      H._max = (rangedHist eps h0 tw mn mx)._max ∧
      H._addList = [] ∧
      (isPoint eps H = true → H._bincount = 0 ∧ H._bins = []) ∧
      (isPoint eps H = false → H._bincount = bincount ∧ H._bins.length = bincount ∧
        (∀ i, i < bincount → H._bins.getD i 0 =
          (((survivors eps h0._addList).filter
            (fun wv => decide (whichBin eps H wv.1 = i))).map Prod.snd).sum) ∧
        H._bins.sum = ((survivors eps h0._addList).map Prod.snd).sum) := by
  rw [buildFromList_some eps h0 bincount tw mn mx hs]
  obtain ⟨R, hR⟩ : ∃ R, R = rangedHist eps h0 tw mn mx := ⟨_, rfl⟩
  have hRs : R._stats = builtStats eps h0._addList tw := by rw [hR]; rfl
  have hRc : R._bincount = 0 := by rw [hR]; rfl
  have hRb : R._bins = [] := by rw [hR]; rfl
  rw [← hR]
  clear hR
  by_cases hp : isPoint eps R = false
  · simp only [hp, if_true]
    obtain ⟨bs, h1, h2, h3, h4⟩ := depositAll_spec eps (survivors eps h0._addList)
      (setBinCount R bincount)
      (by rw [isPoint_false_iff] at hp ⊢; exact hp) (by simp [setBinCount]) hb
    have hq : isPoint eps (clearList { setBinCount R bincount with _bins := bs }) = false := by
      rw [isPoint_false_iff] at hp ⊢; exact hp
    refine ⟨clearList { setBinCount R bincount with _bins := bs }, by rw [h1]; rfl,
      hRs, rfl, rfl, rfl, ?_, ?_⟩
    · intro hc
      rw [hq] at hc; cases hc
    · intro _
      refine ⟨rfl, h2, ?_, ?_⟩
      · intro i hi
        have := h3 i hi
        simp only [setBinCount] at this
        simp only [clearList]
        rw [this]
        simp [List.getD_eq_getElem?_getD, List.getElem?_replicate, hi]
        rfl
      · simp only [clearList]
        rw [h4]; simp [setBinCount]
  · simp only [hp, if_false]
    have hq : isPoint eps (clearList R) = true := by
      cases hc : isPoint eps (clearList R) with
      | true => rfl
      | false =>
        exfalso; apply hp
        rw [isPoint_false_iff] at hc ⊢; exact hc
    refine ⟨clearList R, rfl, hRs, rfl, rfl, rfl, ?_, ?_⟩
    · intro _
      exact ⟨hRc, hRb⟩
    · intro hc
      rw [hq] at hc; cases hc

/-- C1: for every add list, bin count of at least 1, total weight and seed range,
`buildFromList` has a result, and when that result is not a point the sum of its
bin weights equals `nonZeroWeight()`, which is `sumOfWeights`, which is the summed
weight of the entries with value and weight above `FP_FUDGE_EPS` (exactly, hence
within `1e-9`). -/
theorem buildFromList_bins_sum (eps : ℚ) (heps : 0 < eps) (h0 : CPHistogram)
    (bincount : Nat) (hb : 1 ≤ bincount) (tw mn mx : ℚ) :
    ∃ H, buildFromList eps h0 bincount tw mn mx = some H ∧
      (isPoint eps H = false →
        H._bins.sum = nonZeroWeight eps H ∧
        nonZeroWeight eps H = H._stats.sumOfWeights ∧
        H._stats.sumOfWeights = ((survivors eps h0._addList).map Prod.snd).sum ∧
        |H._bins.sum - nonZeroWeight eps H| ≤ 1 / 10 ^ 9) := by
  by_cases hs : survivors eps h0._addList = []
  · refine ⟨_, buildFromList_no_survivor eps h0 bincount tw mn mx hs, ?_⟩
    intro hp
    rw [isPoint_false_iff] at hp
    exfalso
    have h1 := hp.1
    split at h1 <;> simp [clear, setBinCount, Stats.clear] at h1 <;> linarith
  · obtain ⟨H, h1, h2, _, _, _, _, h7⟩ := buildFromList_spec eps h0 bincount hb tw mn mx hs
    refine ⟨H, h1, ?_⟩
    intro hp
    obtain ⟨_, _, _, hsum⟩ := h7 hp
    have hsw : H._stats.sumOfWeights = ((survivors eps h0._addList).map Prod.snd).sum := by
      rw [h2]; exact (builtStats_sums heps _ tw).1
    have hnz : nonZeroWeight eps H = H._stats.sumOfWeights := by
      unfold nonZeroWeight
      rw [isPoint_false_iff] at hp
      simp [not_lt.mpr (le_of_lt hp.1)]
    refine ⟨by rw [hsum, hnz, hsw], hnz, hsw, ?_⟩
    rw [hsum, hnz, hsw]
    norm_num

theorem buildFromList_bins_sum_witness :
    ∃ H, buildFromList (1 / 10 ^ 10) (withList [(2, 3), (6, 1)]) 2 4 2 6 = some H ∧
      (isPoint (1 / 10 ^ 10) H = false →
        H._bins.sum = nonZeroWeight (1 / 10 ^ 10) H ∧
        nonZeroWeight (1 / 10 ^ 10) H = H._stats.sumOfWeights ∧
        H._stats.sumOfWeights =
          ((survivors (1 / 10 ^ 10) (withList [(2, 3), (6, 1)])._addList).map Prod.snd).sum ∧
        |H._bins.sum - nonZeroWeight (1 / 10 ^ 10) H| ≤ 1 / 10 ^ 9) :=
  buildFromList_bins_sum (1 / 10 ^ 10) (by norm_num) (withList [(2, 3), (6, 1)]) 2 (by decide) 4 2 6

/-- C2 (evaluation at the failing input): the point histogram at 4 (weight 1) and
the histogram on `[2,6]` with bins `[1,1]`, both built by `buildFromList`, are
combined on 2 bins.  The point lies on the boundary shared by the two target bins
and `getRangeWeight` reports it for both: the result is not a point, its bins are
`[2,2]` with sum 4, and its `nonZeroWeight()` is 3. -/
theorem ofHistogramList_counts_boundary_point_twice :
    ∃ P H R : CPHistogram,
      buildFromList (1 / 10 ^ 10) (withList [(4, 1)]) 2 1 4 4 = some P ∧
      buildFromList (1 / 10 ^ 10) (withList [(3, 1), (5, 1)]) 2 2 2 6 = some H ∧
      isPoint (1 / 10 ^ 10) P = true ∧
      (isPoint (1 / 10 ^ 10) H = false ∧ H._bins = [1, 1] ∧
        nonZeroWeight (1 / 10 ^ 10) H = 2) ∧
      getRangeWeight (1 / 10 ^ 10) P 2 4 = 1 ∧ getRangeWeight (1 / 10 ^ 10) P 4 6 = 1 ∧
      ofHistogramList (1 / 10 ^ 10) 2 3 [some P, some H] = some R ∧
      isPoint (1 / 10 ^ 10) R = false ∧ R._bins = [2, 2] ∧ R._bins.sum = 4 ∧
      nonZeroWeight (1 / 10 ^ 10) R = 3 :=
  ⟨{ _min := 4, _max := 4, _bincount := 0, _bins := [], _stats := ⟨0, 4, 1, 1⟩, _addList := [] },
   { _min := 2, _max := 6, _bincount := 2, _bins := [1, 1], _stats := ⟨2, 8, 2, 2⟩,
     _addList := [] },
   { _min := 2, _max := 6, _bincount := 2, _bins := [2, 2], _stats := ⟨2, 12, 3, 3⟩,
     _addList := [] },
   by decide!, by decide!, by decide!, by decide!, by decide!, by decide!, by decide!,
   by decide!, by decide!, by decide!, by decide!⟩

/-- C3 (evaluation at the failing input): `a` has weight 1 at value 2, `b` weight 1
at value 4.  `combineStats` adds the three sums, but reads `na` and `Sa` after that
update, so `sumOfSquares` becomes `2/3`; the formula of the claim (and of the
comment in the source) gives `2`. -/
theorem combineStats_sumOfSquares_uses_updated_sums :
    Stats.ofVals [(2, 1)] = ⟨0, 2, 1, 1⟩ ∧ Stats.ofVals [(4, 1)] = ⟨0, 4, 1, 1⟩ ∧
    Stats.combineStats (Stats.ofVals [(2, 1)]) (Stats.ofVals [(4, 1)]) = ⟨2 / 3, 6, 2, 2⟩ ∧
    ((0 : ℚ) + 0 + (1 * 1 / (1 + 1)) * (2 / 1 - 4 / 1) ^ 2 = 2) := by
  refine ⟨by decide!, by decide!, by decide!, by norm_num⟩

/-- C4 (evaluation at the failing input): with `a` of weight 1 at value 2 and `b` of
weight 2 at value 4, combining `b` into `a` leaves `sumOfSquares = 8/15` and
combining `a` into `b` leaves `sumOfSquares = 4/3`; the other three sums agree. -/
theorem combineStats_not_commutative :
    Stats.combineStats (Stats.ofVals [(2, 1)]) (Stats.ofVals [(4, 2)]) = ⟨8 / 15, 10, 3, 3⟩ ∧
    Stats.combineStats (Stats.ofVals [(4, 2)]) (Stats.ofVals [(2, 1)]) = ⟨4 / 3, 10, 3, 3⟩ := by
  refine ⟨by decide!, by decide!⟩

/-- C5 (evaluation at the failing input): appending the zero-valued entry `(0, 1)` to
`[(2, 1)]` leaves `sumOfValues` and `sumOfWeights`, raises `totalWeight` by 1, and
raises `sumOfSquares` from 0 to 4: the second loop of the constructor does not skip
zero values. -/
theorem ofVals_zero_value_changes_sumOfSquares :
    Stats.ofVals [(2, 1)] = ⟨0, 2, 1, 1⟩ ∧
    Stats.ofVals ([(2, 1)] ++ [(0, 1)]) = ⟨4, 2, 1, 2⟩ := by
  refine ⟨by decide!, by decide!⟩

theorem nonZero_eq_true_iff (eps : ℚ) (h : CPHistogram) :
    nonZero eps h = true ↔ eps < h._stats.sumOfWeights := by
  simp [nonZero]

theorem isPoint_true_of_nonZero {eps : ℚ} {h : CPHistogram} (hn : nonZero eps h = true)
    (hp : isPoint eps h = true) : h._min = h._max := by
  simpa [isPoint, hn] using hp

/-- C9 (counterexample): two point histograms at value `1/10^6` with weight 1, built
by `buildFromList`.  Their product value `1/10^12` does not exceed
`FP_FUDGE_EPS = 1/10^10`, so the filter of `buildFromList` drops the only pair and
`cross` returns the empty histogram at 0 with `nonZeroWeight() = 0`. -/
theorem cross_points_small_product :
    ∃ P R : CPHistogram,
      buildFromList (1 / 10 ^ 10) (withList [(1 / 10 ^ 6, 1)]) 0 1 (1 / 10 ^ 6) (1 / 10 ^ 6) = some P ∧
      nonZero (1 / 10 ^ 10) P = true ∧ isPoint (1 / 10 ^ 10) P = true ∧
      P._min = 1 / 10 ^ 6 ∧ P._max = 1 / 10 ^ 6 ∧ P._stats.sumOfWeights = 1 ∧
      cross (1 / 10 ^ 10) P P = some R ∧
      R._min = 0 ∧ R._min ≠ P._min * P._min ∧
      nonZeroWeight (1 / 10 ^ 10) R = 0 ∧
      nonZeroWeight (1 / 10 ^ 10) R ≠ P._stats.sumOfWeights * P._stats.sumOfWeights :=
  ⟨{ _min := 1 / 10 ^ 6, _max := 1 / 10 ^ 6, _bincount := 0, _bins := [],
     _stats := ⟨0, 1 / 10 ^ 6, 1, 1⟩, _addList := [] },
   { _min := 0, _max := 0, _bincount := 0, _bins := [], _stats := ⟨0, 0, 0, 0⟩,
     _addList := [(1 / 10 ^ 12, 1)] },
   by decide!, by decide!, by decide!, by decide!, by decide!, by decide!, by decide!,
   by decide!, by decide!, by decide!, by decide!⟩

/-- C9 (amended): for two non-empty point histograms `P1` (weight `w1` at `v1`) and
`P2` (weight `w2` at `v2`) whose products `v1*v2` and `w1*w2` both exceed
`FP_FUDGE_EPS`, `P1.cross(P2)` is a non-empty point histogram: no bins,
`min = max = v1*v2`, and `nonZeroWeight() = w1*w2`. -/
theorem cross_points (eps : ℚ) (heps : 0 < eps) (P1 P2 : CPHistogram)
    (h1 : nonZero eps P1 = true) (h2 : nonZero eps P2 = true)
    (p1 : isPoint eps P1 = true) (p2 : isPoint eps P2 = true)
    (hv : eps < P1._min * P2._min)
    (hw : eps < P1._stats.sumOfWeights * P2._stats.sumOfWeights) :
    ∃ R, cross eps P1 P2 = some R ∧ isPoint eps R = true ∧ nonZero eps R = true ∧
      R._bincount = 0 ∧ R._bins = [] ∧
      R._min = P1._min * P2._min ∧ R._max = P1._min * P2._min ∧
      nonZeroWeight eps R = P1._stats.sumOfWeights * P2._stats.sumOfWeights := by
  have e1 := isPoint_true_of_nonZero h1 p1
  have e2 := isPoint_true_of_nonZero h2 p2
  have hv0 : 0 < P1._min * P2._min := lt_trans heps hv
  have hw0 : 0 < P1._stats.sumOfWeights * P2._stats.sumOfWeights := lt_trans heps hw
  have hv' : ¬ (P1._min * P2._min < 0) := not_lt.mpr (le_of_lt hv0)
  have hw1 : ¬ (P1._stats.sumOfWeights * P2._stats.sumOfWeights < eps) := not_lt.mpr (le_of_lt hw)
  refine ⟨{ _min := P1._min * P2._min, _max := P1._min * P2._min, _bincount := 0, _bins := [],
            _stats := builtStats eps [(P1._min * P2._min,
              P1._stats.sumOfWeights * P2._stats.sumOfWeights)]
              (P1._stats.totalWeight * P2._stats.totalWeight),
            _addList := [] }, ?_, ?_, ?_, rfl, rfl, rfl, rfl, ?_⟩
  · unfold cross
    simp only [h1, h2, p1, p2, Bool.and_self, Bool.not_true, Bool.or_self, if_true,
      Bool.false_eq_true, if_false]
    simp only [addToListWV, hv0, hw0, gt_iff_lt, and_self, if_true, empty, List.nil_append]
    have hs : survivors eps [(P1._min * P2._min,
        P1._stats.sumOfWeights * P2._stats.sumOfWeights)] ≠ [] := by
      simp [survivors, hv, hw]
    rw [buildFromList_some eps _ _ _ _ _ hs]
    have hr : rangedHist eps
        { _min := 0, _max := 0, _bincount := 0, _bins := [], _stats := Stats.clear,
          _addList := [(P1._min * P2._min, P1._stats.sumOfWeights * P2._stats.sumOfWeights)] }
        (P1._stats.totalWeight * P2._stats.totalWeight)
        (P1._min * P2._min) (P1._max * P2._max) =
        { _min := P1._min * P2._min, _max := P1._min * P2._min, _bincount := 0, _bins := [],
          _stats := builtStats eps [(P1._min * P2._min,
            P1._stats.sumOfWeights * P2._stats.sumOfWeights)]
            (P1._stats.totalWeight * P2._stats.totalWeight),
          _addList := [(P1._min * P2._min, P1._stats.sumOfWeights * P2._stats.sumOfWeights)] } := by
      simp [rangedHist, filterStep, hv, hw, setRange, clear, setBinCount, ← e1, ← e2, hv']
    rw [hr]
    simp [isPoint, clearList]
  · simp [isPoint]
  · rw [nonZero_eq_true_iff]
    rw [(builtStats_sums heps _ _).1]
    simp [survivors, hv, hw]
  · unfold nonZeroWeight
    simp only
    rw [(builtStats_sums heps _ _).1]
    simp [survivors, hv, hw, hw1]

theorem cross_points_witness :
    ∃ R, cross (1 / 10 ^ 10)
        { _min := 4, _max := 4, _bincount := 0, _bins := [], _stats := ⟨0, 4, 1, 1⟩, _addList := [] }
        { _min := 3, _max := 3, _bincount := 0, _bins := [], _stats := ⟨0, 6, 2, 2⟩, _addList := [] }
        = some R ∧ isPoint (1 / 10 ^ 10) R = true ∧ nonZero (1 / 10 ^ 10) R = true ∧
      R._bincount = 0 ∧ R._bins = [] ∧
      R._min = (4 : ℚ) * 3 ∧ R._max = (4 : ℚ) * 3 ∧
      nonZeroWeight (1 / 10 ^ 10) R = (1 : ℚ) * 2 :=
  cross_points (1 / 10 ^ 10) (by norm_num)
    { _min := 4, _max := 4, _bincount := 0, _bins := [], _stats := ⟨0, 4, 1, 1⟩, _addList := [] }
    { _min := 3, _max := 3, _bincount := 0, _bins := [], _stats := ⟨0, 6, 2, 2⟩, _addList := [] }
    (by decide!) (by decide!) (by decide!) (by decide!) (by norm_num) (by norm_num)

theorem getBinWidth_eq {eps : ℚ} {h : CPHistogram} (hp : isPoint eps h = false) :
    getBinWidth eps h = (h._max - h._min) / (h._bincount : ℚ) := by
  have hn : nonZero eps h = true := by
    rw [nonZero_eq_true_iff]; exact ((isPoint_false_iff eps h).mp hp).1
  simp [getBinWidth, hn, hp]

theorem nonZero_of_not_point {eps : ℚ} {h : CPHistogram} (hp : isPoint eps h = false) :
    nonZero eps h = true := by
  rw [nonZero_eq_true_iff]; exact ((isPoint_false_iff eps h).mp hp).1

theorem getBinLowerLimit_eq {eps : ℚ} {h : CPHistogram} (hp : isPoint eps h = false) (b : Nat) :
    getBinLowerLimit eps h b = h._min + (h._max - h._min) / (h._bincount : ℚ) * (b : ℚ) := by
  simp [getBinLowerLimit, nonZero_of_not_point hp, getBinWidth_eq hp]

theorem getBinUpperLimit_eq {eps : ℚ} {h : CPHistogram} (hp : isPoint eps h = false) (b : Nat) :
    getBinUpperLimit eps h b = h._min + (h._max - h._min) / (h._bincount : ℚ) * ((b : ℚ) + 1) := by
  simp [getBinUpperLimit, nonZero_of_not_point hp, getBinWidth_eq hp]

/-- `whichBin` in terms of the floor, for a histogram that is not a point. -/
theorem whichBin_eq {eps : ℚ} {h : CPHistogram} (hp : isPoint eps h = false) (v : ℚ) :
    whichBin eps h v =
      (if ⌊(v - h._min) / ((h._max - h._min) / (h._bincount : ℚ))⌋ < 0 then 0
       else if ⌊(v - h._min) / ((h._max - h._min) / (h._bincount : ℚ))⌋.toNat ≥ h._bincount then
         predU32 h._bincount
       else ⌊(v - h._min) / ((h._max - h._min) / (h._bincount : ℚ))⌋.toNat) := by
  simp [whichBin, nonZero_of_not_point hp, hp, getBinWidth_eq hp]

theorem whichBin_min {eps : ℚ} {h : CPHistogram} (hp : isPoint eps h = false)
    (hb : 1 ≤ h._bincount) : whichBin eps h h._min = 0 := by
  rw [whichBin_eq hp]
  have : ¬ (0 ≥ h._bincount) := by omega
  simp [this]

theorem whichBin_max {eps : ℚ} {h : CPHistogram} (hp : isPoint eps h = false)
    (hb : 1 ≤ h._bincount) (hlt : h._min < h._max) : whichBin eps h h._max = h._bincount - 1 := by
  rw [whichBin_eq hp]
  have hd : h._max - h._min ≠ 0 := ne_of_gt (sub_pos.mpr hlt)
  have hn : (h._bincount : ℚ) ≠ 0 := by
    have : (0 : ℚ) < h._bincount := by exact_mod_cast hb
    exact ne_of_gt this
  have hq : (h._max - h._min) / ((h._max - h._min) / (h._bincount : ℚ)) = ((h._bincount : ℤ) : ℚ) := by
    field_simp
  rw [hq, Int.floor_intCast]
  have h0 : h._bincount ≠ 0 := by omega
  simp [predU32, h0]

theorem sum_eq_sum_range_getD (bs : List ℚ) :
    bs.sum = ((List.range bs.length).map (fun i => bs.getD i 0)).sum := by
  have : (List.range bs.length).map (fun i => bs.getD i 0) = bs := by
    apply List.ext_getElem
    · simp
    · intro n h1 h2
      simp [List.getD_eq_getElem?_getD, List.getElem?_eq_getElem h2]
  rw [this]

theorem foldl_add_getD (bs : List ℚ) (l : List Nat) (a : ℚ) :
    l.foldl (fun acc i => acc + bs.getD i 0) a = a + (l.map (fun i => bs.getD i 0)).sum := by
  induction l generalizing a with
  | nil => simp
  | cons x t ih => simp only [List.foldl_cons, ih, List.map_cons, List.sum_cons]; ring

theorem snapUpper_max {eps : ℚ} (heps : 0 < eps) {h : CPHistogram} (hp : isPoint eps h = false)
    (hb : 1 ≤ h._bincount) :
    snapUpper eps h h._max (h._bincount - 1) = some (h._max, h._bincount - 1, true) := by
  have hn : (h._bincount : ℚ) ≠ 0 := by
    have : (0 : ℚ) < h._bincount := by exact_mod_cast hb
    exact ne_of_gt this
  have hu : getBinUpperLimit eps h (h._bincount - 1) = h._max := by
    rw [getBinUpperLimit_eq hp]
    have : ((h._bincount - 1 : ℕ) : ℚ) + 1 = (h._bincount : ℚ) := by
      rw [Nat.cast_sub hb]; simp
    rw [this]; field_simp
  unfold snapUpper
  rw [hu]
  have : h._max > h._max - eps := by linarith
  simp [this]

theorem snapLower_min {eps : ℚ} (heps : 0 < eps) {h : CPHistogram} (hp : isPoint eps h = false) :
    snapLower eps h h._min 0 = some (h._min, 0, true) := by
  have hl : getBinLowerLimit eps h 0 = h._min := by
    rw [getBinLowerLimit_eq hp]; simp
  unfold snapLower
  rw [hl]
  have : h._min < h._min + eps := by linarith
  simp [this]

theorem depositAll_no_bins (eps : ℚ) (h : CPHistogram) (hb : h._bins = [])
    (a : WeightedValue) (t : List WeightedValue) : depositAll eps h (a :: t) = none := by
  simp [depositAll, addToBin, hb]

theorem sum_weights_zero_or_big {eps : ℚ} (heps : 0 < eps) (l : List WeightedValue)
    (hl : ∀ wv ∈ l, eps < wv.2) : (l.map Prod.snd).sum = 0 ∨ eps < (l.map Prod.snd).sum := by
  have hnn : ∀ t : List WeightedValue, (∀ wv ∈ t, eps < wv.2) → 0 ≤ (t.map Prod.snd).sum := by
    intro t
    induction t with
    | nil => simp
    | cons a t ih =>
      intro ht
      have h1 := ht a (List.mem_cons_self _ _)
      have h2 := ih (fun wv h => ht wv (List.mem_cons_of_mem _ h))
      simp only [List.map_cons, List.sum_cons]
      linarith
  cases l with
  | nil => left; simp
  | cons a t =>
    right
    have h1 := hl a (List.mem_cons_self _ _)
    have h2 := hnn t (fun wv h => hl wv (List.mem_cons_of_mem _ h))
    simp only [List.map_cons, List.sum_cons]
    linarith

theorem sum_weights_survivors_pos {eps : ℚ} (heps : 0 < eps) (l : List WeightedValue)
    (hs : survivors eps l ≠ []) : eps < ((survivors eps l).map Prod.snd).sum := by
  rcases sum_weights_zero_or_big heps (survivors eps l) (fun wv h => (mem_survivors h).2.2) with h | h
  · exfalso
    cases hl : survivors eps l with
    | nil => exact hs hl
    | cons a t =>
      have ha : a ∈ survivors eps l := by rw [hl]; exact List.mem_cons_self _ _
      have h1 := (mem_survivors ha).2.2
      rcases sum_weights_zero_or_big heps t
        (fun wv hw => (mem_survivors (by rw [hl]; exact List.mem_cons_of_mem _ hw)).2.2) with h2 | h2
      · rw [hl] at h
        simp only [List.map_cons, List.sum_cons] at h
        linarith
      · rw [hl] at h
        simp only [List.map_cons, List.sum_cons] at h
        linarith
  · exact h

/-- What `buildFromList` returns, in the two cases of its filter. -/
theorem buildFromList_cases {eps : ℚ} (heps : 0 < eps) {h0 : CPHistogram} {bincount : Nat}
    {tw mn mx : ℚ} {H : CPHistogram} (hH : buildFromList eps h0 bincount tw mn mx = some H) :
    (survivors eps h0._addList = [] ∧ nonZero eps H = false) ∨
    (survivors eps h0._addList ≠ [] ∧ nonZero eps H = true ∧
      H._stats = builtStats eps h0._addList tw ∧
      H._min = (rangedHist eps h0 tw mn mx)._min ∧
      H._max = (rangedHist eps h0 tw mn mx)._max ∧
      H._addList = [] ∧
      (isPoint eps H = true → H._bincount = 0 ∧ H._bins = []) ∧
      (isPoint eps H = false → H._bincount = bincount ∧ H._bins.length = bincount ∧
        (∀ i, i < bincount → H._bins.getD i 0 = 0 ∨ eps < H._bins.getD i 0) ∧
        (∀ i, i < bincount → H._bins.getD i 0 =
          (((survivors eps h0._addList).filter
            (fun wv => decide (whichBin eps H wv.1 = i))).map Prod.snd).sum) ∧
        H._bins.sum = ((survivors eps h0._addList).map Prod.snd).sum)) := by
  by_cases hs : survivors eps h0._addList = []
  · left
    refine ⟨hs, ?_⟩
    rw [buildFromList_no_survivor eps h0 bincount tw mn mx hs] at hH
    have := Option.some.inj hH
    rw [← this]
    unfold nonZero
    split <;> simp [clear, setBinCount, Stats.clear] <;> linarith
  · right
    have hnz : ∀ K : CPHistogram, K._stats = builtStats eps h0._addList tw →
        nonZero eps K = true := by
      intro K hK
      rw [nonZero_eq_true_iff, hK, (builtStats_sums heps _ tw).1]
      exact sum_weights_survivors_pos heps _ hs
    rcases Nat.eq_zero_or_pos bincount with hb | hb
    · rw [buildFromList_some eps h0 bincount tw mn mx hs] at hH
      by_cases hp : isPoint eps (rangedHist eps h0 tw mn mx) = false
      · exfalso
        simp only [hp, if_true] at hH
        cases hl : survivors eps h0._addList with
        | nil => exact hs hl
        | cons a t =>
          rw [hl, depositAll_no_bins eps _ (by simp [setBinCount, hb]) a t] at hH
          simp at hH
      · simp only [hp, if_false] at hH
        have hHe := Option.some.inj hH
        have hq : isPoint eps H = true := by
          cases hc : isPoint eps H with
          | true => rfl
          | false =>
            exfalso; apply hp
            rw [← hHe] at hc
            rw [isPoint_false_iff] at hc ⊢; exact hc
        refine ⟨hs, hnz H (by rw [← hHe]; rfl), by rw [← hHe]; rfl, by rw [← hHe]; rfl,
          by rw [← hHe]; rfl, by rw [← hHe]; rfl, ?_, ?_⟩
        · intro _
          exact ⟨by rw [← hHe]; rfl, by rw [← hHe]; rfl⟩
        · intro hc
          rw [hq] at hc; cases hc
    · obtain ⟨K, h1, h2, h3, h4, h5, h6, h7⟩ := buildFromList_spec eps h0 bincount hb tw mn mx hs
      rw [h1] at hH
      have hKH := Option.some.inj hH
      subst hKH
      refine ⟨hs, hnz K h2, h2, h3, h4, h5, h6, ?_⟩
      intro hp
      obtain ⟨g1, g2, g3, g4⟩ := h7 hp
      refine ⟨g1, g2, ?_, g3, g4⟩
      intro i hi
      rw [g3 i hi]
      apply sum_weights_zero_or_big heps
      intro wv hwv
      exact (mem_survivors (List.mem_of_mem_filter hwv)).2.2

theorem foldl_add_map (f : Nat → ℚ) (l : List Nat) (a : ℚ) :
    l.foldl (fun acc i => acc + f i) a = a + (l.map f).sum := by
  induction l generalizing a with
  | nil => simp
  | cons x t ih => simp only [List.foldl_cons, ih, List.map_cons, List.sum_cons]; ring

theorem getBinWeight_eq (h : CPHistogram) (b : Nat) : getBinWeight h b = h._bins.getD b 0 := by
  unfold getBinWeight
  by_cases hb : h._bins = []
  · simp [hb]
  · simp [hb]

theorem overlapOf_self {eps x : ℚ} (hx : x = 0 ∨ eps ≤ x) : overlapOf eps x x = x := by
  unfold overlapOf
  rcases hx with hx | hx
  · subst hx; simp
  · simp [not_lt.mpr hx]

theorem builtStats_totalWeight_ge {eps : ℚ} (heps : 0 < eps) (l : List WeightedValue) (tw : ℚ) :
    (builtStats eps l tw).sumOfWeights ≤ (builtStats eps l tw).totalWeight := by
  obtain ⟨h1, _, _, h4⟩ := builtStats_sums heps l tw
  rw [h1, h4]
  split
  · linarith
  · exact le_refl _

/-- C8 (counterexample): the point histogram built from `(2, 1)` with total weight
`1 + 1/(2*10^10)` carries a zero weight of `1/(2*10^10)`, below
`FP_FUDGE_EPS = 1/10^10`.  `overlap` with itself and `includeZero = true` sets that
shared zero weight to 0 and returns `20000000000/20000000001`, not 1. -/
theorem overlap_self_small_zeroWeight :
    ∃ H : CPHistogram,
      buildFromList (1 / 10 ^ 10) (withList [(2, 1)]) 2 (1 + 1 / (2 * 10 ^ 10)) 2 2 = some H ∧
      zeroWeight (1 / 10 ^ 10) H = 1 / (2 * 10 ^ 10) ∧
      overlap (1 / 10 ^ 10) H H true = 20000000000 / 20000000001 ∧
      overlap (1 / 10 ^ 10) H H true ≠ 1 :=
  ⟨{ _min := 2, _max := 2, _bincount := 0, _bins := [],
     _stats := ⟨0, 2, 1, 1 + 1 / (2 * 10 ^ 10)⟩, _addList := [] },
   by decide!, by decide!, by decide!, by decide!⟩

/-- C8 (amended): for every histogram `H` produced by `buildFromList` (zero, point or
not a point) whose `zeroWeight()` is 0 or at least `FP_FUDGE_EPS`, and every copy
`H'` with the same range, bin count, statistics and bins,
`H.overlap(H', includeZero = true)` returns exactly 1. -/
theorem overlap_self_copy (eps : ℚ) (heps : 0 < eps) (h0 : CPHistogram) (bincount : Nat)
    (tw mn mx : ℚ) (H H' : CPHistogram)
    (hH : buildFromList eps h0 bincount tw mn mx = some H)
    (e1 : H'._min = H._min) (e2 : H'._max = H._max) (e3 : H'._bincount = H._bincount)
    (e4 : H'._bins = H._bins) (e5 : H'._stats = H._stats)
    (hz : zeroWeight eps H = 0 ∨ eps ≤ zeroWeight eps H) :
    overlap eps H H' true = 1 := by
  have hcopy : overlap eps H H' true = overlap eps H H true := by
    unfold overlap nonZero isPoint min max bins totalWeight nonZeroWeight zeroWeight getBinWeight
      nonZero
    simp only [e1, e2, e3, e4, e5]
  rw [hcopy]
  rcases buildFromList_cases heps hH with ⟨_, hn⟩ | ⟨_, hn, hst, _, _, _, hpt, hnp⟩
  · simp [overlap, hn]
  · have hsw : eps < H._stats.sumOfWeights := (nonZero_eq_true_iff eps H).mp hn
    have hge : H._stats.sumOfWeights ≤ H._stats.totalWeight := by
      rw [hst]; exact builtStats_totalWeight_ge heps _ tw
    have htw : ¬ (H._stats.totalWeight < eps) := not_lt.mpr (by linarith)
    have htw0 : H._stats.totalWeight ≠ 0 := by
      intro h; rw [h] at hge; linarith
    have hT : totalWeight eps H = H._stats.totalWeight := by simp [totalWeight, htw]
    have hN : nonZeroWeight eps H = H._stats.sumOfWeights := by
      simp [nonZeroWeight, not_lt.mpr (le_of_lt hsw)]
    have hZ : zeroWeight eps H = H._stats.totalWeight - H._stats.sumOfWeights := by
      simp [zeroWeight, htw]
    unfold overlap
    simp only [hn, Bool.not_true, Bool.and_self, Bool.false_eq_true, if_false, ne_eq,
      not_true_eq_false, or_self, if_true, overlapOf_self hz, hT, htw0, Bool.or_self]
    cases hp : isPoint eps H with
    | true =>
      simp only [if_true, and_self, Bool.and_self]
      rw [overlapOf_self (Or.inr (by rw [hN]; exact le_of_lt hsw)), hZ, hN]
      field_simp
    | false =>
      obtain ⟨g1, g2, g3, _, g5⟩ := hnp hp
      simp only [Bool.false_eq_true, if_false]
      have hfold : (List.range (bins H)).foldl
          (fun rc b => rc + overlapOf eps (getBinWeight H b) (getBinWeight H b))
          (zeroWeight eps H) = zeroWeight eps H + H._bins.sum := by
        rw [foldl_add_map (fun b => overlapOf eps (getBinWeight H b) (getBinWeight H b))]
        congr 1
        rw [sum_eq_sum_range_getD H._bins, g2]
        unfold bins
        rw [g1]
        apply congrArg
        apply List.map_congr_left
        intro i hi
        have hi' : i < bincount := List.mem_range.mp hi
        rw [getBinWeight_eq]
        apply overlapOf_self
        rcases g3 i hi' with h | h
        · exact Or.inl h
        · exact Or.inr (le_of_lt h)
      rw [hfold, g5, hZ, hst, (builtStats_sums heps _ tw).1]
      have hne : (builtStats eps h0._addList tw).totalWeight ≠ 0 := by rw [← hst]; exact htw0
      have : ((builtStats eps h0._addList tw).totalWeight -
          ((survivors eps h0._addList).map Prod.snd).sum +
          ((survivors eps h0._addList).map Prod.snd).sum) /
          (builtStats eps h0._addList tw).totalWeight = 1 := by
        field_simp
      rw [this]
      simp

theorem overlap_self_copy_witness :
    overlap (1 / 10 ^ 10)
      { _min := 2, _max := 6, _bincount := 2, _bins := [3, 1], _stats := ⟨12, 12, 4, 5⟩,
        _addList := [] }
      { _min := 2, _max := 6, _bincount := 2, _bins := [3, 1], _stats := ⟨12, 12, 4, 5⟩,
        _addList := [(7, 7)] } true = 1 :=
  overlap_self_copy (1 / 10 ^ 10) (by norm_num) (withList [(2, 3), (6, 1)]) 2 5 2 6
    { _min := 2, _max := 6, _bincount := 2, _bins := [3, 1], _stats := ⟨12, 12, 4, 5⟩,
      _addList := [] }
    { _min := 2, _max := 6, _bincount := 2, _bins := [3, 1], _stats := ⟨12, 12, 4, 5⟩,
      _addList := [(7, 7)] }
    (by decide!) rfl rfl rfl rfl rfl (by decide!)

theorem survivors_eq_self {eps : ℚ} {l : List WeightedValue}
    (hl : ∀ wv ∈ l, eps < wv.1 ∧ eps < wv.2) : survivors eps l = l := by
  unfold survivors
  rw [List.filter_eq_self]
  intro wv hwv
  simp [hl wv hwv]

theorem foldl_filterStep_bounds (eps : ℚ) (l : List WeightedValue) (st : FilterState) :
    (l.foldl (filterStep eps) st).minVal ≤ st.minVal ∧
    st.maxVal ≤ (l.foldl (filterStep eps) st).maxVal ∧
    ∀ wv ∈ survivors eps l, (l.foldl (filterStep eps) st).minVal ≤ wv.1 ∧
      wv.1 ≤ (l.foldl (filterStep eps) st).maxVal := by
  induction l generalizing st with
  | nil => simp [survivors]
  | cons a t ih =>
    obtain ⟨h1, h2, h3⟩ := ih (filterStep eps st a)
    have hmin : (filterStep eps st a).minVal ≤ st.minVal := by
      unfold filterStep; split
      · simp only; split
        · linarith
        · exact le_refl _
      · exact le_refl _
    have hmax : st.maxVal ≤ (filterStep eps st a).maxVal := by
      unfold filterStep; split
      · simp only; split
        · linarith
        · exact le_refl _
      · exact le_refl _
    simp only [List.foldl_cons]
    refine ⟨le_trans h1 hmin, le_trans hmax h2, ?_⟩
    intro wv hwv
    by_cases hp : a.1 > eps ∧ a.2 > eps
    · have hs : survivors eps (a :: t) = a :: survivors eps t := by
        simp [survivors, List.filter_cons, hp]
      rw [hs] at hwv
      rcases List.mem_cons.mp hwv with rfl | hmem
      · have e1 : (filterStep eps st wv).minVal ≤ wv.1 := by
          unfold filterStep; simp only [hp, and_self, if_true]
          split
          · exact le_refl _
          · rename_i hn; exact not_lt.mp hn
        have e2 : wv.1 ≤ (filterStep eps st wv).maxVal := by
          unfold filterStep; simp only [hp, and_self, if_true]
          split
          · exact le_refl _
          · rename_i hn; exact not_lt.mp hn
        exact ⟨le_trans h1 e1, le_trans e2 h2⟩
      · exact h3 wv hmem
    · have hs : survivors eps (a :: t) = survivors eps t := by
        simp [survivors, List.filter_cons, hp]
      rw [hs] at hwv
      exact h3 wv hwv

/-- The range that `buildFromList` sets when some entry survives. -/
theorem rangedHist_range {eps : ℚ} (heps : 0 < eps) (h0 : CPHistogram) (tw mn mx : ℚ)
    (hs : survivors eps h0._addList ≠ []) :
    0 ≤ (rangedHist eps h0 tw mn mx)._min ∧
    (rangedHist eps h0 tw mn mx)._min ≤ (rangedHist eps h0 tw mn mx)._max ∧
    eps < (rangedHist eps h0 tw mn mx)._max := by
  obtain ⟨_, _, h3⟩ := foldl_filterStep_bounds eps h0._addList
    { vals := [], weight := 0, minVal := mn, maxVal := mx }
  obtain ⟨wv, hwv⟩ := List.exists_mem_of_ne_nil _ hs
  obtain ⟨b1, b2⟩ := h3 wv hwv
  have hv := (mem_survivors hwv).2.1
  unfold rangedHist setRange
  generalize (h0._addList.foldl (filterStep eps)
    { vals := [], weight := 0, minVal := mn, maxVal := mx }).minVal = lo at b1 ⊢
  generalize (h0._addList.foldl (filterStep eps)
    { vals := [], weight := 0, minVal := mn, maxVal := mx }).maxVal = hi at b2 ⊢
  have c1 : ¬ (lo > hi) := not_lt.mpr (le_trans b1 b2)
  have c2 : ¬ (hi < 0) := not_lt.mpr (by linarith)
  simp only [c1, c2, if_false]
  refine ⟨?_, ?_, by linarith⟩
  · split
    · exact le_refl _
    · rename_i hn; exact not_lt.mp hn
  · split
    · linarith
    · linarith

theorem foldl_squareStep_nonneg (mean : ℚ) (l : List WeightedValue) (s : Stats)
    (hs : 0 ≤ s.sumOfSquares) (hl : ∀ wv ∈ l, 0 ≤ wv.2) :
    0 ≤ (l.foldl (Stats.squareStep mean) s).sumOfSquares := by
  induction l generalizing s with
  | nil => simpa using hs
  | cons a t ih =>
    rw [List.foldl_cons]
    apply ih _ _ (fun wv h => hl wv (List.mem_cons_of_mem _ h))
    unfold Stats.squareStep
    split
    · exact hs
    · simp only
      have := hl a (List.mem_cons_self _ _)
      have : 0 ≤ (a.1 - mean) * (a.1 - mean) * a.2 := mul_nonneg (mul_self_nonneg _) this
      linarith

theorem builtStats_nonneg {eps : ℚ} (heps : 0 < eps) (l : List WeightedValue) (tw : ℚ) :
    0 ≤ (builtStats eps l tw).sumOfSquares ∧ 0 ≤ (builtStats eps l tw).sumOfValues := by
  obtain ⟨_, h2, h3, _⟩ := builtStats_sums heps l tw
  constructor
  · rw [h3]
    unfold Stats.ofVals
    split
    · simp [Stats.clear]
    · apply foldl_squareStep_nonneg
      · rw [foldl_sumStep _ _ (survivors_ne_zero heps l)]
        simp [Stats.clear]
      · intro wv hwv
        linarith [(mem_survivors hwv).2.2]
  · rw [h2]
    apply List.sum_nonneg
    intro x hx
    rw [List.mem_map] at hx
    obtain ⟨wv, hwv, rfl⟩ := hx
    obtain ⟨_, a, b⟩ := mem_survivors hwv
    exact mul_nonneg (by linarith) (by linarith)

theorem getD_set (l : List ℚ) (j i : Nat) (v : ℚ) :
    (l.set j v).getD i 0 = if j = i ∧ i < l.length then v else l.getD i 0 := by
  induction l generalizing j i with
  | nil => simp
  | cons a t ih =>
    cases j with
    | zero =>
      cases i with
      | zero => simp
      | succ k => simp
    | succ n =>
      cases i with
      | zero => simp
      | succ k =>
        have := ih n k
        simp only [List.getD_eq_getElem?_getD] at this
        simp [this]

theorem ext_getD {l1 l2 : List ℚ} (hlen : l1.length = l2.length)
    (h : ∀ i, i < l1.length → l1.getD i 0 = l2.getD i 0) : l1 = l2 := by
  apply List.ext_getElem hlen
  intro n h1 h2
  have := h n h1
  simpa [List.getD_eq_getElem?_getD, List.getElem?_eq_getElem h1, List.getElem?_eq_getElem h2]
    using this

theorem set_zero_of_getD_zero (l : List ℚ) (b : Nat) (h : l.getD b 0 = 0) : l.set b 0 = l := by
  apply ext_getD (by simp)
  intro i _
  rw [getD_set]
  split
  · rename_i hc; rw [← hc.1, h]
  · rfl

theorem foldl_snap_id {eps : ℚ} (bs : List ℚ) (hbs : ∀ i, bs.getD i 0 = 0 ∨ eps ≤ bs.getD i 0)
    (l : List Nat) :
    l.foldl (fun bs b => if bs.getD b 0 < eps then bs.set b 0 else bs) bs = bs := by
  induction l with
  | nil => rfl
  | cons b t ih =>
    rw [List.foldl_cons]
    have : (if bs.getD b 0 < eps then bs.set b 0 else bs) = bs := by
      split
      · rename_i hlt
        rcases hbs b with h | h
        · exact set_zero_of_getD_zero bs b h
        · exact absurd hlt (not_lt.mpr h)
      · rfl
    rw [this, ih]

theorem foldl_count (p : Nat → Prop) [DecidablePred p] (l : List Nat) (a : Nat) :
    l.foldl (fun n i => if p i then n + 1 else n) a = a + (l.filter (fun i => decide (p i))).length := by
  induction l generalizing a with
  | nil => simp
  | cons x t ih =>
    rw [List.foldl_cons, ih, List.filter_cons]
    by_cases hx : p x
    · simp [hx]; omega
    · simp [hx]

theorem foldl_set_getD (f : Nat → ℚ) (js : List Nat) (acc : List ℚ) :
    (js.foldl (fun bs j => bs.set j (f j)) acc).length = acc.length ∧
    ∀ i, i < acc.length →
      (js.foldl (fun bs j => bs.set j (f j)) acc).getD i 0 =
        if i ∈ js then f i else acc.getD i 0 := by
  induction js generalizing acc with
  | nil => simp
  | cons j t ih =>
    obtain ⟨h1, h2⟩ := ih (acc.set j (f j))
    rw [List.foldl_cons]
    refine ⟨by rw [h1]; simp, ?_⟩
    intro i hi
    rw [h2 i (by simpa using hi), getD_set]
    by_cases hit : i ∈ t
    · simp [hit]
    · by_cases hji : j = i
      · subst hji; simp [hi]
      · have : ¬ (i = j) := fun h => hji h.symm
        simp [hit, hji, this]

theorem readBins_spec (eps : ℚ) (recs : List CPHistogramBin) (h : CPHistogram)
    (hp : isPoint eps h = false) (hidx : ∀ r ∈ recs, r.index < h._bins.length) :
    readBins eps recs.length h recs =
      some (true, { h with _bins := recs.foldl (fun bs r => bs.set r.index r.weight) h._bins }) := by
  induction recs generalizing h with
  | nil => rfl
  | cons r rest ih =>
    have hr := hidx r (List.mem_cons_self _ _)
    have hp1 : isPoint eps { h with _bins := h._bins.set r.index r.weight } = false := by
      rw [isPoint_false_iff] at hp ⊢; exact hp
    simp only [List.length_cons, readBins, setBinWeight, hp, Bool.false_eq_true, if_false, hr,
      if_true]
    rw [ih _ hp1 (by
      intro q hq
      simpa using hidx q (List.mem_cons_of_mem _ hq))]
    rfl

theorem toInt32_of_lt (n : Nat) (hn : n < 2 ^ 31) : toInt32 n = (n : Int) := by
  unfold toInt32
  have h1 : n % 4294967296 = n := Nat.mod_eq_of_lt (by omega)
  rw [h1]
  have h2 : n < 2147483648 := by omega
  simp [h2]

theorem snap_close (eps x : ℚ) (hx : 0 ≤ x) (heps : eps ≤ 1 / 10 ^ 9) :
    |(if x < eps then 0 else x) - x| ≤ 1 / 10 ^ 9 := by
  split
  · rename_i h
    rw [zero_sub, abs_neg, abs_of_nonneg hx]
    linarith
  · simp

theorem serialize_of_bins_ok {eps : ℚ} (H : CPHistogram) (ID : Nat)
    (hbs : ∀ i, H._bins.getD i 0 = 0 ∨ eps ≤ H._bins.getD i 0) :
    serialize eps H ID =
      (if isPoint eps H then
        { header :=
            { ID := ID,
              sumOfSquares := if H._stats.sumOfSquares < eps then 0 else H._stats.sumOfSquares,
              sumOfValues := if H._stats.sumOfValues < eps then 0 else H._stats.sumOfValues,
              sumOfWeights := if H._stats.sumOfWeights < eps then 0 else H._stats.sumOfWeights,
              min := if H._min < eps then 0 else H._min,
              max := if H._max < eps then 0 else H._max,
              binsUsed := getBinsUsed eps H },
          records := [], hist := H }
      else
        { header :=
            { ID := ID,
              sumOfSquares := if H._stats.sumOfSquares < eps then 0 else H._stats.sumOfSquares,
              sumOfValues := if H._stats.sumOfValues < eps then 0 else H._stats.sumOfValues,
              sumOfWeights := if H._stats.sumOfWeights < eps then 0 else H._stats.sumOfWeights,
              min := if H._min < eps then 0 else H._min,
              max := if H._max < eps then 0 else H._max,
              binsUsed := getBinsUsed eps H },
          records := ((List.range H._bincount).filter (fun j => getBinWeight H j ≠ 0)).map
            (fun j => { index := j, weight := getBinWeight H j }),
          hist := H }) := by
  have h1 : (if H._bins ≠ [] then ({ H with _bins := H._bins } : CPHistogram) else H) = H := by
    split <;> rfl
  unfold serialize
  simp only [foldl_snap_id H._bins hbs]
  rw [h1]

theorem getBinsUsed_eq {eps : ℚ} (heps : 0 < eps) (H : CPHistogram)
    (hlen : H._bins.length = H._bincount)
    (hbs : ∀ i, H._bins.getD i 0 = 0 ∨ eps < H._bins.getD i 0) :
    getBinsUsed eps H =
      ((List.range H._bincount).filter (fun j => getBinWeight H j ≠ 0)).length := by
  unfold getBinsUsed
  by_cases hb : H._bins = []
  · have : H._bincount = 0 := by rw [← hlen, hb]; rfl
    simp [hb, this]
  · simp only [hb, if_false]
    rw [foldl_count (fun i => H._bins.getD i 0 > eps), Nat.zero_add]
    congr 1
    apply List.filter_congr
    intro j _
    rw [getBinWeight_eq]
    have hx := hbs j
    generalize H._bins.getD j 0 = x at hx ⊢
    rcases hx with h | h
    · simp [h, not_lt.mpr (le_of_lt heps)]
    · have : x ≠ 0 := ne_of_gt (lt_trans heps h)
      simp [h, this]

theorem deserialize_point (eps : ℚ) (tgt : CPHistogram) (n : Nat) (tw2 : ℚ)
    (entry : CPHistogramHeader) (recs : List CPHistogramBin)
    (hp : entry.sumOfWeights ≤ eps ∨ entry.min = entry.max) :
    deserialize eps tgt n tw2 (some entry) recs =
      some (toInt32 entry.ID,
        { clear tgt with
          _stats := { sumOfSquares := entry.sumOfSquares, sumOfValues := entry.sumOfValues,
                      sumOfWeights := entry.sumOfWeights, totalWeight := tw2 },
          _min := entry.min, _max := entry.max }) := by
  have : isPoint eps { clear tgt with
      _stats := { sumOfSquares := entry.sumOfSquares, sumOfValues := entry.sumOfValues,
                  sumOfWeights := entry.sumOfWeights, totalWeight := tw2 },
      _min := entry.min, _max := entry.max } = true := by
    cases hc : isPoint eps { clear tgt with
      _stats := { sumOfSquares := entry.sumOfSquares, sumOfValues := entry.sumOfValues,
                  sumOfWeights := entry.sumOfWeights, totalWeight := tw2 },
      _min := entry.min, _max := entry.max } with
    | true => rfl
    | false =>
      exfalso
      rw [isPoint_false_iff] at hc
      rcases hp with h | h
      · exact absurd hc.1 (not_lt.mpr h)
      · exact hc.2 h
  unfold deserialize
  simp only [this, if_true]

theorem deserialize_hist (eps : ℚ) (tgt : CPHistogram) (n : Nat) (tw2 : ℚ)
    (entry : CPHistogramHeader) (recs : List CPHistogramBin)
    (h1 : eps < entry.sumOfWeights) (h2 : entry.min ≠ entry.max)
    (hrec : recs.length = entry.binsUsed) (hle : entry.binsUsed ≤ n)
    (hidx : ∀ r ∈ recs, r.index < n) :
    deserialize eps tgt n tw2 (some entry) recs =
      some (toInt32 entry.ID,
        { clear tgt with
          _stats := { sumOfSquares := entry.sumOfSquares, sumOfValues := entry.sumOfValues,
                      sumOfWeights := entry.sumOfWeights, totalWeight := tw2 },
          _min := entry.min, _max := entry.max, _bincount := n,
          _bins := recs.foldl (fun bs r => bs.set r.index r.weight) (List.replicate n 0) }) := by
  have hp : isPoint eps { clear tgt with
      _stats := { sumOfSquares := entry.sumOfSquares, sumOfValues := entry.sumOfValues,
                  sumOfWeights := entry.sumOfWeights, totalWeight := tw2 },
      _min := entry.min, _max := entry.max } = false := by
    rw [isPoint_false_iff]; exact ⟨h1, h2⟩
  have hp3 : isPoint eps (setBinCount { clear tgt with
      _stats := { sumOfSquares := entry.sumOfSquares, sumOfValues := entry.sumOfValues,
                  sumOfWeights := entry.sumOfWeights, totalWeight := tw2 },
      _min := entry.min, _max := entry.max } n) = false := by
    rw [isPoint_false_iff]; exact ⟨h1, h2⟩
  unfold deserialize
  simp only [hp, Bool.false_eq_true, if_false, not_lt.mpr hle]
  rw [← hrec, readBins_spec eps recs _ hp3 (by
    intro r hr
    simpa [setBinCount] using hidx r hr)]
  rfl

/-- C6 (counterexample): the histogram with bins `[1,1]` on `[2,6]` is written with
`ID = 2^31`.  `deserialize` returns the `unsigned` ID as an `int`, which is
`-2147483648`: a negative value, which is also how a failure is reported. -/
theorem deserialize_large_ID :
    ∃ H : CPHistogram,
      buildFromList (1 / 10 ^ 10) (withList [(3, 1), (5, 1)]) 2 2 2 6 = some H ∧
      (deserialize (1 / 10 ^ 10) empty 2 2
          (some (serialize (1 / 10 ^ 10) H 2147483648).header)
          (serialize (1 / 10 ^ 10) H 2147483648).records).map Prod.fst = some (-2147483648) :=
  ⟨{ _min := 2, _max := 6, _bincount := 2, _bins := [1, 1], _stats := ⟨2, 8, 2, 2⟩,
     _addList := [] },
   by decide!, by decide!⟩

/-- C6 (amended): for `0 < FP_FUDGE_EPS ≤ 1e-9`, every histogram `H` produced by
`buildFromList` with bin count `n` and every `ID < 2^31`: reading the header and
the bin records written by `H.serialize(ID, f)` with `deserialize(n, totalWeight,
f)` succeeds, returns `ID`, and reproduces `min`, `max`, `sumOfValues`,
`sumOfWeights` and `sumOfSquares` within `1e-9`, the bin count, and the bin array
(every non-zero bin weight at its index, all other bins 0). -/
theorem serialize_deserialize (eps : ℚ) (heps : 0 < eps) (heps9 : eps ≤ 1 / 10 ^ 9)
    (h0 : CPHistogram) (n : Nat) (tw mn mx : ℚ) (H : CPHistogram)
    (hH : buildFromList eps h0 n tw mn mx = some H) (ID : Nat) (hID : ID < 2 ^ 31)
    (tgt : CPHistogram) (tw2 : ℚ) :
    ∃ H', deserialize eps tgt n tw2 (some (serialize eps H ID).header)
        (serialize eps H ID).records = some ((ID : Int), H') ∧
      |H'._min - H._min| ≤ 1 / 10 ^ 9 ∧ |H'._max - H._max| ≤ 1 / 10 ^ 9 ∧
      |H'._stats.sumOfValues - H._stats.sumOfValues| ≤ 1 / 10 ^ 9 ∧
      |H'._stats.sumOfWeights - H._stats.sumOfWeights| ≤ 1 / 10 ^ 9 ∧
      |H'._stats.sumOfSquares - H._stats.sumOfSquares| ≤ 1 / 10 ^ 9 ∧
      H'._bincount = H._bincount ∧ H'._bins = H._bins := by
  by_cases hs : survivors eps h0._addList = []
  · -- nothing survives the filter: `H` is the empty histogram
    have hHe := Option.some.inj ((buildFromList_no_survivor eps h0 n tw mn mx hs).symm.trans hH)
    have f1 : H._min = 0 := by rw [← hHe]; split <;> rfl
    have f2 : H._max = 0 := by rw [← hHe]; split <;> rfl
    have f3 : H._bins = [] := by rw [← hHe]; split <;> rfl
    have f4 : H._bincount = 0 := by rw [← hHe]; split <;> rfl
    have f5 : H._stats.sumOfSquares = 0 := by rw [← hHe]; split <;> rfl
    have f6 : H._stats.sumOfValues = 0 := by rw [← hHe]; split <;> rfl
    have f7 : H._stats.sumOfWeights = 0 := by rw [← hHe]; split <;> rfl
    have hpt : isPoint eps H = true := by
      cases hc : isPoint eps H with
      | true => rfl
      | false =>
        rw [isPoint_false_iff, f7] at hc
        exact absurd hc.1 (not_lt.mpr (le_of_lt heps))
    rw [serialize_of_bins_ok H ID (by intro i; left; simp [f3])]
    simp only [hpt, if_true, f1, f2, f5, f6, f7, heps]
    rw [deserialize_point eps tgt n tw2 _ [] (Or.inl (le_of_lt heps)), toInt32_of_lt ID hID]
    refine ⟨_, rfl, ?_, ?_, ?_, ?_, ?_, ?_, ?_⟩
    · simp
    · simp
    · simp
    · simp
    · simp
    · rw [f4]; rfl
    · rw [f3]; rfl
  · rcases buildFromList_cases heps hH with ⟨hs', _⟩ | ⟨_, hn, hst, hmin, hmax, _, hpt, hnp⟩
    · exact absurd hs' hs
    · obtain ⟨r1, r2, r3⟩ := rangedHist_range heps h0 tw mn mx hs
      rw [← hmin] at r1 r2
      rw [← hmax] at r2 r3
      obtain ⟨n1, n2⟩ := builtStats_nonneg heps h0._addList tw
      rw [← hst] at n1 n2
      have hsw : eps < H._stats.sumOfWeights := (nonZero_eq_true_iff eps H).mp hn
      have c1 : ¬ (H._stats.sumOfWeights < eps) := not_lt.mpr (le_of_lt hsw)
      have c2 : ¬ (H._max < eps) := not_lt.mpr (le_of_lt r3)
      have b1 := snap_close eps _ r1 heps9
      have b4 := snap_close eps _ n1 heps9
      have b5 := snap_close eps _ n2 heps9
      cases hp : isPoint eps H with
      | true =>
        obtain ⟨g1, g2⟩ := hpt hp
        have hmm : H._min = H._max := isPoint_true_of_nonZero hn hp
        have c3 : ¬ (H._min < eps) := by rw [hmm]; exact c2
        rw [serialize_of_bins_ok H ID (by intro i; left; simp [g2])]
        simp only [hp, if_true, c1, c2, c3, if_false]
        rw [deserialize_point eps tgt n tw2 _ [] (Or.inr hmm), toInt32_of_lt ID hID]
        refine ⟨_, rfl, by simp, by simp, b5, by simp, b4, ?_, ?_⟩
        · rw [g1]; rfl
        · rw [g2]; rfl
      | false =>
        obtain ⟨g1, g2, g3, _, _⟩ := hnp hp
        have hbs : ∀ i, H._bins.getD i 0 = 0 ∨ eps < H._bins.getD i 0 := by
          intro i
          by_cases hi : i < n
          · exact g3 i hi
          · left
            rw [List.getD_eq_getElem?_getD, List.getElem?_eq_none (by rw [g2]; omega)]
            rfl
        have hlen : H._bins.length = H._bincount := by rw [g1, g2]
        have hne : H._min ≠ H._max := ((isPoint_false_iff eps H).mp hp).2
        have hlt : H._min < H._max := lt_of_le_of_ne r2 hne
        have hne2 : (if H._min < eps then 0 else H._min) ≠ H._max := by
          split
          · exact ne_of_lt (lt_trans heps r3)
          · exact hne
        rw [serialize_of_bins_ok H ID (fun i => (hbs i).imp id le_of_lt)]
        simp only [hp, Bool.false_eq_true, if_false, c1, c2, getBinsUsed_eq heps H hlen hbs, g1]
        rw [deserialize_hist eps tgt n tw2 _ _ hsw hne2 (by simp)
          (by simpa using List.length_filter_le _ (List.range n))
          (by
            intro r hr
            simp only [List.mem_map, List.mem_filter, List.mem_range] at hr
            obtain ⟨j, ⟨hj, _⟩, rfl⟩ := hr
            exact hj),
          toInt32_of_lt ID hID]
        refine ⟨_, rfl, b1, by simp, b5, by simp, b4, rfl, ?_⟩
        simp only [List.foldl_map]
        obtain ⟨l1, l2⟩ := foldl_set_getD (fun j => getBinWeight H j)
          ((List.range n).filter (fun j => getBinWeight H j ≠ 0)) (List.replicate n 0)
        apply ext_getD
        · rw [l1, g2]; simp
        · intro i hi
          have hi' : i < n := by rw [l1] at hi; simpa using hi
          rw [l2 i (by simpa using hi')]
          split
          · exact getBinWeight_eq H i
          · rename_i hmem
            have : getBinWeight H i = 0 := by
              by_contra hc
              apply hmem
              simp [List.mem_filter, hi', hc]
            rw [← getBinWeight_eq, this]
            simp [List.getD_eq_getElem?_getD, List.getElem?_replicate, hi']

theorem serialize_deserialize_witness :
    ∃ H', deserialize (1 / 10 ^ 10) empty 2 4 (some (serialize (1 / 10 ^ 10)
          { _min := 2, _max := 6, _bincount := 2, _bins := [3, 1], _stats := ⟨12, 12, 4, 4⟩,
            _addList := [] } 7).header)
        (serialize (1 / 10 ^ 10)
          { _min := 2, _max := 6, _bincount := 2, _bins := [3, 1], _stats := ⟨12, 12, 4, 4⟩,
            _addList := [] } 7).records = some (((7 : ℕ) : Int), H') ∧
      |H'._min - 2| ≤ 1 / 10 ^ 9 ∧ |H'._max - 6| ≤ 1 / 10 ^ 9 ∧
      |H'._stats.sumOfValues - 12| ≤ 1 / 10 ^ 9 ∧
      |H'._stats.sumOfWeights - 4| ≤ 1 / 10 ^ 9 ∧
      |H'._stats.sumOfSquares - 12| ≤ 1 / 10 ^ 9 ∧
      H'._bincount = 2 ∧ H'._bins = [3, 1] :=
  serialize_deserialize (1 / 10 ^ 10) (by norm_num) (by norm_num)
    (withList [(2, 3), (6, 1)]) 2 4 2 6
    { _min := 2, _max := 6, _bincount := 2, _bins := [3, 1], _stats := ⟨12, 12, 4, 4⟩,
      _addList := [] }
    (by decide!) 7 (by norm_num) empty 4

/-- What `combineStats` computes when both sides carry weight: the three plain sums
are added, and the variance term is evaluated with the already updated
`sumOfWeights` and `sumOfValues` of the left side. -/
theorem combineStats_of_ne_zero (a b : Stats) (ha : a.totalWeight ≠ 0) (hb : b.totalWeight ≠ 0) :
    Stats.combineStats a b =
      { sumOfSquares := a.sumOfSquares + (b.sumOfSquares +
          (a.sumOfWeights + b.sumOfWeights) * b.sumOfWeights /
            (a.sumOfWeights + b.sumOfWeights + b.sumOfWeights) *
          ((a.sumOfValues + b.sumOfValues) / (a.sumOfWeights + b.sumOfWeights) -
            b.sumOfValues / b.sumOfWeights) *
          ((a.sumOfValues + b.sumOfValues) / (a.sumOfWeights + b.sumOfWeights) -
            b.sumOfValues / b.sumOfWeights)),
        sumOfValues := a.sumOfValues + b.sumOfValues,
        sumOfWeights := a.sumOfWeights + b.sumOfWeights,
        totalWeight := a.totalWeight + b.totalWeight } := by
  simp [Stats.combineStats, ha, hb]

/-- An entry of weight 0 at the end of the list changes none of the four sums. -/
theorem ofVals_append_zero_weight (vals : List WeightedValue) (v : ℚ) :
    Stats.ofVals (vals ++ [(v, 0)]) = Stats.ofVals vals := by
  unfold Stats.ofVals
  by_cases h0 : vals.length = 0
  · have : vals = [] := List.length_eq_zero.mp h0
    subst this
    simp [Stats.sumStep, Stats.squareStep, Stats.clear]
  · have h1 : ¬ ((vals ++ [(v, 0)]).length = 0) := by simp
    simp only [h0, h1, if_false, List.foldl_append, List.foldl_cons, List.foldl_nil]
    simp [Stats.sumStep, Stats.squareStep]

theorem map_range_getD (bs : List ℚ) :
    (List.range bs.length).map (fun i => bs.getD i 0) = bs := by
  apply List.ext_getElem
  · simp
  · intro n h1 h2
    simp [List.getD_eq_getElem?_getD, List.getElem?_eq_getElem h2]

/-- C11: for every histogram `H` that keeps the invariants of a finalized histogram
(the bin array has `binCount` entries, and a point has no bins) and every
`binCount` and `totalWeight` argument, the combining constructor applied to the
one-element list `[H]` has a result that equals `H` in the four sums of its
statistics, in `min`, `max`, the bin count and every bin weight. -/
theorem ofHistogramList_single (eps : ℚ) (H : CPHistogram) (bincount : Nat) (tw : ℚ)
    (hlen : H._bins.length = H._bincount)
    (hpt : isPoint eps H = true → H._bincount = 0) :
    ∃ R, ofHistogramList eps bincount tw [some H] = some R ∧
      R._stats = H._stats ∧ R._min = H._min ∧ R._max = H._max ∧
      R._bincount = H._bincount ∧ R._bins = H._bins := by
  refine ⟨_, rfl, rfl, rfl, rfl, ?_, ?_⟩
  · simp only [assign, copyBins, setBinCount]
    split <;> rfl
  · simp only [assign, copyBins, setBinCount]
    split
    · simp only
      rw [← hlen]
      exact map_range_getD H._bins
    · rename_i hc
      have h0 : H._bincount = 0 := by
        by_contra hne
        apply hc
        refine ⟨Nat.pos_of_ne_zero hne, ?_⟩
        cases hp : isPoint eps H with
        | true => exact absurd (hpt hp) hne
        | false => rfl
      have : H._bins = [] := List.length_eq_zero.mp (by rw [hlen, h0])
      simp [h0, this]

theorem ofHistogramList_single_witness :
    ∃ R, ofHistogramList (1 / 10 ^ 10) 7 9
        [some { _min := 2, _max := 6, _bincount := 2, _bins := [3, 1],
                _stats := ⟨12, 12, 4, 4⟩, _addList := [] }] = some R ∧
      R._stats = ⟨12, 12, 4, 4⟩ ∧ R._min = 2 ∧ R._max = 6 ∧
      R._bincount = 2 ∧ R._bins = [3, 1] :=
  ofHistogramList_single (1 / 10 ^ 10)
    { _min := 2, _max := 6, _bincount := 2, _bins := [3, 1], _stats := ⟨12, 12, 4, 4⟩,
      _addList := [] } 7 9 (by decide!) (by decide!)

/-- C13 (counterexample): a freshly constructed histogram on which `setBinCount(2)`
was called and a freshly constructed histogram have different bin counts and no
weight; `overlap` answers 1 for both values of `includeZero`, because the test for
two zero histograms comes before the test of the bin counts. -/
theorem overlap_zero_histograms_differing_bins :
    bins (setBinCount empty 2) ≠ bins empty ∧
    overlap (1 / 10 ^ 10) (setBinCount empty 2) empty true = 1 ∧
    overlap (1 / 10 ^ 10) (setBinCount empty 2) empty false = 1 := by
  refine ⟨by decide!, by decide!, by decide!⟩

/-- C13 (amended): for every pair of histograms `A` and `B` and both values of
`includeZero`: when the bin counts differ and at least one of `A`, `B` is not a
zero histogram, `A.overlap(B, includeZero)` returns 0; when both are zero
histograms it returns 1, whatever their bin counts. -/
theorem overlap_differing_bins (eps : ℚ) (A B : CPHistogram) (includeZero : Bool) :
    (bins A ≠ bins B → (nonZero eps A = true ∨ nonZero eps B = true) →
      overlap eps A B includeZero = 0) ∧
    (nonZero eps A = false → nonZero eps B = false → overlap eps A B includeZero = 1) := by
  constructor
  · intro hb hnz
    unfold overlap
    rcases hnz with h | h <;> simp [h, hb]
  · intro hA hB
    unfold overlap
    simp [hA, hB]

theorem overlap_differing_bins_witness :
    overlap (1 / 10 ^ 10)
      { _min := 2, _max := 6, _bincount := 2, _bins := [3, 1], _stats := ⟨12, 12, 4, 4⟩,
        _addList := [] }
      { _min := 2, _max := 6, _bincount := 3, _bins := [3, 0, 1], _stats := ⟨12, 12, 4, 4⟩,
        _addList := [] } true = 0 ∧
    overlap (1 / 10 ^ 10) (setBinCount empty 2) (setBinCount empty 3) false = 1 :=
  ⟨(overlap_differing_bins (1 / 10 ^ 10) _ _ true).1 (by decide!) (Or.inl (by decide!)),
   (overlap_differing_bins (1 / 10 ^ 10) _ _ false).2 (by decide!) (by decide!)⟩

/-- The inner loop of the re-binning step adds, to bin `i` only, the weight that
every source histogram reports for the range of that bin. -/
theorem fillBin_spec (eps : ℚ) (i : Nat) (hl : List CPHistogram) (T : CPHistogram)
    (hp : isPoint eps T = false) (hlen : T._bins.length = T._bincount) (hi : i < T._bincount) :
    ∃ bs : List ℚ, fillBin eps i T hl = some { T with _bins := bs } ∧
      bs.length = T._bincount ∧
      ∀ j, bs.getD j 0 = T._bins.getD j 0 +
        (if i = j then (hl.map (fun H => getRangeWeight eps H (getBinLowerLimit eps T i)
          (getBinUpperLimit eps T i))).sum else 0) := by
  induction hl generalizing T with
  | nil => exact ⟨T._bins, by simp [fillBin], hlen, by simp⟩
  | cons H t ih =>
    obtain ⟨w, hw⟩ : ∃ w, w = getRangeWeight eps H (getBinLowerLimit eps T i)
      (getBinUpperLimit eps T i) := ⟨_, rfl⟩
    obtain ⟨bs1, hbs1⟩ : ∃ bs1, bs1 = T._bins.modify (fun x => x + w) i := ⟨_, rfl⟩
    simp only [fillBin, addToBin_eq eps T i _ hp hlen hi, ← hw, ← hbs1]
    have hp1 : isPoint eps { T with _bins := bs1 } = false := by
      rw [isPoint_false_iff] at hp ⊢; exact hp
    obtain ⟨bs, h1, h2, h3⟩ := ih { T with _bins := bs1 } hp1 (by simp [hbs1, hlen]) hi
    refine ⟨bs, h1, h2, ?_⟩
    intro j
    rw [h3 j]
    have hl' : ∀ k, getBinLowerLimit eps { T with _bins := bs1 } k
        = getBinLowerLimit eps T k := fun k => rfl
    have hu' : ∀ k, getBinUpperLimit eps { T with _bins := bs1 } k
        = getBinUpperLimit eps T k := fun k => rfl
    simp only [hl', hu']
    rw [hbs1, getD_modify_add, List.map_cons, List.sum_cons, ← hw]
    by_cases hij : i = j
    · subst hij
      simp only [hlen, hi, and_self, if_true]
      ring
    · simp [hij]

/-- The outer loop of the re-binning step over the bin indices `is`. -/
theorem fillBins_spec (eps : ℚ) (hl : List CPHistogram) (is : List Nat) (T : CPHistogram)
    (hp : isPoint eps T = false) (hlen : T._bins.length = T._bincount)
    (his : ∀ i ∈ is, i < T._bincount) :
    ∃ bs : List ℚ, fillBins eps hl T is = some { T with _bins := bs } ∧
      bs.length = T._bincount ∧
      ∀ j, bs.getD j 0 = T._bins.getD j 0 +
        ((is.filter (fun i => decide (i = j))).map (fun i =>
          (hl.map (fun H => getRangeWeight eps H (getBinLowerLimit eps T i)
            (getBinUpperLimit eps T i))).sum)).sum := by
  induction is generalizing T with
  | nil => exact ⟨T._bins, by simp [fillBins], hlen, by simp⟩
  | cons i t ih =>
    obtain ⟨bs1, f1, f2, f3⟩ := fillBin_spec eps i hl T hp hlen (his i (List.mem_cons_self _ _))
    have hp1 : isPoint eps { T with _bins := bs1 } = false := by
      rw [isPoint_false_iff] at hp ⊢; exact hp
    obtain ⟨bs, h1, h2, h3⟩ := ih { T with _bins := bs1 } hp1 f2
      (fun k hk => his k (List.mem_cons_of_mem _ hk))
    refine ⟨bs, by simp only [fillBins, f1]; exact h1, h2, ?_⟩
    intro j
    rw [h3 j]
    have hl' : ∀ k, getBinLowerLimit eps { T with _bins := bs1 } k
        = getBinLowerLimit eps T k := fun k => rfl
    have hu' : ∀ k, getBinUpperLimit eps { T with _bins := bs1 } k
        = getBinUpperLimit eps T k := fun k => rfl
    simp only [hl', hu', f3 j, List.filter_cons]
    by_cases hij : i = j
    · subst hij
      simp
      ring
    · simp [hij]

theorem floor_natCast_toNat (k : Nat) : (⌊((k : ℤ) : ℚ)⌋).toNat = k := by
  rw [Int.floor_intCast]; simp

/-- C14: for every add list, bin count, total weight argument and seed range, every
histogram that `buildFromList` produces has `totalWeight() ≥ nonZeroWeight()` and
`zeroWeight() = totalWeight() - nonZeroWeight()`; and `buildFromList` does produce
a histogram whenever the bin count is at least 1. -/
theorem buildFromList_weights (eps : ℚ) (heps : 0 < eps) (h0 : CPHistogram) (bincount : Nat)
    (tw mn mx : ℚ) :
    (1 ≤ bincount → ∃ H, buildFromList eps h0 bincount tw mn mx = some H) ∧
    ∀ H, buildFromList eps h0 bincount tw mn mx = some H →
      totalWeight eps H ≥ nonZeroWeight eps H ∧
      zeroWeight eps H = totalWeight eps H - nonZeroWeight eps H := by
  constructor
  · intro hb
    by_cases hs : survivors eps h0._addList = []
    · exact ⟨_, buildFromList_no_survivor eps h0 bincount tw mn mx hs⟩
    · obtain ⟨H, hH, _⟩ := buildFromList_spec eps h0 bincount hb tw mn mx hs
      exact ⟨H, hH⟩
  · intro H hH
    by_cases hs : survivors eps h0._addList = []
    · have hHe := Option.some.inj ((buildFromList_no_survivor eps h0 bincount tw mn mx hs).symm.trans hH)
      have hsw : H._stats.sumOfWeights = 0 := by rw [← hHe]; split <;> rfl
      have hN : nonZeroWeight eps H = 0 := by simp [nonZeroWeight, hsw, heps]
      rw [hN]
      unfold totalWeight zeroWeight
      rw [hsw]
      split
      · simp
      · rename_i hge
        constructor
        · linarith [not_lt.mp hge]
        · ring
    · rcases buildFromList_cases heps hH with ⟨hs', _⟩ | ⟨_, hn, hst, _⟩
      · exact absurd hs' hs
      · have hsw : eps < H._stats.sumOfWeights := (nonZero_eq_true_iff eps H).mp hn
        have hge : H._stats.sumOfWeights ≤ H._stats.totalWeight := by
          rw [hst]; exact builtStats_totalWeight_ge heps _ tw
        have c1 : ¬ (H._stats.sumOfWeights < eps) := not_lt.mpr (le_of_lt hsw)
        have c2 : ¬ (H._stats.totalWeight < eps) := not_lt.mpr (by linarith)
        simp only [totalWeight, nonZeroWeight, zeroWeight, c1, c2, if_false]
        exact ⟨hge, trivial⟩

theorem buildFromList_weights_witness :
    (1 ≤ 2 → ∃ H, buildFromList (1 / 10 ^ 10) (withList [(2, 3), (6, 1)]) 2 4 2 6 = some H) ∧
    ∀ H, buildFromList (1 / 10 ^ 10) (withList [(2, 3), (6, 1)]) 2 4 2 6 = some H →
      totalWeight (1 / 10 ^ 10) H ≥ nonZeroWeight (1 / 10 ^ 10) H ∧
      zeroWeight (1 / 10 ^ 10) H = totalWeight (1 / 10 ^ 10) H - nonZeroWeight (1 / 10 ^ 10) H :=
  buildFromList_weights (1 / 10 ^ 10) (by norm_num) (withList [(2, 3), (6, 1)]) 2 4 2 6

/-- C18 (evaluation at the failing input): the histogram built from the pair `(2, 1)`
with total weight 2 has `sumOfSquares = 0`, `sumOfValues = 2`, `sumOfWeights = 1`
and `totalWeight = 2`, so one unit of weight sits at value 0.  `stdev(true)`
computes the zero weight as `totalWeight - totalWeight = 0` and returns
`sqrt(0/2)`, whatever the function `sqrt`; the formula of the claim asks for the
square root of `(0 + (2 - 1) * (2/1)^2) / 2 = 2`. -/
theorem stdev_inclZeros_ignores_zero_weight :
    ∃ H : CPHistogram,
      buildFromList (1 / 10 ^ 10) (withList [(2, 1)]) 2 2 2 2 = some H ∧
      H._stats = ⟨0, 2, 1, 2⟩ ∧
      (∀ sqrt : ℚ → ℚ, stdev sqrt H true = sqrt 0) ∧
      (H._stats.sumOfSquares + (H._stats.totalWeight - H._stats.sumOfWeights) *
        (H._stats.sumOfValues / H._stats.sumOfWeights) ^ 2) / H._stats.totalWeight = 2 := by
  refine ⟨{ _min := 2, _max := 2, _bincount := 0, _bins := [], _stats := ⟨0, 2, 1, 2⟩,
            _addList := [] }, by decide!, rfl, ?_, by norm_num⟩
  intro sqrt
  simp [stdev, Stats.stdev]

/-- What `stdev(true)` returns on statistics with `sumOfWeights ≠ 0`: the square
root of `sumOfSquares / totalWeight`. -/
theorem stdev_inclZeros (sqrt : ℚ → ℚ) (s : Stats) (hs : s.sumOfWeights ≠ 0) :
    s.stdev sqrt true = sqrt (s.sumOfSquares / s.totalWeight) := by
  simp [Stats.stdev, hs]

/-- C19 (evaluation at the failing input): with the add list `[(0, 1)]`, whose only
entry is filtered out, and `totalweight = 1`, `buildFromList` leaves a point
histogram without bins and with `sumOfWeights = 0`, but with
`Stats.totalWeight = 0`: the early return for an empty filtered list does not
store `totalweight`.  With the empty add list it stores it. -/
theorem buildFromList_all_filtered_drops_totalWeight :
    ∃ H H0 : CPHistogram,
      buildFromList (1 / 10 ^ 10) (withList [(0, 1)]) 2 1 0 0 = some H ∧
      survivors (1 / 10 ^ 10) (withList [(0, 1)])._addList = [] ∧
      isPoint (1 / 10 ^ 10) H = true ∧ H._bincount = 0 ∧ H._bins = [] ∧
      H._stats.sumOfWeights = 0 ∧ H._stats.totalWeight = 0 ∧
      buildFromList (1 / 10 ^ 10) (withList []) 2 1 0 0 = some H0 ∧
      H0._stats.totalWeight = 1 :=
  ⟨{ _min := 0, _max := 0, _bincount := 0, _bins := [], _stats := ⟨0, 0, 0, 0⟩,
     _addList := [(0, 1)] },
   { _min := 0, _max := 0, _bincount := 0, _bins := [], _stats := ⟨0, 0, 0, 1⟩,
     _addList := [] },
   by decide!, by decide!, by decide!, by decide!, by decide!, by decide!, by decide!,
   by decide!, by decide!⟩

theorem foldl_filterStep_minVal_eq (eps : ℚ) (l : List WeightedValue) (st : FilterState) :
    (l.foldl (filterStep eps) st).minVal =
      ((survivors eps l).map Prod.fst).foldl Min.min st.minVal := by
  induction l generalizing st with
  | nil => simp [survivors]
  | cons a t ih =>
    rw [List.foldl_cons, ih]
    by_cases hp : a.1 > eps ∧ a.2 > eps
    · have hs : survivors eps (a :: t) = a :: survivors eps t := by
        simp [survivors, List.filter_cons, hp]
      rw [hs, List.map_cons, List.foldl_cons]
      congr 1
      unfold filterStep
      simp only [hp, and_self, if_true]
      by_cases hlt : a.1 < st.minVal
      · simp [hlt, min_eq_right (le_of_lt hlt)]
      · simp [hlt, min_eq_left (not_lt.mp hlt)]
    · have hs : survivors eps (a :: t) = survivors eps t := by
        simp [survivors, List.filter_cons, hp]
      rw [hs]
      simp [filterStep, hp]

theorem foldl_filterStep_maxVal_eq (eps : ℚ) (l : List WeightedValue) (st : FilterState) :
    (l.foldl (filterStep eps) st).maxVal =
      ((survivors eps l).map Prod.fst).foldl Max.max st.maxVal := by
  induction l generalizing st with
  | nil => simp [survivors]
  | cons a t ih =>
    rw [List.foldl_cons, ih]
    by_cases hp : a.1 > eps ∧ a.2 > eps
    · have hs : survivors eps (a :: t) = a :: survivors eps t := by
        simp [survivors, List.filter_cons, hp]
      rw [hs, List.map_cons, List.foldl_cons]
      congr 1
      unfold filterStep
      simp only [hp, and_self, if_true]
      by_cases hlt : a.1 > st.maxVal
      · simp [hlt, max_eq_right (le_of_lt hlt)]
      · simp [hlt, max_eq_left (not_lt.mp hlt)]
    · have hs : survivors eps (a :: t) = survivors eps t := by
        simp [survivors, List.filter_cons, hp]
      rw [hs]
      simp [filterStep, hp]

/-- The range that `buildFromList` sets when some entry survives: the lower end is
the least of the seed minimum and the surviving values, raised to 0 when negative;
the upper end is the greatest of the seed maximum and the surviving values. -/
theorem rangedHist_min_max {eps : ℚ} (heps : 0 < eps) (h0 : CPHistogram) (tw mn mx : ℚ)
    (hs : survivors eps h0._addList ≠ []) :
    (rangedHist eps h0 tw mn mx)._min =
      Max.max 0 (((survivors eps h0._addList).map Prod.fst).foldl Min.min mn) ∧
    (rangedHist eps h0 tw mn mx)._max =
      ((survivors eps h0._addList).map Prod.fst).foldl Max.max mx := by
  obtain ⟨_, _, h3⟩ := foldl_filterStep_bounds eps h0._addList
    { vals := [], weight := 0, minVal := mn, maxVal := mx }
  obtain ⟨wv, hwv⟩ := List.exists_mem_of_ne_nil _ hs
  obtain ⟨b1, b2⟩ := h3 wv hwv
  have hv := (mem_survivors hwv).2.1
  have e1 := foldl_filterStep_minVal_eq eps h0._addList
    { vals := [], weight := 0, minVal := mn, maxVal := mx }
  have e2 := foldl_filterStep_maxVal_eq eps h0._addList
    { vals := [], weight := 0, minVal := mn, maxVal := mx }
  simp only at e1 e2
  rw [← e1, ← e2]
  unfold rangedHist setRange
  generalize (h0._addList.foldl (filterStep eps)
    { vals := [], weight := 0, minVal := mn, maxVal := mx }).minVal = lo at b1 ⊢
  generalize (h0._addList.foldl (filterStep eps)
    { vals := [], weight := 0, minVal := mn, maxVal := mx }).maxVal = hi at b2 ⊢
  have c1 : ¬ (lo > hi) := not_lt.mpr (le_trans b1 b2)
  have c2 : ¬ (hi < 0) := not_lt.mpr (by linarith)
  simp only [c1, c2, if_false]
  refine ⟨?_, trivial⟩
  by_cases hl : lo < 0
  · simp [hl, max_eq_left (le_of_lt hl)]
  · simp [hl, max_eq_right (not_lt.mp hl)]

/-- C15 (counterexample): Scenario A with the seed range `[-1, 6]`.  The result is
not a point; the least of the seed minimum and the surviving values is `-1`, but
`setRange` raises a negative bound to 0 and the range is `[0, 6]`. -/
theorem buildFromList_negative_seed_min :
    ∃ H : CPHistogram,
      buildFromList (1 / 10 ^ 10) (withList [(2, 3), (6, 1)]) 2 4 (-1) 6 = some H ∧
      isPoint (1 / 10 ^ 10) H = false ∧
      ((survivors (1 / 10 ^ 10) [(2, 3), (6, 1)]).map Prod.fst).foldl Min.min (-1) = -1 ∧
      H._min = 0 :=
  ⟨{ _min := 0, _max := 6, _bincount := 2, _bins := [3, 1], _stats := ⟨12, 12, 4, 4⟩,
     _addList := [] },
   by decide!, by decide!, by decide!, by decide!⟩

/-- Scenario A for every `FP_FUDGE_EPS` below 1. -/
theorem scenarioA {eps : ℚ} (heps : 0 < eps) (h1 : eps < 1) :
    buildFromList eps (withList [(2, 3), (6, 1)]) 2 4 2 6 =
      some { _min := 2, _max := 6, _bincount := 2, _bins := [3, 1],
             _stats := ⟨12, 12, 4, 4⟩, _addList := [] } := by
  have hsurv : survivors eps (withList [(2, 3), (6, 1)])._addList = [(2, 3), (6, 1)] := by
    apply survivors_eq_self
    intro wv hwv
    simp only [withList, List.mem_cons, List.mem_singleton, List.not_mem_nil, or_false] at hwv
    rcases hwv with rfl | rfl <;> constructor <;> simp only <;> linarith
  have hs : survivors eps (withList [(2, 3), (6, 1)])._addList ≠ [] := by rw [hsurv]; simp
  obtain ⟨K, k1, k2, k3, k4, k5, _, k7⟩ := buildFromList_spec eps (withList [(2, 3), (6, 1)]) 2
    (by decide) 4 2 6 hs
  obtain ⟨r1, r2⟩ := rangedHist_min_max heps (withList [(2, 3), (6, 1)]) 4 2 6 hs
  rw [hsurv] at r1 r2 k7
  have e3 : K._min = 2 := by rw [k3, r1]; decide!
  have e4 : K._max = 6 := by rw [k4, r2]; decide!
  have e2 : K._stats = ⟨12, 12, 4, 4⟩ := by
    rw [k2]
    unfold builtStats
    simp only [withList] at hsurv
    simp only [withList, hsurv]
    decide!
  have hp : isPoint eps K = false := by
    rw [isPoint_false_iff, e2, e3, e4]
    exact ⟨by simp only; linarith, by norm_num⟩
  obtain ⟨g1, g2, g3, _⟩ := k7 hp
  have w2 : whichBin eps K 2 = 0 := by
    rw [whichBin_eq hp, e3, e4, g1]
    norm_num [predU32]
  have w6 : whichBin eps K 6 = 1 := by
    rw [whichBin_eq hp, e3, e4, g1]
    norm_num [predU32]
  have hb : K._bins = [3, 1] := by
    apply ext_getD (by rw [g2]; rfl)
    intro i hi
    rw [g2] at hi
    rw [g3 i hi]
    simp only [List.filter_cons, List.filter_nil, w2, w6]
    interval_cases i <;> simp
  rw [k1]
  congr 1
  cases K
  simp only at e2 e3 e4 g1 hb k5
  simp [e2, e3, e4, g1, hb, k5]

/-- C15 (amended): for every add list and bin count of at least 1, `buildFromList`
has a result, and when it is not a point its range is `[max(0, least of the seed
minimum and the surviving values), greatest of the seed maximum and the surviving
values]`, it has `binCount` bins, and `bins[i]` is the sum of the weights of the
surviving entries (value and weight above `FP_FUDGE_EPS`) whose `whichBin(value)`
is `i`.  Scenario A (entries `(2,3)` and `(6,1)`, 2 bins, total weight 4, seed
range `[2,6]`, any `FP_FUDGE_EPS` below 1) gives bin width 2, bins `[3,1]`,
`nonZeroWeight() = 4`, `zeroWeight() = 0` and `mean(false) = 3`. -/
theorem buildFromList_deposits (eps : ℚ) (heps : 0 < eps) (h0 : CPHistogram)
    (bincount : Nat) (hb : 1 ≤ bincount) (tw mn mx : ℚ) :
    (∃ H, buildFromList eps h0 bincount tw mn mx = some H ∧
      (isPoint eps H = false →
        H._min = Max.max 0 (((survivors eps h0._addList).map Prod.fst).foldl Min.min mn) ∧
        H._max = ((survivors eps h0._addList).map Prod.fst).foldl Max.max mx ∧
        H._bincount = bincount ∧ H._bins.length = bincount ∧
        ∀ i, i < bincount → H._bins.getD i 0 =
          (((survivors eps h0._addList).filter
            (fun wv => decide (whichBin eps H wv.1 = i))).map Prod.snd).sum)) ∧
    (eps < 1 → ∃ A, buildFromList eps (withList [(2, 3), (6, 1)]) 2 4 2 6 = some A ∧
      getBinWidth eps A = 2 ∧ A._bins = [3, 1] ∧ nonZeroWeight eps A = 4 ∧
      zeroWeight eps A = 0 ∧ mean A false = 3) := by
  constructor
  · by_cases hs : survivors eps h0._addList = []
    · refine ⟨_, buildFromList_no_survivor eps h0 bincount tw mn mx hs, ?_⟩
      intro hp
      rw [isPoint_false_iff] at hp
      exfalso
      have h1 := hp.1
      split at h1 <;> simp [clear, setBinCount, Stats.clear] at h1 <;> linarith
    · obtain ⟨H, k1, _, k3, k4, _, _, k7⟩ := buildFromList_spec eps h0 bincount hb tw mn mx hs
      obtain ⟨r1, r2⟩ := rangedHist_min_max heps h0 tw mn mx hs
      refine ⟨H, k1, ?_⟩
      intro hp
      obtain ⟨g1, g2, g3, _⟩ := k7 hp
      exact ⟨by rw [k3, r1], by rw [k4, r2], g1, g2, g3⟩
  · intro h1
    refine ⟨_, scenarioA heps h1, ?_, rfl, ?_, ?_, ?_⟩
    · rw [getBinWidth_eq (by
        rw [isPoint_false_iff]
        exact ⟨by simp only; linarith, by norm_num⟩)]
      norm_num
    · have : ¬ ((4 : ℚ) < eps) := not_lt.mpr (by linarith)
      simp [nonZeroWeight, this]
    · have : ¬ ((4 : ℚ) < eps) := not_lt.mpr (by linarith)
      simp [zeroWeight, this]
    · simp [mean, Stats.mean]
      norm_num

theorem buildFromList_deposits_witness :
    (∃ H, buildFromList (1 / 10 ^ 10) (withList [(1, 1), (3, 2), (9, 1)]) 4 5 1 9 = some H ∧
      (isPoint (1 / 10 ^ 10) H = false →
        H._min = Max.max 0
          (((survivors (1 / 10 ^ 10) (withList [(1, 1), (3, 2), (9, 1)])._addList).map
            Prod.fst).foldl Min.min 1) ∧
        H._max = ((survivors (1 / 10 ^ 10) (withList [(1, 1), (3, 2), (9, 1)])._addList).map
            Prod.fst).foldl Max.max 9 ∧
        H._bincount = 4 ∧ H._bins.length = 4 ∧
        ∀ i, i < 4 → H._bins.getD i 0 =
          (((survivors (1 / 10 ^ 10) (withList [(1, 1), (3, 2), (9, 1)])._addList).filter
            (fun wv => decide (whichBin (1 / 10 ^ 10) H wv.1 = i))).map Prod.snd).sum)) ∧
    ((1 / 10 ^ 10 : ℚ) < 1 → ∃ A,
      buildFromList (1 / 10 ^ 10) (withList [(2, 3), (6, 1)]) 2 4 2 6 = some A ∧
      getBinWidth (1 / 10 ^ 10) A = 2 ∧ A._bins = [3, 1] ∧ nonZeroWeight (1 / 10 ^ 10) A = 4 ∧
      zeroWeight (1 / 10 ^ 10) A = 0 ∧ mean A false = 3) :=
  buildFromList_deposits (1 / 10 ^ 10) (by norm_num) (withList [(1, 1), (3, 2), (9, 1)]) 4
    (by decide) 5 1 9

/-- The scan of `quantile`, started inside the array with less than the wanted
weight passed and enough weight ahead, stops at the first bin at which the
cumulative weight reaches `q2`. -/
theorem quantileScan_spec (q2 : ℚ) (rest : List ℚ) (w : ℚ) (i : Nat)
    (hw : w < q2) (hsum : q2 ≤ w + rest.sum) :
    ∃ k, k < rest.length ∧
      quantileScan q2 w i rest = some (w + (rest.take k).sum, i + k) ∧
      q2 ≤ w + (rest.take (k + 1)).sum ∧
      ∀ j, j < k → w + (rest.take (j + 1)).sum < q2 := by
  induction rest generalizing w i with
  | nil => simp at hsum; exact absurd hw (not_lt.mpr hsum)
  | cons b t ih =>
    by_cases hb : w + b < q2
    · obtain ⟨k, k1, k2, k3, k4⟩ := ih (w + b) (i + 1) hb (by
        simp only [List.sum_cons] at hsum; linarith)
      refine ⟨k + 1, by simpa using k1, ?_, ?_, ?_⟩
      · simp only [quantileScan, hb, if_true, k2, List.take_succ_cons, List.sum_cons]
        congr 2
        · ring
        · omega
      · simp only [List.take_succ_cons, List.sum_cons]
        linarith
      · intro j hj
        cases j with
        | zero => simpa using hb
        | succ j' =>
          have := k4 j' (by omega)
          simp only [List.take_succ_cons, List.sum_cons]
          linarith
    · refine ⟨0, by simp, ?_, ?_, ?_⟩
      · simp [quantileScan, hb]
      · simp only [List.take_succ_cons, List.take_zero, List.sum_cons, List.sum_nil]
        linarith [not_lt.mp hb]
      · intro j hj; omega

/-- The result of `quantile(q)` for `0 < q < 1` on a histogram that is not a point
and whose bins sum to `nonZeroWeight()`. -/
theorem quantile_result {eps : ℚ} (heps : 0 < eps) {h : CPHistogram}
    (hp : isPoint eps h = false)
    (hsum : h._bins.sum = nonZeroWeight eps h) (q : ℚ) (hq0 : 0 < q) (hq1 : q < 1) :
    ∃ i, i < h._bins.length ∧
      q * nonZeroWeight eps h ≤ (h._bins.take (i + 1)).sum ∧
      (∀ j, j < i → (h._bins.take (j + 1)).sum < q * nonZeroWeight eps h) ∧
      quantile eps h q = some (getBinLowerLimit eps h i +
        getBinWidth eps h * (q * nonZeroWeight eps h - (h._bins.take i).sum) /
          h._bins.getD i 0) := by
  have hpf := (isPoint_false_iff eps h).mp hp
  have hN : nonZeroWeight eps h = h._stats.sumOfWeights := by
    simp [nonZeroWeight, not_lt.mpr (le_of_lt hpf.1)]
  have hpos : 0 < nonZeroWeight eps h := by rw [hN]; linarith [hpf.1]
  have hq2 : 0 < q * nonZeroWeight eps h := mul_pos hq0 hpos
  have hle : q * nonZeroWeight eps h ≤ 0 + h._bins.sum := by
    rw [hsum, zero_add]
    nlinarith
  obtain ⟨k, k1, k2, k3, k4⟩ := quantileScan_spec (q * nonZeroWeight eps h) h._bins 0 0 hq2 hle
  refine ⟨k, k1, by simpa using k3, fun j hj => by simpa using k4 j hj, ?_⟩
  unfold quantile
  simp only [nonZero_of_not_point hp, hp, Bool.not_true, Bool.false_eq_true, if_false,
    not_le.mpr hq0, ge_iff_le, not_le.mpr hq1, k2, zero_add]
  congr 1
  rw [mul_div_assoc]

/-- C16: for every histogram that is not a point and whose bins sum to
`nonZeroWeight()`, and every `0 < q < 1`, `quantile(q)` has a result: there is a
least bin index `i` whose cumulative weight `bins[0] + ... + bins[i]` is at least
`q * nonZeroWeight()`, and the result is `binLower(i) + binWidth * (q *
nonZeroWeight() - (bins[0] + ... + bins[i-1])) / bins[i]`.  On the Scenario A
histogram (min 2, max 6, bins `[3, 1]`) `quantile(0.5) = 10/3`. -/
theorem quantile_formula (eps : ℚ) (heps : 0 < eps) (h : CPHistogram)
    (hp : isPoint eps h = false)
    (hsum : h._bins.sum = nonZeroWeight eps h) (q : ℚ) (hq0 : 0 < q) (hq1 : q < 1) :
    (∃ i, i < h._bins.length ∧
      q * nonZeroWeight eps h ≤ (h._bins.take (i + 1)).sum ∧
      (∀ j, j < i → (h._bins.take (j + 1)).sum < q * nonZeroWeight eps h) ∧
      quantile eps h q = some (getBinLowerLimit eps h i +
        getBinWidth eps h * (q * nonZeroWeight eps h - (h._bins.take i).sum) /
          h._bins.getD i 0)) ∧
    (eps < 1 → quantile eps
      { _min := 2, _max := 6, _bincount := 2, _bins := [3, 1], _stats := ⟨12, 12, 4, 4⟩,
        _addList := [] } (1 / 2) = some (10 / 3)) := by
  refine ⟨quantile_result heps hp hsum q hq0 hq1, ?_⟩
  intro h1
  have c1 : ¬ ((4 : ℚ) ≤ eps) := not_le.mpr (by linarith)
  have c2 : ¬ ((4 : ℚ) < eps) := not_lt.mpr (by linarith)
  have c3 : eps < 4 := by linarith
  simp [quantile, nonZero, isPoint, nonZeroWeight, quantileScan, getBinLowerLimit,
    getBinWidth, c1, c2, c3]
  norm_num

theorem quantile_formula_witness :
    (∃ i, i < ([3, 1] : List ℚ).length ∧
      (1 / 4 : ℚ) * nonZeroWeight (1 / 10 ^ 10)
        { _min := 2, _max := 6, _bincount := 2, _bins := [3, 1], _stats := ⟨12, 12, 4, 4⟩,
          _addList := [] } ≤ (([3, 1] : List ℚ).take (i + 1)).sum ∧
      (∀ j, j < i → (([3, 1] : List ℚ).take (j + 1)).sum < (1 / 4 : ℚ) *
        nonZeroWeight (1 / 10 ^ 10)
          { _min := 2, _max := 6, _bincount := 2, _bins := [3, 1], _stats := ⟨12, 12, 4, 4⟩,
            _addList := [] }) ∧
      quantile (1 / 10 ^ 10)
        { _min := 2, _max := 6, _bincount := 2, _bins := [3, 1], _stats := ⟨12, 12, 4, 4⟩,
          _addList := [] } (1 / 4) =
        some (getBinLowerLimit (1 / 10 ^ 10)
          { _min := 2, _max := 6, _bincount := 2, _bins := [3, 1], _stats := ⟨12, 12, 4, 4⟩,
            _addList := [] } i +
          getBinWidth (1 / 10 ^ 10)
            { _min := 2, _max := 6, _bincount := 2, _bins := [3, 1], _stats := ⟨12, 12, 4, 4⟩,
              _addList := [] } *
            ((1 / 4 : ℚ) * nonZeroWeight (1 / 10 ^ 10)
              { _min := 2, _max := 6, _bincount := 2, _bins := [3, 1], _stats := ⟨12, 12, 4, 4⟩,
                _addList := [] } - (([3, 1] : List ℚ).take i).sum) /
            ([3, 1] : List ℚ).getD i 0)) ∧
    ((1 / 10 ^ 10 : ℚ) < 1 → quantile (1 / 10 ^ 10)
      { _min := 2, _max := 6, _bincount := 2, _bins := [3, 1], _stats := ⟨12, 12, 4, 4⟩,
        _addList := [] } (1 / 2) = some (10 / 3)) :=
  quantile_formula (1 / 10 ^ 10) (by norm_num)
    { _min := 2, _max := 6, _bincount := 2, _bins := [3, 1], _stats := ⟨12, 12, 4, 4⟩,
      _addList := [] }
    (by decide!) (by decide!) (1 / 4) (by norm_num) (by norm_num)

theorem take_sum_eq_range (bs : List ℚ) (i : Nat) (hi : i ≤ bs.length) :
    (bs.take i).sum = ((List.range i).map (fun k => bs.getD k 0)).sum := by
  rw [sum_eq_sum_range_getD (bs.take i)]
  have hl : (bs.take i).length = i := by simp [hi]
  rw [hl]
  congr 1
  apply List.map_congr_left
  intro k hk
  have hk' : k < i := List.mem_range.mp hk
  simp [List.getD_eq_getElem?_getD, List.getElem?_take, hk']

/-- A value inside bin `i` of a histogram that is not a point falls into bin `i`. -/
theorem whichBin_interior {eps : ℚ} {H : CPHistogram} (hp : isPoint eps H = false)
    (hpos : 0 < (H._max - H._min) / (H._bincount : ℚ)) (i : Nat) (hi : i < H._bincount) (v : ℚ)
    (h1 : H._min + (H._max - H._min) / (H._bincount : ℚ) * (i : ℚ) ≤ v)
    (h2 : v < H._min + (H._max - H._min) / (H._bincount : ℚ) * ((i : ℚ) + 1)) :
    whichBin eps H v = i := by
  rw [whichBin_eq hp]
  have hf : ⌊(v - H._min) / ((H._max - H._min) / (H._bincount : ℚ))⌋ = (i : ℤ) := by
    rw [Int.floor_eq_iff]
    constructor
    · rw [le_div_iff₀ hpos]; push_cast; linarith
    · rw [div_lt_iff₀ hpos]; push_cast; linarith
  rw [hf]
  have c1 : ¬ ((i : ℤ) < 0) := by omega
  have c2 : ¬ ((i : ℤ).toNat ≥ H._bincount) := by simp; exact hi
  simp only [c1, c2, if_false]
  simp

/-- The weight that `getRangeWeight(0, v)` reports when `v` lies in bin `i`, at
least `eps` away from both ends of that bin: the bins below `i` and the fraction of
bin `i` below `v`. -/
theorem getRangeWeight_below_interior {eps : ℚ} (heps : 0 < eps) {H : CPHistogram}
    (hp : isPoint eps H = false) (hlen : H._bins.length = H._bincount)
    (hnn : ∀ x ∈ H._bins, 0 ≤ x) (hmin0 : 0 ≤ H._min) (i : Nat) (hi : i < H._bincount) (v : ℚ)
    (h1 : getBinLowerLimit eps H i + eps ≤ v) (h2 : v ≤ getBinUpperLimit eps H i - eps) :
    getRangeWeight eps H 0 v = (H._bins.take i).sum +
      (v - getBinLowerLimit eps H i) / getBinWidth eps H * H._bins.getD i 0 := by
  obtain ⟨bw, hbw⟩ : ∃ bw, bw = (H._max - H._min) / (H._bincount : ℚ) := ⟨_, rfl⟩
  have hL : ∀ k : Nat, getBinLowerLimit eps H k = H._min + bw * (k : ℚ) := by
    intro k; rw [getBinLowerLimit_eq hp, hbw]
  have hU : ∀ k : Nat, getBinUpperLimit eps H k = H._min + bw * ((k : ℚ) + 1) := by
    intro k; rw [getBinUpperLimit_eq hp, hbw]
  have hW : getBinWidth eps H = bw := by rw [getBinWidth_eq hp, hbw]
  rw [hL] at h1
  rw [hU] at h2
  have hpos : 0 < bw := by nlinarith
  have hb : 1 ≤ H._bincount := by omega
  have hnQ : (0 : ℚ) < H._bincount := by exact_mod_cast hb
  have hiQ : (i : ℚ) + 1 ≤ H._bincount := by exact_mod_cast hi
  have hi0 : (0 : ℚ) ≤ i := Nat.cast_nonneg i
  have hmax : H._min + bw * (H._bincount : ℚ) = H._max := by
    rw [hbw]; field_simp
  have hlt : H._min < H._max := by rw [← hmax]; nlinarith
  have hne : H._bins ≠ [] := by
    intro he; rw [he] at hlen; simp at hlen; omega
  have hvmin : H._min + eps ≤ v := by nlinarith
  have hvmax : v ≤ H._max - eps := by rw [← hmax]; nlinarith
  have hg : ∀ k, 0 ≤ H._bins.getD k 0 := by
    intro k
    rw [List.getD_eq_getElem?_getD]
    cases hk : H._bins[k]? with
    | none => simp
    | some x => simp; exact hnn x (List.getElem?_mem hk)
  have wv : whichBin eps H v = i := by
    apply whichBin_interior hp (by rw [← hbw]; exact hpos) i hi v
    · rw [← hbw]; linarith
    · rw [← hbw]; linarith
  have c1 : ¬ ((0 : ℚ) > v) := by intro h; linarith
  have c2 : ¬ (v - 0 < eps) := by intro h; linarith
  have c3 : ¬ (v ≤ H._min ∨ (0 : ℚ) ≥ H._max) := by
    intro h; rcases h with h | h <;> linarith
  have c4 : (if (0 : ℚ) < H._min then H._min else 0) = H._min := by
    split
    · rfl
    · rename_i hn; linarith [not_lt.mp hn]
  have c5 : ¬ (v > H._max) := by intro h; linarith
  have su : snapUpper eps H v i = some (v, i, false) := by
    unfold snapUpper
    rw [hL, hU]
    have e1 : ¬ (v > H._min + bw * ((i : ℚ) + 1) - eps) := by intro h; linarith
    have e2 : ¬ (v < H._min + bw * (i : ℚ) + eps) := by intro h; linarith
    simp only [e1, e2, if_false]
  unfold getRangeWeight
  simp only [nonZero_of_not_point hp, Bool.not_true, Bool.false_eq_true, if_false, hp, hne,
    c1, c2, c3, c4, c5, wv, su, whichBin_min hp hb, snapLower_min heps hp, hW, hL, hU]
  have hpart : 0 ≤ (v - (H._min + bw * (i : ℚ))) / bw * H._bins.getD i 0 :=
    mul_nonneg (div_nonneg (by linarith) (le_of_lt hpos)) (hg i)
  by_cases h0 : 0 = i
  · subst h0
    simp only [if_true, Bool.and_false, Bool.false_eq_true, if_false, List.take_zero,
      List.sum_nil, zero_add]
    have e0 : (v - H._min) / bw * H._bins.getD 0 0 =
        (v - (H._min + bw * ((0 : ℕ) : ℚ))) / bw * H._bins.getD 0 0 := by simp
    rw [e0, if_neg (not_lt.mpr hpart)]
  · simp only [h0, if_false, if_true, not_lt.mpr (hg 0), not_lt.mpr hpart]
    rw [foldl_add_getD, take_sum_eq_range H._bins i (by omega)]
    obtain ⟨k, rfl⟩ : ∃ k, i = k + 1 := ⟨i - 1, by omega⟩
    have hr : List.range (k + 1) = 0 :: List.range' 1 k := by
      rw [List.range_eq_range', List.range'_succ]
    have hk : k + 1 - (0 + 1) = k := by omega
    rw [hr, hk]
    simp only [List.map_cons, List.sum_cons, zero_add]
    ring

theorem take_succ_sum (bs : List ℚ) (i : Nat) (hi : i < bs.length) :
    (bs.take (i + 1)).sum = (bs.take i).sum + bs.getD i 0 := by
  rw [take_sum_eq_range bs (i + 1) (by omega), take_sum_eq_range bs i (by omega),
    List.range_succ, List.map_append, List.sum_append]
  simp

/-- C17 (counterexample): on the Scenario A histogram (bins `[3, 1]` on `[2, 6]`)
with `FP_FUDGE_EPS = 1/10^10`, `q = 119999999997/160000000000` has the quantile
`4 - 1/(2*10^10)`, closer than `FP_FUDGE_EPS` to the boundary 4 between the two
bins.  `getRangeWeight` snaps it to the boundary, so `probLessThan` of the
quantile is `3/4`, not `q`. -/
theorem probLessThan_quantile_near_boundary :
    ∃ H : CPHistogram,
      buildFromList (1 / 10 ^ 10) (withList [(2, 3), (6, 1)]) 2 4 2 6 = some H ∧
      isPoint (1 / 10 ^ 10) H = false ∧
      quantile (1 / 10 ^ 10) H (119999999997 / 160000000000) =
        some (79999999999 / 20000000000) ∧
      probLessThan (1 / 10 ^ 10) H (79999999999 / 20000000000) = 3 / 4 ∧
      (3 / 4 : ℚ) ≠ 119999999997 / 160000000000 :=
  ⟨{ _min := 2, _max := 6, _bincount := 2, _bins := [3, 1], _stats := ⟨12, 12, 4, 4⟩,
     _addList := [] },
   by decide!, by decide!, by decide!, by decide!, by decide!⟩

/-- C17 (amended): for every histogram that is not a point, with `0 ≤ min ≤ max`
and non-negative bins summing to `nonZeroWeight()`, and every `0 < q < 1` with
`q ≥ FP_FUDGE_EPS`, `quantile(q)` has a result `v`; and if `v` is at least
`FP_FUDGE_EPS` away from every bin boundary, then `probLessThan(v) = q`. -/
theorem probLessThan_quantile (eps : ℚ) (heps : 0 < eps) (h : CPHistogram)
    (hp : isPoint eps h = false) (hlen : h._bins.length = h._bincount)
    (hmin0 : 0 ≤ h._min) (hle : h._min ≤ h._max) (hnn : ∀ x ∈ h._bins, 0 ≤ x)
    (hsum : h._bins.sum = nonZeroWeight eps h) (q : ℚ) (hq0 : 0 < q) (hq1 : q < 1)
    (hqe : eps ≤ q) :
    ∃ v, quantile eps h q = some v ∧
      ((∀ k, k ≤ h._bincount → eps ≤ |v - getBinLowerLimit eps h k|) →
        probLessThan eps h v = q) := by
  obtain ⟨i, i1, i2, i3, i4⟩ := quantile_result heps hp hsum q hq0 hq1
  have hpf := (isPoint_false_iff eps h).mp hp
  have hN : nonZeroWeight eps h = h._stats.sumOfWeights := by
    simp [nonZeroWeight, not_lt.mpr (le_of_lt hpf.1)]
  have hsw : 0 < h._stats.sumOfWeights := by linarith [hpf.1]
  have hq2 : 0 < q * nonZeroWeight eps h := by rw [hN]; exact mul_pos hq0 hsw
  have hi : i < h._bincount := by rw [← hlen]; exact i1
  have hlt : h._min < h._max := lt_of_le_of_ne hle hpf.2
  have hnQ : (0 : ℚ) < h._bincount := by exact_mod_cast (Nat.zero_lt_of_lt hi)
  obtain ⟨bw, hbw⟩ : ∃ bw, bw = (h._max - h._min) / (h._bincount : ℚ) := ⟨_, rfl⟩
  have hpos : 0 < bw := by rw [hbw]; exact div_pos (sub_pos.mpr hlt) hnQ
  have hW : getBinWidth eps h = bw := by rw [getBinWidth_eq hp, hbw]
  have hL : ∀ k : Nat, getBinLowerLimit eps h k = h._min + bw * (k : ℚ) := by
    intro k; rw [getBinLowerLimit_eq hp, hbw]
  have hU : ∀ k : Nat, getBinUpperLimit eps h k = h._min + bw * ((k : ℚ) + 1) := by
    intro k; rw [getBinUpperLimit_eq hp, hbw]
  -- the weight still needed inside bin `i`
  obtain ⟨d, hd⟩ : ∃ d, d = q * nonZeroWeight eps h - (h._bins.take i).sum := ⟨_, rfl⟩
  have hcum : (h._bins.take i).sum < q * nonZeroWeight eps h := by
    cases i with
    | zero => simpa using hq2
    | succ j => exact i3 j (by omega)
  have hd0 : 0 < d := by rw [hd]; linarith
  have hdb : d ≤ h._bins.getD i 0 := by
    rw [hd]
    have := take_succ_sum h._bins i i1
    linarith
  have hbpos : 0 < h._bins.getD i 0 := lt_of_lt_of_le hd0 hdb
  have hfrac0 : 0 ≤ bw * d / h._bins.getD i 0 :=
    div_nonneg (mul_nonneg (le_of_lt hpos) (le_of_lt hd0)) (le_of_lt hbpos)
  have hfrac1 : bw * d / h._bins.getD i 0 ≤ bw := by
    rw [div_le_iff₀ hbpos]
    exact mul_le_mul_of_nonneg_left hdb (le_of_lt hpos)
  rw [hW, hL, ← hd] at i4
  refine ⟨_, i4, ?_⟩
  intro hfar
  have f1 := hfar i (by omega)
  have f2 := hfar (i + 1) (by omega)
  rw [hL] at f1 f2
  have e1 : h._min + bw * (i : ℚ) + bw * d / h._bins.getD i 0 - (h._min + bw * (i : ℚ)) =
      bw * d / h._bins.getD i 0 := by ring
  rw [e1, abs_of_nonneg hfrac0] at f1
  have e2 : h._min + bw * (i : ℚ) + bw * d / h._bins.getD i 0 -
      (h._min + bw * ((i + 1 : ℕ) : ℚ)) = -(bw - bw * d / h._bins.getD i 0) := by
    push_cast; ring
  rw [e2, abs_neg, abs_of_nonneg (by linarith)] at f2
  have hgr := getRangeWeight_below_interior heps hp hlen hnn hmin0 i hi
    (h._min + bw * (i : ℚ) + bw * d / h._bins.getD i 0)
    (by rw [hL]; linarith) (by rw [hU]; linarith)
  rw [hL, hW] at hgr
  have hval : (h._min + bw * (i : ℚ) + bw * d / h._bins.getD i 0 - (h._min + bw * (i : ℚ))) / bw *
      h._bins.getD i 0 = d := by
    have aux : ∀ b : ℚ, 0 < b → bw * d / b / bw * b = d := by
      intro b hb
      field_simp
      ring
    rw [e1, aux _ hbpos]
  rw [hval] at hgr
  unfold probLessThan
  simp only [nonZero_of_not_point hp, Bool.not_true, Bool.false_eq_true, if_false, hgr]
  have hq : ((h._bins.take i).sum + d) / h._stats.sumOfWeights = q := by
    rw [hd, hN]
    field_simp
  rw [hq, if_neg (not_lt.mpr hqe)]

theorem probLessThan_quantile_witness :
    ∃ v, quantile (1 / 10 ^ 10)
        { _min := 2, _max := 6, _bincount := 2, _bins := [3, 1], _stats := ⟨12, 12, 4, 4⟩,
          _addList := [] } (1 / 2) = some v ∧
      ((∀ k, k ≤ 2 → (1 / 10 ^ 10 : ℚ) ≤ |v - getBinLowerLimit (1 / 10 ^ 10)
          { _min := 2, _max := 6, _bincount := 2, _bins := [3, 1], _stats := ⟨12, 12, 4, 4⟩,
            _addList := [] } k|) →
        probLessThan (1 / 10 ^ 10)
          { _min := 2, _max := 6, _bincount := 2, _bins := [3, 1], _stats := ⟨12, 12, 4, 4⟩,
            _addList := [] } v = 1 / 2) :=
  probLessThan_quantile (1 / 10 ^ 10) (by norm_num)
    { _min := 2, _max := 6, _bincount := 2, _bins := [3, 1], _stats := ⟨12, 12, 4, 4⟩,
      _addList := [] }
    (by decide!) (by decide!) (by decide!) (by decide!) (by decide!) (by decide!)
    (1 / 2) (by norm_num) (by norm_num) (by norm_num)

/-- The bin-reading loop of `deserialize` on a histogram that is not a point, when
every record it reads carries an index inside the bin array: it fails exactly when
the records run out, and it has stored the records it could read. -/
theorem readBins_general (eps : ℚ) (n : Nat) (recs : List CPHistogramBin) (h : CPHistogram)
    (hp : isPoint eps h = false) (hidx : ∀ r ∈ recs.take n, r.index < h._bins.length) :
    readBins eps n h recs =
      if recs.length < n then some (false, { h with
        _bins := (recs.take n).foldl (fun bs r => bs.set r.index r.weight) h._bins })
      else some (true, { h with
        _bins := (recs.take n).foldl (fun bs r => bs.set r.index r.weight) h._bins }) := by
  induction n generalizing h recs with
  | zero => simp [readBins]
  | succ k ih =>
    cases recs with
    | nil => simp [readBins]
    | cons r rest =>
      have hr : r.index < h._bins.length := hidx r (by simp)
      have hp1 : isPoint eps { h with _bins := h._bins.set r.index r.weight } = false := by
        rw [isPoint_false_iff] at hp ⊢; exact hp
      simp only [readBins, setBinWeight, hp, Bool.false_eq_true, if_false, hr, if_true]
      rw [ih rest _ hp1 (by
        intro q hq
        simpa using hidx q (by simp [hq]))]
      simp only [List.length_cons, Nat.add_lt_add_iff_right, List.take_succ_cons,
        List.foldl_cons]

/-- C20 (counterexample): (a) a header that describes a point (`min = max = 4`) and
declares 3 non-zero bins, read with `binCount = 2`, makes `deserialize` return the
ID 5, not a negative value: a point returns before the bin count is looked at;
(b) a readable header of a histogram without non-zero bins and with
`ID = 2^31 + 5` makes it return `-2147483643`, although nothing failed. -/
theorem deserialize_sign_counterexamples :
    (deserialize (1 / 10 ^ 10) empty 2 1 (some ⟨5, 0, 4, 1, 4, 4, 3⟩) []).map Prod.fst = some 5 ∧
    (deserialize (1 / 10 ^ 10) empty 2 2 (some ⟨2147483653, 0, 8, 2, 2, 6, 0⟩) []).map Prod.fst
      = some (-2147483643) := by
  refine ⟨by decide!, by decide!⟩

/-- C20 (amended): `deserialize` returns `-1` when the header cannot be read.  With
a readable header whose ID is below `2^31` and whose declared records carry
indices below `binCount`, it returns a negative value if and only if the header
describes a histogram that is not a point (`sumOfWeights > FP_FUDGE_EPS` and
`min ≠ max`) and its declared non-zero-bin count exceeds `binCount` or one of the
declared records cannot be read; in every other case it returns the ID of the
header. -/
theorem deserialize_result (eps : ℚ) (tgt : CPHistogram) (bincount : Nat) (tw : ℚ)
    (entry : CPHistogramHeader) (recs : List CPHistogramBin)
    (hID : entry.ID < 2 ^ 31)
    (hidx : ∀ r ∈ recs.take entry.binsUsed, r.index < bincount) :
    deserialize eps tgt bincount tw none recs = some (-1, tgt) ∧
    ∃ r h', deserialize eps tgt bincount tw (some entry) recs = some (r, h') ∧
      (r < 0 ↔ (eps < entry.sumOfWeights ∧ entry.min ≠ entry.max) ∧
        (bincount < entry.binsUsed ∨ recs.length < entry.binsUsed)) ∧
      (¬ r < 0 → r = (entry.ID : Int)) := by
  refine ⟨rfl, ?_⟩
  have hnn : ¬ ((entry.ID : Int) < 0) := by omega
  by_cases hpt : entry.sumOfWeights ≤ eps ∨ entry.min = entry.max
  · rw [deserialize_point eps tgt bincount tw entry recs hpt, toInt32_of_lt _ hID]
    refine ⟨_, _, rfl, ?_, fun _ => rfl⟩
    constructor
    · intro h; exact absurd h hnn
    · rintro ⟨⟨h1, h2⟩, _⟩
      rcases hpt with h | h
      · exact absurd h1 (not_lt.mpr h)
      · exact absurd h h2
  · have h1 : eps < entry.sumOfWeights := by
      by_contra hc; exact hpt (Or.inl (not_lt.mp hc))
    have h2 : entry.min ≠ entry.max := fun hc => hpt (Or.inr hc)
    have hp : isPoint eps { clear tgt with
        _stats := { sumOfSquares := entry.sumOfSquares, sumOfValues := entry.sumOfValues,
                    sumOfWeights := entry.sumOfWeights, totalWeight := tw },
        _min := entry.min, _max := entry.max } = false := by
      rw [isPoint_false_iff]; exact ⟨h1, h2⟩
    have hp3 : isPoint eps (setBinCount { clear tgt with
        _stats := { sumOfSquares := entry.sumOfSquares, sumOfValues := entry.sumOfValues,
                    sumOfWeights := entry.sumOfWeights, totalWeight := tw },
        _min := entry.min, _max := entry.max } bincount) = false := by
      rw [isPoint_false_iff]; exact ⟨h1, h2⟩
    unfold deserialize
    simp only [hp, Bool.false_eq_true, if_false]
    by_cases hb : bincount < entry.binsUsed
    · rw [if_pos hb]
      refine ⟨_, _, rfl, ?_, fun h => absurd (by norm_num) h⟩
      exact ⟨fun _ => ⟨⟨h1, h2⟩, Or.inl hb⟩, fun _ => by norm_num⟩
    · rw [if_neg hb]
      rw [readBins_general eps entry.binsUsed recs _ hp3 (by
        intro r hr
        simpa [setBinCount] using hidx r hr)]
      by_cases hr : recs.length < entry.binsUsed
      · rw [if_pos hr]
        refine ⟨_, _, rfl, ?_, fun h => absurd (by norm_num) h⟩
        exact ⟨fun _ => ⟨⟨h1, h2⟩, Or.inr hr⟩, fun _ => by norm_num⟩
      · rw [if_neg hr, toInt32_of_lt _ hID]
        refine ⟨_, _, rfl, ?_, fun _ => rfl⟩
        constructor
        · intro h; exact absurd h hnn
        · rintro ⟨_, h | h⟩
          · exact absurd h hb
          · exact absurd h hr

theorem deserialize_result_witness :
    deserialize (1 / 10 ^ 10) empty 2 4 none [⟨0, 3⟩] = some (-1, empty) ∧
    ∃ r h', deserialize (1 / 10 ^ 10) empty 2 4 (some ⟨7, 12, 12, 4, 2, 6, 2⟩) [⟨0, 3⟩]
        = some (r, h') ∧
      (r < 0 ↔ ((1 / 10 ^ 10 : ℚ) < 4 ∧ (2 : ℚ) ≠ 6) ∧ (2 < 2 ∨ [(⟨0, 3⟩ : CPHistogramBin)].length < 2)) ∧
      (¬ r < 0 → r = ((7 : ℕ) : Int)) :=
  deserialize_result (1 / 10 ^ 10) empty 2 4 ⟨7, 12, 12, 4, 2, 6, 2⟩ [⟨0, 3⟩]
    (by norm_num) (by decide!)

/-- C21 (counterexample): the histogram built from the pair `(2, 1)` is a non-empty
point at 2.  Called with `qmin = 3/4 > qmax = 1/4`, `quantileRange` returns
`(2, 2)`, not the sentinel `(-1, -1)`: the test for a point comes before the test
`min > max`. -/
theorem quantileRange_point_reversed_window :
    ∃ P : CPHistogram,
      buildFromList (1 / 10 ^ 10) (withList [(2, 1)]) 2 1 2 2 = some P ∧
      nonZero (1 / 10 ^ 10) P = true ∧ isPoint (1 / 10 ^ 10) P = true ∧
      (3 / 4 : ℚ) > 1 / 4 ∧
      quantileRange (1 / 10 ^ 10) P (3 / 4) (1 / 4) = some (2, 2) ∧
      quantileRange (1 / 10 ^ 10) P (3 / 4) (1 / 4) ≠ some (-1, -1) :=
  ⟨{ _min := 2, _max := 2, _bincount := 0, _bins := [], _stats := ⟨0, 2, 1, 1⟩,
     _addList := [] },
   by decide!, by decide!, by decide!, by decide!, by decide!, by decide!⟩

/-- C21 (amended): `quantileRange(qmin, qmax)` returns the sentinel pair `(-1, -1)`
for every empty histogram and for every histogram that is not a point when
`qmin > qmax`, and returns `(min, min)` for every non-empty point histogram,
whatever `qmin` and `qmax`. -/
theorem quantileRange_sentinel (eps : ℚ) (h : CPHistogram) (qmin qmax : ℚ) :
    (nonZero eps h = false → quantileRange eps h qmin qmax = some (-1, -1)) ∧
    (isPoint eps h = false → qmin > qmax →
      quantileRange eps h qmin qmax = some (-1, -1)) ∧
    (nonZero eps h = true → isPoint eps h = true →
      quantileRange eps h qmin qmax = some (h._min, h._min)) := by
  refine ⟨?_, ?_, ?_⟩
  · intro hz
    simp [quantileRange, hz]
  · intro hp hq
    simp [quantileRange, nonZero_of_not_point hp, hp, hq]
  · intro hz hp
    simp [quantileRange, hz, hp]

theorem quantileRange_sentinel_witness :
    quantileRange (1 / 10 ^ 10) empty (1 / 4) (3 / 4) = some (-1, -1) ∧
    quantileRange (1 / 10 ^ 10)
      { _min := 2, _max := 6, _bincount := 2, _bins := [3, 1], _stats := ⟨12, 12, 4, 4⟩,
        _addList := [] } (3 / 4) (1 / 4) = some (-1, -1) ∧
    quantileRange (1 / 10 ^ 10)
      { _min := 2, _max := 2, _bincount := 0, _bins := [], _stats := ⟨0, 2, 1, 1⟩,
        _addList := [] } (1 / 4) (3 / 4) = some (2, 2) :=
  ⟨(quantileRange_sentinel (1 / 10 ^ 10) empty (1 / 4) (3 / 4)).1 (by decide!),
   (quantileRange_sentinel (1 / 10 ^ 10)
      { _min := 2, _max := 6, _bincount := 2, _bins := [3, 1], _stats := ⟨12, 12, 4, 4⟩,
        _addList := [] } (3 / 4) (1 / 4)).2.1 (by decide!) (by norm_num),
   (quantileRange_sentinel (1 / 10 ^ 10)
      { _min := 2, _max := 2, _bincount := 0, _bins := [], _stats := ⟨0, 2, 1, 1⟩,
        _addList := [] } (1 / 4) (3 / 4)).2.2 (by decide!) (by decide!)⟩

/-- C22 (evaluation at the failing input): `a` has weight 1 at value 2, `b` carries
only zero-valued mass (`totalWeight = 1`, `sumOfWeights = 0`).  `combineStats` does
not skip the update (the result differs from `a`), and the divisors it uses are
`na = 1`, `nb = 0` and `na + nb = 1`: `Sb/nb` is `0/0`.  The same holds for the
call that the combining constructor makes for a weight shortfall of 2 after
combining two histograms with the statistics of Scenario A. -/
theorem combineStats_divides_by_zero :
    Stats.combineStats ⟨0, 2, 1, 1⟩ ⟨0, 0, 0, 1⟩ ≠ ⟨0, 2, 1, 1⟩ ∧
    Stats.combineStatsDivisors ⟨0, 2, 1, 1⟩ ⟨0, 0, 0, 1⟩ = [1, 0, 1] ∧
    Stats.combineStatsDivisors
      (Stats.combineStats (Stats.combineStats Stats.clear ⟨12, 12, 4, 4⟩) ⟨12, 12, 4, 4⟩)
      { Stats.clear with totalWeight := 10 - 8 } = [8, 0, 8] := by
  refine ⟨by decide!, by decide!, by decide!⟩

/-- C27 (evaluation at the failing input): `P` is the point at 2 of weight 1 and
`H` the Scenario A histogram, both built by `buildFromList`.  `P.cross(H)` uses
the bin count of `H` and is the histogram on `[4, 12]` with bins `[3, 1]`;
`P.cross([H])` passes the bin count 0 of `P` to `buildFromList`, which has no
result (its `addToBin` finds no bin array). -/
theorem crossList_point_with_histogram :
    ∃ P H : CPHistogram,
      buildFromList (1 / 10 ^ 10) (withList [(2, 1)]) 2 1 2 2 = some P ∧
      buildFromList (1 / 10 ^ 10) (withList [(2, 3), (6, 1)]) 2 4 2 6 = some H ∧
      isPoint (1 / 10 ^ 10) P = true ∧ nonZero (1 / 10 ^ 10) P = true ∧
      isPoint (1 / 10 ^ 10) H = false ∧
      cross (1 / 10 ^ 10) P H =
        some { _min := 4, _max := 12, _bincount := 2, _bins := [3, 1],
               _stats := ⟨12, 28, 4, 4⟩, _addList := [] } ∧
      crossList (1 / 10 ^ 10) P [some H] = none :=
  ⟨{ _min := 2, _max := 2, _bincount := 0, _bins := [], _stats := ⟨0, 2, 1, 1⟩,
     _addList := [] },
   { _min := 2, _max := 6, _bincount := 2, _bins := [3, 1], _stats := ⟨12, 12, 4, 4⟩,
     _addList := [] },
   by decide!, by decide!, by decide!, by decide!, by decide!, by decide!, by decide!⟩

/-- C30 (evaluation at the failing input): `P` is the point at 4 of weight 2, built
by `buildFromList`.  On the window `[1/4, 3/4]`, of width `1/2`, `applyOnQuantile`
calls `F(4, 1)`: the second argument is the width times `nonZeroWeight()`.  With
`F(value, w) = w` the windows `[0, 1/2]` and `[1/2, 1]` give results that sum
to 2. -/
theorem applyOnQuantile_point_passes_weight :
    ∃ P : CPHistogram,
      buildFromList (1 / 10 ^ 10) (withList [(4, 2)]) 2 2 4 4 = some P ∧
      isPoint (1 / 10 ^ 10) P = true ∧ nonZero (1 / 10 ^ 10) P = true ∧ P._min = 4 ∧
      (∀ F : ℚ → ℚ → ℚ, applyOnQuantile (1 / 10 ^ 10) P (1 / 4) (3 / 4) F = some (F 4 1)) ∧
      (3 / 4 - 1 / 4 : ℚ) = 1 / 2 ∧
      applyOnQuantile (1 / 10 ^ 10) P 0 (1 / 2) (fun _ w => w) = some 1 ∧
      applyOnQuantile (1 / 10 ^ 10) P (1 / 2) 1 (fun _ w => w) = some 1 := by
  refine ⟨{ _min := 4, _max := 4, _bincount := 0, _bins := [], _stats := ⟨0, 8, 2, 2⟩,
            _addList := [] },
    by decide!, by decide!, by decide!, rfl, ?_, by norm_num, by decide!, by decide!⟩
  intro F
  simp [applyOnQuantile, nonZero, isPoint, nonZeroWeight]
  norm_num

theorem quantileScan_index_le (q : ℚ) :
    ∀ (l : List ℚ) (w : ℚ) (i : Nat) (w1 : ℚ) (i1 : Nat),
      quantileScan q w i l = some (w1, i1) → i ≤ i1 := by
  intro l
  induction l with
  | nil => intro w i w1 i1 h; simp [quantileScan] at h
  | cons b rest ih =>
    intro w i w1 i1 h
    unfold quantileScan at h
    split at h
    · exact Nat.le_of_succ_le (ih _ _ _ _ h)
    · simp only [Option.some.injEq, Prod.mk.injEq] at h
      omega

/-- A scan for the weight `q2` that starts where a scan for `q1 ≤ q2` has stopped
ends like the scan for `q2` from the start. -/
theorem quantileScan_resume {q1 q2 : ℚ} (hq : q1 ≤ q2) :
    ∀ (l : List ℚ) (w : ℚ) (i : Nat) (w1 : ℚ) (i1 : Nat),
      quantileScan q1 w i l = some (w1, i1) →
      quantileScan q2 w1 i1 (l.drop (i1 - i)) = quantileScan q2 w i l := by
  intro l
  induction l with
  | nil => intro w i w1 i1 h; simp [quantileScan] at h
  | cons b rest ih =>
    intro w i w1 i1 h
    have h0 := h
    unfold quantileScan at h
    split at h
    · rename_i hlt
      have hle := quantileScan_index_le q1 _ _ _ _ _ h
      have e : i1 - i = (i1 - (i + 1)) + 1 := by omega
      rw [e, List.drop_succ_cons, ih _ _ _ _ h]
      conv_rhs => unfold quantileScan
      rw [if_pos (lt_of_lt_of_le hlt hq)]
    · simp only [Option.some.injEq, Prod.mk.injEq] at h
      obtain ⟨rfl, rfl⟩ := h
      simp

/-- C28: for every histogram that is not a point and whose bins sum to
`nonZeroWeight()`, and every `qmin ≤ qmax` (values outside `[0,1]` included),
`quantile(qmin)` and `quantile(qmax)` have results and `quantileRange(qmin, qmax)`
is the pair of them. -/
theorem quantileRange_eq_quantiles (eps : ℚ) (heps : 0 < eps) (h : CPHistogram)
    (hp : isPoint eps h = false) (hsum : h._bins.sum = nonZeroWeight eps h)
    (qmin qmax : ℚ) (hq : qmin ≤ qmax) :
    ∃ v1 v2, quantile eps h qmin = some v1 ∧ quantile eps h qmax = some v2 ∧
      quantileRange eps h qmin qmax = some (v1, v2) := by
  have hnz := nonZero_of_not_point hp
  have hpf := (isPoint_false_iff eps h).mp hp
  have hN : nonZeroWeight eps h = h._stats.sumOfWeights := by
    simp [nonZeroWeight, not_lt.mpr (le_of_lt hpf.1)]
  have hpos : 0 < nonZeroWeight eps h := by rw [hN]; linarith [hpf.1]
  -- the scan of `quantile(q)` ends inside the bin array
  have hscan : ∀ q, 0 < q → q < 1 → ∃ w i,
      quantileScan (q * nonZeroWeight eps h) 0 0 h._bins = some (w, i) := by
    intro q h0 h1
    have hle : q * nonZeroWeight eps h ≤ 0 + h._bins.sum := by
      rw [hsum, zero_add]; nlinarith
    obtain ⟨k, _, k2, _, _⟩ :=
      quantileScan_spec (q * nonZeroWeight eps h) h._bins 0 0 (mul_pos h0 hpos) hle
    exact ⟨_, _, k2⟩
  unfold quantileRange quantile
  simp only [hnz, hp, Bool.not_true, Bool.false_eq_true, if_false, not_lt.mpr hq, gt_iff_lt,
    ge_iff_le]
  by_cases a0 : qmin ≤ 0
  · simp only [a0, if_true]
    by_cases b1 : 1 ≤ qmax
    · have b0 : ¬ qmax ≤ 0 := by linarith
      simp [b1, b0]
    · by_cases b0 : qmax ≤ 0
      · simp [b1, b0]
      · obtain ⟨w, i, hs⟩ := hscan qmax (not_le.mp b0) (not_le.mp b1)
        simp [b1, b0, hs]
  · have a0' := not_le.mp a0
    by_cases a1 : 1 ≤ qmin
    · have b1 : 1 ≤ qmax := le_trans a1 hq
      have b0 : ¬ qmax ≤ 0 := by linarith
      simp [a0, a1, b1, b0]
    · obtain ⟨w, i, hs⟩ := hscan qmin a0' (not_le.mp a1)
      have b0 : ¬ qmax ≤ 0 := by linarith
      by_cases b1 : 1 ≤ qmax
      · simp [a0, a1, b1, b0, hs]
      · obtain ⟨w2, i2, hs2⟩ := hscan qmax (not_le.mp b0) (not_le.mp b1)
        have hres := quantileScan_resume
          (mul_le_mul_of_nonneg_right hq (le_of_lt hpos)) h._bins 0 0 w i hs
        rw [Nat.sub_zero, hs2] at hres
        simp [a0, a1, b1, b0, hs, hs2, hres]

theorem quantileRange_eq_quantiles_witness :
    ∃ v1 v2, quantile (1 / 10 ^ 10)
        { _min := 2, _max := 6, _bincount := 2, _bins := [3, 1], _stats := ⟨12, 12, 4, 4⟩,
          _addList := [] } (1 / 4) = some v1 ∧
      quantile (1 / 10 ^ 10)
        { _min := 2, _max := 6, _bincount := 2, _bins := [3, 1], _stats := ⟨12, 12, 4, 4⟩,
          _addList := [] } (7 / 8) = some v2 ∧
      quantileRange (1 / 10 ^ 10)
        { _min := 2, _max := 6, _bincount := 2, _bins := [3, 1], _stats := ⟨12, 12, 4, 4⟩,
          _addList := [] } (1 / 4) (7 / 8) = some (v1, v2) :=
  quantileRange_eq_quantiles (1 / 10 ^ 10) (by norm_num)
    { _min := 2, _max := 6, _bincount := 2, _bins := [3, 1], _stats := ⟨12, 12, 4, 4⟩,
      _addList := [] }
    (by decide!) (by decide!) (1 / 4) (7 / 8) (by norm_num)

theorem foldl_mergeStep_stats (l : List CPHistogram) (st : MergeState) :
    (l.foldl mergeStep st).stats = l.foldl (fun s H => s.combineStats H._stats) st.stats := by
  induction l generalizing st with
  | nil => rfl
  | cons H rest ih => simp only [List.foldl_cons]; rw [ih]; rfl

theorem combineStats_totalWeight (s s2 : Stats) :
    (s.combineStats s2).totalWeight = s.totalWeight + s2.totalWeight := by
  unfold Stats.combineStats
  split
  · rename_i h; rw [h, add_zero]
  · split
    · rename_i h; rw [h, zero_add]
    · rfl

theorem foldl_combineStats_totalWeight (l : List CPHistogram) (s : Stats) :
    (l.foldl (fun s H => s.combineStats H._stats) s).totalWeight =
      s.totalWeight + (l.map (fun H => H._stats.totalWeight)).sum := by
  induction l generalizing s with
  | nil => simp
  | cons H rest ih =>
    simp only [List.foldl_cons, List.map_cons, List.sum_cons]
    rw [ih, combineStats_totalWeight]
    ring

theorem filterMap_some_eq (f : Option CPHistogram → Option CPHistogram)
    (l : List CPHistogram) (hf : ∀ H ∈ l, f (some H) = some H) :
    (l.map some).filterMap f = l := by
  induction l with
  | nil => rfl
  | cons H rest ih =>
    have h1 := hf H (List.mem_cons_self _ _)
    have h2 := ih (fun K hK => hf K (List.mem_cons_of_mem _ hK))
    simp only [List.map_cons, List.filterMap_cons, h1, h2]

theorem fillBins_setBinCount_stats (eps : ℚ) (hl : List CPHistogram) (h1 : CPHistogram)
    (bincount : Nat) (S : Stats) (hp : isPoint eps h1 = false) (hS : h1._stats = S) :
    ∃ R, fillBins eps hl (setBinCount h1 bincount) (List.range bincount) = some R ∧
      R._stats = S := by
  have hp1 : isPoint eps (setBinCount h1 bincount) = false := hp
  obtain ⟨bs, hbs, _⟩ := fillBins_spec eps hl (List.range bincount) (setBinCount h1 bincount)
    hp1 (by simp [setBinCount]) (by
      intro i hi
      simpa [setBinCount] using hi)
  exact ⟨_, hbs, hS⟩

theorem ofHistogramList_finish (eps : ℚ) (hl : List CPHistogram) (X : CPHistogram)
    (bincount : Nat) (S : Stats) (hS : X._stats = S) :
    ∃ R, (if isPoint eps X then some (setBinCount X 0)
          else fillBins eps hl (setBinCount X bincount) (List.range bincount)) = some R ∧
      R._stats = S := by
  by_cases hp : isPoint eps X = true
  · rw [if_pos hp]
    exact ⟨_, rfl, hS⟩
  · rw [if_neg hp]
    exact fillBins_setBinCount_stats eps hl X bincount S (by simpa using hp) hS

/-- The statistics that the combining constructor stores when it adds a weight
shortfall to the combined statistics `c`. -/
theorem combineStats_shortfall (c : Stats) (tw : ℚ) (hc : 0 < c.totalWeight)
    (hlt : c.totalWeight < tw) :
    (c.combineStats { Stats.clear with totalWeight := tw - c.totalWeight }).totalWeight = tw ∧
    (c.combineStats { Stats.clear with totalWeight := tw - c.totalWeight }).sumOfWeights =
      c.sumOfWeights ∧
    (c.combineStats { Stats.clear with totalWeight := tw - c.totalWeight }).sumOfValues =
      c.sumOfValues ∧
    Stats.combineStatsDivisors c { Stats.clear with totalWeight := tw - c.totalWeight } =
      [c.sumOfWeights, 0, c.sumOfWeights] := by
  have h1 : ¬ (tw - c.totalWeight = 0) := by intro h; linarith
  have h2 : ¬ (c.totalWeight = 0) := by intro h; linarith
  refine ⟨?_, ?_, ?_, ?_⟩
  · rw [combineStats_totalWeight]; simp
  · simp [Stats.combineStats, h1, h2, Stats.clear]
  · simp [Stats.combineStats, h1, h2, Stats.clear]
  · simp [Stats.combineStatsDivisors, h1, h2, Stats.clear]

theorem ofHistogramList_stats (eps : ℚ) (bincount : Nat) (tw : ℚ) (Hs : List CPHistogram)
    (hlen : 2 ≤ Hs.length) (hnz : ∀ H ∈ Hs, nonZero eps H = true) :
    ∃ R, ofHistogramList eps bincount tw (Hs.map some) = some R ∧
      R._stats =
        (if (Hs.foldl (fun s H => s.combineStats H._stats) Stats.clear).totalWeight < tw then
          (Hs.foldl (fun s H => s.combineStats H._stats) Stats.clear).combineStats
            { Stats.clear with totalWeight :=
                tw - (Hs.foldl (fun s H => s.combineStats H._stats) Stats.clear).totalWeight }
         else Hs.foldl (fun s H => s.combineStats H._stats) Stats.clear) := by
  obtain ⟨a, l1, rfl⟩ : ∃ a l1, Hs = a :: l1 := by
    cases Hs with
    | nil => simp at hlen
    | cons a l1 => exact ⟨a, l1, rfl⟩
  obtain ⟨b, rest, rfl⟩ : ∃ b rest, l1 = b :: rest := by
    cases l1 with
    | nil => simp at hlen
    | cons b rest => exact ⟨b, rest, rfl⟩
  have key : ∀ f : Option CPHistogram → Option CPHistogram,
      (∀ H ∈ a :: b :: rest, f (some H) = some H) →
      List.filterMap f (some a :: some b :: List.map some rest) = a :: b :: rest :=
    fun f hf => filterMap_some_eq f _ hf
  unfold ofHistogramList
  simp only [List.map_cons]
  rw [key]
  · rw [if_neg (by simp)]
    apply ofHistogramList_finish
    rw [foldl_mergeStep_stats]
    rfl
  · intro H hH
    simp [hnz H hH]

/-- C26 (counterexample): `P` is the point at 2 built from the pair `(2, 1)` with
total weight 2, so that its `sumOfWeights` is 1 and its `Stats.totalWeight` 2.
(a) Combining `[P, P]` with the total weight 3: the combined `sumOfWeights`, 2, is
below 3, but the constructor compares the combined `Stats.totalWeight`, 4, with 3,
adds nothing, and the result has `Stats.totalWeight = 4`.
(b) With the total weight 10 the shortfall 6 is added by `combineStats`, whose
divisors are then `na = 2`, `nb = 0`, `na + nb = 2`: the new `sumOfSquares` is
computed from `0/0`. -/
theorem ofHistogramList_shortfall_compares_totalWeight :
    ∃ P R : CPHistogram,
      buildFromList (1 / 10 ^ 10) (withList [(2, 1)]) 2 2 2 2 = some P ∧
      nonZero (1 / 10 ^ 10) P = true ∧
      ([P, P].foldl (fun s H => s.combineStats H._stats) Stats.clear).sumOfWeights = 2 ∧
      ([P, P].foldl (fun s H => s.combineStats H._stats) Stats.clear).totalWeight = 4 ∧
      ofHistogramList (1 / 10 ^ 10) 2 3 [some P, some P] = some R ∧
      R._stats.totalWeight = 4 ∧
      Stats.combineStatsDivisors
        ([P, P].foldl (fun s H => s.combineStats H._stats) Stats.clear)
        { Stats.clear with totalWeight := 10 - 4 } = [2, 0, 2] :=
  ⟨{ _min := 2, _max := 2, _bincount := 0, _bins := [], _stats := ⟨0, 2, 1, 2⟩,
     _addList := [] },
   { _min := 2, _max := 2, _bincount := 0, _bins := [], _stats := ⟨0, 4, 2, 4⟩,
     _addList := [] },
   by decide!, by decide!, by decide!, by decide!, by decide!, by decide!, by decide!⟩

/-- C26 (amended): in the combining constructor with two or more surviving
(non-null, non-zero) histograms, each with `sumOfWeights ≤ totalWeight`, whenever
the combined `Stats.totalWeight` of the surviving histograms is below the
caller-supplied total weight, the constructor has a result whose
`Stats.totalWeight` equals the caller-supplied total weight and whose
`sumOfWeights` and `sumOfValues` are those of the combined sources. -/
theorem ofHistogramList_shortfall (eps : ℚ) (heps : 0 < eps) (bincount : Nat) (tw : ℚ)
    (Hs : List CPHistogram) (hlen : 2 ≤ Hs.length)
    (hnz : ∀ H ∈ Hs, nonZero eps H = true)
    (hval : ∀ H ∈ Hs, H._stats.sumOfWeights ≤ H._stats.totalWeight)
    (hshort : (Hs.foldl (fun s H => s.combineStats H._stats) Stats.clear).totalWeight < tw) :
    ∃ R, ofHistogramList eps bincount tw (Hs.map some) = some R ∧
      R._stats.totalWeight = tw ∧
      R._stats.sumOfWeights =
        (Hs.foldl (fun s H => s.combineStats H._stats) Stats.clear).sumOfWeights ∧
      R._stats.sumOfValues =
        (Hs.foldl (fun s H => s.combineStats H._stats) Stats.clear).sumOfValues := by
  obtain ⟨R, hR, hS⟩ := ofHistogramList_stats eps bincount tw Hs hlen hnz
  rw [if_pos hshort] at hS
  have hc : 0 < (Hs.foldl (fun s H => s.combineStats H._stats) Stats.clear).totalWeight := by
    rw [foldl_combineStats_totalWeight]
    have hne : Hs.map (fun H => H._stats.totalWeight) ≠ [] := by
      intro h
      have h0 : Hs.length = 0 := by simpa using congrArg List.length h
      omega
    have hpos : ∀ x ∈ Hs.map (fun H => H._stats.totalWeight), 0 < x := by
      intro x hx
      obtain ⟨H, hH, rfl⟩ := List.mem_map.mp hx
      have h1 := (nonZero_eq_true_iff eps H).mp (hnz H hH)
      have h2 := hval H hH
      linarith
    have := List.sum_pos _ hpos hne
    simpa [Stats.clear] using this
  obtain ⟨c1, c2, c3, _⟩ := combineStats_shortfall _ tw hc hshort
  exact ⟨R, hR, by rw [hS]; exact c1, by rw [hS]; exact c2, by rw [hS]; exact c3⟩

theorem ofHistogramList_shortfall_witness :
    ∃ R, ofHistogramList (1 / 10 ^ 10) 2 10
        (List.map some
          [{ _min := 2, _max := 6, _bincount := 2, _bins := [3, 1], _stats := ⟨12, 12, 4, 4⟩,
             _addList := [] },
           { _min := 2, _max := 2, _bincount := 0, _bins := [], _stats := ⟨0, 2, 1, 2⟩,
             _addList := [] }]) = some R ∧
      R._stats.totalWeight = 10 ∧
      R._stats.sumOfWeights =
        (List.foldl (fun (s : Stats) (H : CPHistogram) => s.combineStats H._stats) Stats.clear
          [{ _min := 2, _max := 6, _bincount := 2, _bins := [3, 1], _stats := ⟨12, 12, 4, 4⟩,
             _addList := [] },
           { _min := 2, _max := 2, _bincount := 0, _bins := [], _stats := ⟨0, 2, 1, 2⟩,
             _addList := [] }]).sumOfWeights ∧
      R._stats.sumOfValues =
        (List.foldl (fun (s : Stats) (H : CPHistogram) => s.combineStats H._stats) Stats.clear
          [{ _min := 2, _max := 6, _bincount := 2, _bins := [3, 1], _stats := ⟨12, 12, 4, 4⟩,
             _addList := [] },
           { _min := 2, _max := 2, _bincount := 0, _bins := [], _stats := ⟨0, 2, 1, 2⟩,
             _addList := [] }]).sumOfValues :=
  ofHistogramList_shortfall (1 / 10 ^ 10) (by norm_num) 2 10
    [{ _min := 2, _max := 6, _bincount := 2, _bins := [3, 1], _stats := ⟨12, 12, 4, 4⟩,
       _addList := [] },
     { _min := 2, _max := 2, _bincount := 0, _bins := [], _stats := ⟨0, 2, 1, 2⟩,
       _addList := [] }]
    (by decide) (by decide!) (by decide!) (by decide!)

theorem limits_eq {eps : ℚ} {H : CPHistogram} (hp : isPoint eps H = false) (k : Nat) :
    getBinLowerLimit eps H k = H._min + getBinWidth eps H * (k : ℚ) ∧
    getBinUpperLimit eps H k = H._min + getBinWidth eps H * ((k : ℚ) + 1) := by
  simp [getBinLowerLimit, getBinUpperLimit, nonZero_of_not_point hp]

theorem grid_of_pos {eps : ℚ} {H : CPHistogram} (hp : isPoint eps H = false)
    (hpos : 0 < getBinWidth eps H) :
    1 ≤ H._bincount ∧ H._min < H._max ∧
    H._min + getBinWidth eps H * (H._bincount : ℚ) = H._max := by
  rw [getBinWidth_eq hp] at hpos ⊢
  have hn : H._bincount ≠ 0 := by
    intro h
    rw [h] at hpos
    simp at hpos
  have hnQ : (0 : ℚ) < H._bincount := by exact_mod_cast Nat.pos_of_ne_zero hn
  refine ⟨by omega, ?_, by field_simp⟩
  have := (div_pos_iff_of_pos_right hnQ).mp hpos
  linarith

theorem whichBin_of_mem {eps : ℚ} {H : CPHistogram} (hp : isPoint eps H = false)
    (hpos : 0 < getBinWidth eps H) (k : Nat) (hk : k < H._bincount) (v : ℚ)
    (h1 : getBinLowerLimit eps H k ≤ v) (h2 : v < getBinUpperLimit eps H k) :
    whichBin eps H v = k := by
  rw [getBinLowerLimit_eq hp] at h1
  rw [getBinUpperLimit_eq hp] at h2
  rw [getBinWidth_eq hp] at hpos
  exact whichBin_interior hp hpos k hk v h1 h2

theorem exists_bin {eps : ℚ} {H : CPHistogram} (hp : isPoint eps H = false)
    (hpos : 0 < getBinWidth eps H) (v : ℚ) (h1 : H._min ≤ v) (h2 : v < H._max) :
    ∃ k, k < H._bincount ∧ getBinLowerLimit eps H k ≤ v ∧ v < getBinUpperLimit eps H k ∧
      whichBin eps H v = k := by
  obtain ⟨hn, hlt, hM⟩ := grid_of_pos hp hpos
  obtain ⟨W, hW⟩ : ∃ W, W = getBinWidth eps H := ⟨_, rfl⟩
  rw [← hW] at hpos hM
  have hz0 : 0 ≤ ⌊(v - H._min) / W⌋ := Int.floor_nonneg.mpr (div_nonneg (by linarith) hpos.le)
  obtain ⟨k, hk⟩ := Int.eq_ofNat_of_zero_le hz0
  have hle : ((k : ℤ) : ℚ) ≤ (v - H._min) / W := by rw [← hk]; exact Int.floor_le _
  have hlt2 : (v - H._min) / W < ((k : ℤ) : ℚ) + 1 := by rw [← hk]; exact Int.lt_floor_add_one _
  rw [le_div_iff₀ hpos] at hle
  rw [div_lt_iff₀ hpos] at hlt2
  push_cast at hle hlt2
  have hkn : k < H._bincount := by
    by_contra hc
    have : (H._bincount : ℚ) ≤ k := by exact_mod_cast not_lt.mp hc
    nlinarith
  have hlo : getBinLowerLimit eps H k ≤ v := by
    rw [(limits_eq hp k).1, ← hW]; linarith
  have hup : v < getBinUpperLimit eps H k := by
    rw [(limits_eq hp k).2, ← hW]; linarith
  exact ⟨k, hkn, hlo, hup, whichBin_of_mem hp (by rw [← hW]; exact hpos) k hkn v hlo hup⟩

theorem sum_range_eq_finset (f : ℕ → ℚ) (n : ℕ) :
    ((List.range n).map f).sum = ∑ i in Finset.range n, f i := by
  induction n with
  | zero => simp
  | succ n ih =>
    rw [List.range_succ, List.map_append, List.sum_append, ih, Finset.sum_range_succ]
    simp

theorem sum_range'_eq_finset (f : ℕ → ℚ) (s len : ℕ) :
    ((List.range' s len).map f).sum = ∑ i in Finset.Ico s (s + len), f i := by
  induction len with
  | zero => simp
  | succ len ih =>
    rw [List.range'_concat, List.map_append, List.sum_append, ih, ← add_assoc,
      Finset.sum_Ico_succ_top (by omega)]
    simp

/-- The sum, over the bins of a grid of width `W` from `m`, of the weight that each
bin shares with `[lo, hi]`, when `lo` lies in the closed bin `a` and `hi` in the
closed bin `j`. -/
theorem overlap_sum {W : ℚ} (hW : 0 < W) (m : ℚ) (bs : ℕ → ℚ) (n a j : ℕ) (ha : a ≤ j)
    (hj : j < n) (lo hi : ℚ) (h1 : m + W * (a : ℚ) ≤ lo) (h2 : lo ≤ m + W * ((a : ℚ) + 1))
    (h3 : m + W * (j : ℚ) ≤ hi) (h4 : hi ≤ m + W * ((j : ℚ) + 1)) (h5 : lo ≤ hi) :
    ∑ i in Finset.range n,
        bs i * Max.max 0 (Min.min hi (m + W * ((i : ℚ) + 1)) - Max.max lo (m + W * (i : ℚ))) / W =
      if a = j then bs a * (hi - lo) / W
      else bs a * (m + W * ((a : ℚ) + 1) - lo) / W + ∑ i in Finset.Ico (a + 1) j, bs i +
        bs j * (hi - (m + W * (j : ℚ))) / W := by
  have hmono : ∀ p q : ℕ, p ≤ q → W * (p : ℚ) ≤ W * (q : ℚ) := fun p q h =>
    mul_le_mul_of_nonneg_left (by exact_mod_cast h) hW.le
  have hsucc : ∀ p : ℕ, W * ((p : ℚ) + 1) = W * ((p + 1 : ℕ) : ℚ) := by
    intro p; push_cast; ring
  have hzero : ∀ i ∈ Finset.range n, i ∉ Finset.Ico a (j + 1) →
      bs i * Max.max 0 (Min.min hi (m + W * ((i : ℚ) + 1)) - Max.max lo (m + W * (i : ℚ))) / W
        = 0 := by
    intro i _ hmem
    have hcase : i < a ∨ j < i := by
      simp only [Finset.mem_Ico, not_and, not_lt] at hmem
      by_cases h : a ≤ i
      · right; exact Nat.lt_of_succ_le (hmem h)
      · left; omega
    have hle : Min.min hi (m + W * ((i : ℚ) + 1)) - Max.max lo (m + W * (i : ℚ)) ≤ 0 := by
      rcases hcase with h | h
      · have := hmono (i + 1) a h
        rw [← hsucc] at this
        have a1 := min_le_right hi (m + W * ((i : ℚ) + 1))
        have a2 := le_max_left lo (m + W * (i : ℚ))
        linarith
      · have := hmono (j + 1) i h
        rw [← hsucc] at this
        have a1 := min_le_left hi (m + W * ((i : ℚ) + 1))
        have a2 := le_max_right lo (m + W * (i : ℚ))
        linarith
    rw [max_eq_left hle]
    simp
  have hsub : Finset.Ico a (j + 1) ⊆ Finset.range n := by
    intro i hmem
    simp only [Finset.mem_Ico] at hmem
    simp only [Finset.mem_range]
    omega
  rw [← Finset.sum_subset hsub hzero]
  by_cases haj : a = j
  · subst haj
    rw [if_pos rfl, Nat.Ico_succ_singleton, Finset.sum_singleton, min_eq_left h4,
      max_eq_left h1, max_eq_right (show (0 : ℚ) ≤ hi - lo by linarith)]
  · rw [if_neg haj]
    have hlt : a < j := lt_of_le_of_ne ha haj
    rw [Finset.sum_eq_sum_Ico_succ_bot (by omega), Finset.sum_Ico_succ_top (by omega)]
    have hup : m + W * ((a : ℚ) + 1) ≤ m + W * (j : ℚ) := by
      have := hmono (a + 1) j hlt
      rw [← hsucc] at this
      linarith
    have fa : Min.min hi (m + W * ((a : ℚ) + 1)) - Max.max lo (m + W * (a : ℚ)) =
        m + W * ((a : ℚ) + 1) - lo := by
      rw [min_eq_right (show m + W * ((a : ℚ) + 1) ≤ hi by linarith), max_eq_left h1]
    have fj : Min.min hi (m + W * ((j : ℚ) + 1)) - Max.max lo (m + W * (j : ℚ)) =
        hi - (m + W * (j : ℚ)) := by
      rw [min_eq_left h4, max_eq_right (show lo ≤ m + W * (j : ℚ) by linarith)]
    have fmid : ∀ i ∈ Finset.Ico (a + 1) j,
        bs i * Max.max 0 (Min.min hi (m + W * ((i : ℚ) + 1)) - Max.max lo (m + W * (i : ℚ))) / W
          = bs i := by
      intro i hmem
      simp only [Finset.mem_Ico] at hmem
      have b1 := hmono (i + 1) j (by omega)
      rw [← hsucc] at b1
      have b2 := hmono (a + 1) i (by omega)
      rw [← hsucc] at b2
      rw [min_eq_right (show m + W * ((i : ℚ) + 1) ≤ hi by linarith),
        max_eq_right (show lo ≤ m + W * (i : ℚ) by linarith)]
      have : m + W * ((i : ℚ) + 1) - (m + W * (i : ℚ)) = W := by ring
      rw [this, max_eq_right hW.le]
      field_simp
    rw [Finset.sum_congr rfl fmid, fa, fj,
      max_eq_right (show (0 : ℚ) ≤ m + W * ((a : ℚ) + 1) - lo by linarith),
      max_eq_right (show (0 : ℚ) ≤ hi - (m + W * (j : ℚ)) by linarith)]
    ring


theorem getD_nonneg {bs : List ℚ} (hnn : ∀ x ∈ bs, 0 ≤ x) (k : Nat) : 0 ≤ bs.getD k 0 := by
  rw [List.getD_eq_getElem?_getD]
  cases hk : bs[k]? with
  | none => simp
  | some x => simp; exact hnn x (List.getElem?_mem hk)

theorem limits_le_max {eps : ℚ} {H : CPHistogram} (hp : isPoint eps H = false)
    (hpos : 0 < getBinWidth eps H) (i : Nat) (hi : i < H._bincount) :
    H._min ≤ H._min + getBinWidth eps H * (i : ℚ) ∧
    H._min + getBinWidth eps H * ((i : ℚ) + 1) ≤ H._max := by
  obtain ⟨_, _, hM⟩ := grid_of_pos hp hpos
  have h0 : (0 : ℚ) ≤ i := Nat.cast_nonneg i
  have h1 : (i : ℚ) + 1 ≤ H._bincount := by exact_mod_cast hi
  constructor
  · nlinarith
  · rw [← hM]; nlinarith

/-- The parts of a bin covered by `[a, b]` and by `[b, c]` add up to the part
covered by `[a, c]`. -/
theorem overlap_add (a b c lo up : ℚ) (hab : a ≤ b) (hbc : b ≤ c) (hlu : lo ≤ up) :
    Max.max 0 (Min.min b up - Max.max a lo) + Max.max 0 (Min.min c up - Max.max b lo) =
      Max.max 0 (Min.min c up - Max.max a lo) := by
  rcases le_total b lo with h | h
  · have e1 : Max.max b lo = lo := max_eq_right h
    have e2 : Max.max a lo = lo := max_eq_right (by linarith)
    have e3 : Min.min b up = b := min_eq_left (by linarith)
    rw [e1, e2, e3, max_eq_left (by linarith)]
    ring
  · rcases le_total up b with h2 | h2
    · have e1 : Min.min b up = up := min_eq_right h2
      have e2 : Min.min c up = up := min_eq_right (by linarith)
      have e3 : Max.max b lo = b := max_eq_left h
      rw [e1, e2, e3, max_eq_left (show up - b ≤ 0 by linarith)]
      ring
    · have e1 : Min.min b up = b := min_eq_left h2
      have e3 : Max.max b lo = b := max_eq_left h
      have k1 : Max.max a lo ≤ b := max_le hab h
      have k2 : b ≤ Min.min c up := le_min hbc h2
      rw [e1, e3, max_eq_right (show (0 : ℚ) ≤ b - Max.max a lo by linarith),
        max_eq_right (show (0 : ℚ) ≤ Min.min c up - b by linarith),
        max_eq_right (show (0 : ℚ) ≤ Min.min c up - Max.max a lo by linarith)]
      ring

theorem grid_sep {W : ℚ} (hW : 0 ≤ W) (m : ℚ) {k k' : ℕ} (h : k < k') :
    m + W * ((k : ℚ) + 1) ≤ m + W * (k' : ℚ) := by
  have : (k : ℚ) + 1 ≤ k' := by exact_mod_cast h
  nlinarith

theorem grid_mono {W : ℚ} (hW : 0 ≤ W) (m : ℚ) {k k' : ℕ} (h : k ≤ k') :
    m + W * (k : ℚ) ≤ m + W * (k' : ℚ) := by
  have : (k : ℚ) ≤ k' := by exact_mod_cast h
  nlinarith

/-- The bin that `whichBin` answers for a bound in `(min, max]`, and what the block
that snaps the upper bound does with it: `y` is the bound after the block (the
early exit leaves it at the lower limit of bin 0, which is `min`). -/
theorem snapUpper_outcome {eps : ℚ} {H : CPHistogram}
    (hp : isPoint eps H = false) (hpos : 0 < getBinWidth eps H) (v y : ℚ)
    (h1 : H._min < v) (h2 : v ≤ H._max)
    (hy : y = if v > getBinUpperLimit eps H (whichBin eps H v) - eps then
        getBinUpperLimit eps H (whichBin eps H v)
      else if v < getBinLowerLimit eps H (whichBin eps H v) + eps then
        getBinLowerLimit eps H (whichBin eps H v)
      else v) :
    ∃ k, whichBin eps H v = k ∧ k < H._bincount ∧
      H._min + getBinWidth eps H * (k : ℚ) ≤ v ∧
      v ≤ H._min + getBinWidth eps H * ((k : ℚ) + 1) ∧
      ((v > H._min + getBinWidth eps H * ((k : ℚ) + 1) - eps ∧
          y = H._min + getBinWidth eps H * ((k : ℚ) + 1) ∧
          snapUpper eps H v k = some (y, k, true)) ∨
       (v ≤ H._min + getBinWidth eps H * ((k : ℚ) + 1) - eps ∧
          v < H._min + getBinWidth eps H * (k : ℚ) + eps ∧
          y = H._min + getBinWidth eps H * (k : ℚ) ∧
          ((0 < k ∧ snapUpper eps H v k = some (y, k - 1, true)) ∨
           (k = 0 ∧ snapUpper eps H v k = none))) ∨
       (v ≤ H._min + getBinWidth eps H * ((k : ℚ) + 1) - eps ∧
          H._min + getBinWidth eps H * (k : ℚ) + eps ≤ v ∧ y = v ∧
          snapUpper eps H v k = some (y, k, false))) := by
  obtain ⟨hn, hlt, hM⟩ := grid_of_pos hp hpos
  have hbin : ∃ k, whichBin eps H v = k ∧ k < H._bincount ∧
      H._min + getBinWidth eps H * (k : ℚ) ≤ v ∧
      v ≤ H._min + getBinWidth eps H * ((k : ℚ) + 1) := by
    by_cases hv : v = H._max
    · have hcast : ((H._bincount - 1 : ℕ) : ℚ) + 1 = H._bincount := by
        have := Nat.sub_add_cancel hn
        exact_mod_cast this
      refine ⟨H._bincount - 1, by rw [hv]; exact whichBin_max hp hn hlt, by omega, ?_, ?_⟩
      · have : ((H._bincount - 1 : ℕ) : ℚ) ≤ H._bincount := by linarith
        rw [hv, ← hM]; nlinarith
      · rw [hcast, hM, hv]
    · obtain ⟨k, hk, hlo, hup, hwb⟩ := exists_bin hp hpos v h1.le (lt_of_le_of_ne h2 hv)
      rw [(limits_eq hp k).1] at hlo
      rw [(limits_eq hp k).2] at hup
      exact ⟨k, hwb, hk, hlo, hup.le⟩
  obtain ⟨k, hwb, hk, hlo, hup⟩ := hbin
  refine ⟨k, hwb, hk, hlo, hup, ?_⟩
  rw [hwb, (limits_eq hp k).1, (limits_eq hp k).2] at hy
  unfold snapUpper
  rw [(limits_eq hp k).1, (limits_eq hp k).2]
  by_cases e1 : v > H._min + getBinWidth eps H * ((k : ℚ) + 1) - eps
  · left
    rw [if_pos e1] at hy
    rw [if_pos e1, hy]
    exact ⟨e1, rfl, rfl⟩
  · rw [if_neg e1] at hy
    rw [if_neg e1]
    by_cases e2 : v < H._min + getBinWidth eps H * (k : ℚ) + eps
    · right; left
      rw [if_pos e2] at hy
      rw [if_pos e2, hy]
      refine ⟨not_lt.mp e1, e2, rfl, ?_⟩
      rcases Nat.eq_zero_or_pos k with h0 | h0
      · right
        exact ⟨h0, by rw [if_neg (by omega)]⟩
      · left
        exact ⟨h0, by rw [if_pos h0]⟩
    · right; right
      rw [if_neg e2] at hy
      rw [if_neg e2, hy]
      exact ⟨not_lt.mp e1, not_lt.mp e2, rfl, rfl⟩

/-- The bin that `whichBin` answers for a bound in `[min, max)`, and what the block
that snaps the lower bound does with it: `x` is the bound after the block (the
early exit leaves it at the upper limit of the last bin, which is `max`). -/
theorem snapLower_outcome {eps : ℚ} {H : CPHistogram}
    (hp : isPoint eps H = false) (hpos : 0 < getBinWidth eps H) (v x : ℚ)
    (h1 : H._min ≤ v) (h2 : v < H._max)
    (hx : x = if v < getBinLowerLimit eps H (whichBin eps H v) + eps then
        getBinLowerLimit eps H (whichBin eps H v)
      else if v > getBinUpperLimit eps H (whichBin eps H v) - eps then
        getBinUpperLimit eps H (whichBin eps H v)
      else v) :
    ∃ k, whichBin eps H v = k ∧ k < H._bincount ∧
      H._min + getBinWidth eps H * (k : ℚ) ≤ v ∧
      v < H._min + getBinWidth eps H * ((k : ℚ) + 1) ∧
      ((v < H._min + getBinWidth eps H * (k : ℚ) + eps ∧
          x = H._min + getBinWidth eps H * (k : ℚ) ∧
          snapLower eps H v k = some (x, k, true)) ∨
       (H._min + getBinWidth eps H * (k : ℚ) + eps ≤ v ∧
          v > H._min + getBinWidth eps H * ((k : ℚ) + 1) - eps ∧
          x = H._min + getBinWidth eps H * ((k : ℚ) + 1) ∧
          ((k + 1 < H._bincount ∧ snapLower eps H v k = some (x, k + 1, true)) ∨
           (k + 1 = H._bincount ∧ snapLower eps H v k = none))) ∨
       (H._min + getBinWidth eps H * (k : ℚ) + eps ≤ v ∧
          v ≤ H._min + getBinWidth eps H * ((k : ℚ) + 1) - eps ∧ x = v ∧
          snapLower eps H v k = some (x, k, false))) := by
  obtain ⟨hn, hlt, hM⟩ := grid_of_pos hp hpos
  obtain ⟨k, hk, hlo, hup, hwb⟩ := exists_bin hp hpos v h1 h2
  rw [(limits_eq hp k).1] at hlo
  rw [(limits_eq hp k).2] at hup
  refine ⟨k, hwb, hk, hlo, hup, ?_⟩
  rw [hwb, (limits_eq hp k).1, (limits_eq hp k).2] at hx
  unfold snapLower
  rw [(limits_eq hp k).1, (limits_eq hp k).2]
  have hpred : predU32 H._bincount = H._bincount - 1 := by
    unfold predU32; rw [if_neg (by omega)]
  by_cases e1 : v < H._min + getBinWidth eps H * (k : ℚ) + eps
  · left
    rw [if_pos e1] at hx
    rw [if_pos e1, hx]
    exact ⟨e1, rfl, rfl⟩
  · rw [if_neg e1] at hx
    rw [if_neg e1]
    by_cases e2 : v > H._min + getBinWidth eps H * ((k : ℚ) + 1) - eps
    · right; left
      rw [if_pos e2] at hx
      rw [if_pos e2, hx, hpred]
      refine ⟨not_lt.mp e1, e2, rfl, ?_⟩
      by_cases e3 : k < H._bincount - 1
      · left
        exact ⟨by omega, by rw [if_pos e3]⟩
      · right
        exact ⟨by omega, by rw [if_neg e3]⟩
    · right; right
      rw [if_neg e2] at hx
      rw [if_neg e2, hx]
      exact ⟨not_lt.mp e1, not_lt.mp e2, rfl, rfl⟩

/-- The apportioned sum is 0 for a query that ends at `min` or starts at `max`. -/
theorem overlap_sum_zero {eps : ℚ} {H : CPHistogram} (hp : isPoint eps H = false)
    (hpos : 0 < getBinWidth eps H) (x y : ℚ) (h : y ≤ H._min ∨ H._max ≤ x) :
    ∑ i in Finset.range H._bincount,
        H._bins.getD i 0 *
          Max.max 0 (Min.min y (H._min + getBinWidth eps H * ((i : ℚ) + 1)) -
            Max.max x (H._min + getBinWidth eps H * (i : ℚ))) / getBinWidth eps H = 0 := by
  apply Finset.sum_eq_zero
  intro i hi
  obtain ⟨h1, h2⟩ := limits_le_max hp hpos i (Finset.mem_range.mp hi)
  have hle : Min.min y (H._min + getBinWidth eps H * ((i : ℚ) + 1)) -
      Max.max x (H._min + getBinWidth eps H * (i : ℚ)) ≤ 0 := by
    rcases h with h | h
    · have a1 := min_le_left y (H._min + getBinWidth eps H * ((i : ℚ) + 1))
      have a2 := le_max_right x (H._min + getBinWidth eps H * (i : ℚ))
      linarith
    · have a1 := min_le_right y (H._min + getBinWidth eps H * ((i : ℚ) + 1))
      have a2 := le_max_left x (H._min + getBinWidth eps H * (i : ℚ))
      linarith
  rw [max_eq_left hle]
  simp

/-- `getRangeWeight` returns 0 when the block that snaps the upper bound leaves
early. -/
theorem getRangeWeight_upper_none {eps : ℚ} {H : CPHistogram}
    (hp : isPoint eps H = false) (lb ub y0 : ℚ)
    (hy0 : y0 = if ub > H._max then H._max else ub)
    (hsu : snapUpper eps H y0 (whichBin eps H y0) = none) :
    getRangeWeight eps H lb ub = 0 := by
  unfold getRangeWeight
  simp only [nonZero_of_not_point hp, Bool.not_true, Bool.false_eq_true, if_false, hp, ← hy0,
    hsu]
  split_ifs <;> rfl

/-- `getRangeWeight` returns 0 when the block that snaps the lower bound leaves
early. -/
theorem getRangeWeight_lower_none {eps : ℚ} {H : CPHistogram}
    (hp : isPoint eps H = false) (lb ub x0 : ℚ)
    (hx0 : x0 = if lb < H._min then H._min else lb)
    (hsl : snapLower eps H x0 (whichBin eps H x0) = none) :
    getRangeWeight eps H lb ub = 0 := by
  unfold getRangeWeight
  simp only [nonZero_of_not_point hp, Bool.not_true, Bool.false_eq_true, if_false, hp, ← hx0,
    hsl]
  split_ifs
  all_goals first
    | rfl
    | (split <;> rfl)

/-- The weight that `getRangeWeight(lb, ub)` reports for a query that meets the
range of the histogram, when the two snapping blocks deliver the bounds `x` in bin
`a` and `y` in bin `j` with `a ≤ j` and `x ≤ y`: every bin contributes in
proportion to the part of it that `[x, y]` covers. -/
theorem getRangeWeight_of_snaps {eps : ℚ} (heps : 0 < eps) {H : CPHistogram}
    (hp : isPoint eps H = false) (hlen : H._bins.length = H._bincount)
    (hnn : ∀ x ∈ H._bins, 0 ≤ x) (hpos : 0 < getBinWidth eps H) (lb ub x0 y0 x y : ℚ)
    (a j : ℕ) (fa fj : Bool)
    (hw : eps ≤ ub - lb) (hlo : H._min < ub) (hhi : lb < H._max)
    (hx0 : x0 = if lb < H._min then H._min else lb)
    (hy0 : y0 = if ub > H._max then H._max else ub)
    (hsu : snapUpper eps H y0 (whichBin eps H y0) = some (y, j, fj))
    (hsl : snapLower eps H x0 (whichBin eps H x0) = some (x, a, fa))
    (hj : j < H._bincount) (haj : a ≤ j) (hxy : x ≤ y)
    (a1 : H._min + getBinWidth eps H * (a : ℚ) ≤ x)
    (a2 : x ≤ H._min + getBinWidth eps H * ((a : ℚ) + 1))
    (j1 : H._min + getBinWidth eps H * (j : ℚ) ≤ y)
    (j2 : y ≤ H._min + getBinWidth eps H * ((j : ℚ) + 1))
    (a3 : fa = true → x = H._min + getBinWidth eps H * (a : ℚ))
    (j3 : fj = true → y = H._min + getBinWidth eps H * ((j : ℚ) + 1)) :
    getRangeWeight eps H lb ub =
      ∑ i in Finset.range H._bincount,
        H._bins.getD i 0 *
          Max.max 0 (Min.min y (H._min + getBinWidth eps H * ((i : ℚ) + 1)) -
            Max.max x (H._min + getBinWidth eps H * (i : ℚ))) / getBinWidth eps H := by
  obtain ⟨hn, hmM, hM⟩ := grid_of_pos hp hpos
  have hne : H._bins ≠ [] := by
    intro he; rw [he] at hlen; simp at hlen; omega
  have c1 : ¬ (lb > ub) := by intro h; linarith
  have c2 : ¬ (ub - lb < eps) := by intro h; linarith
  have c3 : ¬ (ub ≤ H._min ∨ lb ≥ H._max) := by
    intro h; rcases h with h | h <;> linarith
  obtain ⟨W, hW⟩ : ∃ W, W = getBinWidth eps H := ⟨_, rfl⟩
  have hL : ∀ k : Nat, getBinLowerLimit eps H k = H._min + W * (k : ℚ) := by
    intro k; rw [(limits_eq hp k).1, hW]
  have hU : ∀ k : Nat, getBinUpperLimit eps H k = H._min + W * ((k : ℚ) + 1) := by
    intro k; rw [(limits_eq hp k).2, hW]
  rw [← hW] at hpos j1 j2 j3 a1 a2 a3 ⊢
  have hone : ∀ k : ℕ, (H._min + W * ((k : ℚ) + 1) - (H._min + W * (k : ℚ))) / W = 1 := by
    intro k
    rw [div_eq_one_iff_eq hpos.ne']
    ring
  unfold getRangeWeight
  simp only [nonZero_of_not_point hp, Bool.not_true, Bool.false_eq_true, if_false, hp, hne,
    c1, c2, c3, ← hx0, ← hy0, hsu, hsl, ← hW, hU, hL]
  rw [overlap_sum hpos H._min (fun i => H._bins.getD i 0) H._bincount a j haj hj x y
    a1 a2 j1 j2 hxy]
  by_cases e : a = j
  · subst e
    rw [if_pos rfl, if_pos rfl]
    have hpart : 0 ≤ (y - x) / W * H._bins.getD a 0 :=
      mul_nonneg (div_nonneg (by linarith) hpos.le) (getD_nonneg hnn a)
    cases fa <;> cases fj <;>
      simp only [Bool.and_true, Bool.and_false, Bool.false_eq_true, if_false, if_true,
        not_lt.mpr hpart]
    · ring
    · ring
    · ring
    · rw [a3 rfl, j3 rfl, mul_div_assoc, hone, mul_one]
  · rw [if_neg e, if_neg e, foldl_add_getD, sum_range'_eq_finset]
    have hlt : a < j := lt_of_le_of_ne haj e
    have e2 : a + 1 + (j - (a + 1)) = j := by omega
    rw [e2]
    have hp1 : 0 ≤ (H._min + W * ((a : ℚ) + 1) - x) / W * H._bins.getD a 0 :=
      mul_nonneg (div_nonneg (by linarith) hpos.le) (getD_nonneg hnn a)
    have hp2 : 0 ≤ (y - (H._min + W * (j : ℚ))) / W * H._bins.getD j 0 :=
      mul_nonneg (div_nonneg (by linarith) hpos.le) (getD_nonneg hnn j)
    have w1 : (if fa = true then H._bins.getD a 0
        else (H._min + W * ((a : ℚ) + 1) - x) / W * H._bins.getD a 0) =
        (H._min + W * ((a : ℚ) + 1) - x) / W * H._bins.getD a 0 := by
      cases fa
      · simp
      · rw [if_pos rfl, a3 rfl, hone, one_mul]
    have w2 : (if fj = true then H._bins.getD j 0
        else (y - (H._min + W * (j : ℚ))) / W * H._bins.getD j 0) =
        (y - (H._min + W * (j : ℚ))) / W * H._bins.getD j 0 := by
      cases fj
      · simp
      · rw [if_pos rfl, j3 rfl, hone, one_mul]
    rw [w1, w2, if_neg (not_lt.mpr hp1), if_neg (not_lt.mpr hp2)]
    ring

/-- The weight that `getRangeWeight(lb, ub)` reports for a query that meets the
range of the histogram and is at least `eps` wide, when its bounds do not lie on
either side of one interior bin boundary, less than `eps` away from it: with `x`
and `y` the clipped bounds as the two snapping blocks leave them, every bin
contributes in proportion to the part of it that `[x, y]` covers. -/
theorem getRangeWeight_inrange {eps : ℚ} (heps : 0 < eps) {H : CPHistogram}
    (hp : isPoint eps H = false) (hlen : H._bins.length = H._bincount)
    (hnn : ∀ x ∈ H._bins, 0 ≤ x) (hpos : 0 < getBinWidth eps H) (lb ub x0 y0 x y : ℚ)
    (hw : eps ≤ ub - lb) (hlo : H._min < ub) (hhi : lb < H._max)
    (hns : ∀ k : ℕ, 0 < k → k < H._bincount →
      ¬ (H._min + getBinWidth eps H * (k : ℚ) - eps < lb ∧
         lb < H._min + getBinWidth eps H * (k : ℚ) ∧
         H._min + getBinWidth eps H * (k : ℚ) < ub ∧
         ub < H._min + getBinWidth eps H * (k : ℚ) + eps))
    (hx0 : x0 = if lb < H._min then H._min else lb)
    (hy0 : y0 = if ub > H._max then H._max else ub)
    (hx : x = if x0 < getBinLowerLimit eps H (whichBin eps H x0) + eps then
        getBinLowerLimit eps H (whichBin eps H x0)
      else if x0 > getBinUpperLimit eps H (whichBin eps H x0) - eps then
        getBinUpperLimit eps H (whichBin eps H x0)
      else x0)
    (hy : y = if y0 > getBinUpperLimit eps H (whichBin eps H y0) - eps then
        getBinUpperLimit eps H (whichBin eps H y0)
      else if y0 < getBinLowerLimit eps H (whichBin eps H y0) + eps then
        getBinLowerLimit eps H (whichBin eps H y0)
      else y0) :
    getRangeWeight eps H lb ub =
      ∑ i in Finset.range H._bincount,
        H._bins.getD i 0 *
          Max.max 0 (Min.min y (H._min + getBinWidth eps H * ((i : ℚ) + 1)) -
            Max.max x (H._min + getBinWidth eps H * (i : ℚ))) / getBinWidth eps H := by
  obtain ⟨hn, hmM, hM⟩ := grid_of_pos hp hpos
  have hxy0 : x0 < y0 := by
    rw [hx0, hy0]
    split <;> split <;> linarith
  have hx1 : H._min ≤ x0 := by rw [hx0]; split <;> linarith
  have hx2 : x0 < H._max := by rw [hx0]; split <;> linarith
  have hy1 : H._min < y0 := by rw [hy0]; split <;> linarith
  have hy2 : y0 ≤ H._max := by rw [hy0]; split <;> linarith
  have hxc : x0 = lb ∨ x0 = H._min := by
    rw [hx0]; split
    · right; rfl
    · left; rfl
  have hyc : y0 = ub ∨ y0 = H._max := by
    rw [hy0]; split
    · right; rfl
    · left; rfl
  obtain ⟨ky, wby, hky, yl, yu, hU⟩ := snapUpper_outcome hp hpos y0 y hy1 hy2 hy
  obtain ⟨kx, wbx, hkx, xl, xu, hL⟩ := snapLower_outcome hp hpos x0 x hx1 hx2 hx
  have hgs : ∀ k k' : ℕ, k < k' →
      H._min + getBinWidth eps H * ((k : ℚ) + 1) ≤ H._min + getBinWidth eps H * (k' : ℚ) :=
    fun _ _ h => grid_sep hpos.le _ h
  have hgm : ∀ k k' : ℕ, k ≤ k' →
      H._min + getBinWidth eps H * (k : ℚ) ≤ H._min + getBinWidth eps H * (k' : ℚ) :=
    fun _ _ h => grid_mono hpos.le _ h
  have hkk : kx ≤ ky := by
    by_contra h
    have := hgs ky kx (by omega)
    linarith
  have hg0 : ∀ k : ℕ, H._min ≤ H._min + getBinWidth eps H * (k : ℚ) := by
    intro k
    have := hgm 0 k (Nat.zero_le _)
    simpa using this
  have hgn : ∀ k : ℕ, k < H._bincount →
      H._min + getBinWidth eps H * ((k : ℚ) + 1) ≤ H._max := by
    intro k hk
    rcases Nat.lt_or_ge (k + 1) H._bincount with h | h
    · have := hgs (k + 1) H._bincount h
      push_cast at this
      rw [hM] at this
      linarith
    · have : k + 1 = H._bincount := by omega
      rw [← hM, ← this]
      push_cast
      exact le_refl _
  -- the early exits
  have zeroU : snapUpper eps H y0 ky = none → y = H._min →
      getRangeWeight eps H lb ub =
      ∑ i in Finset.range H._bincount,
        H._bins.getD i 0 *
          Max.max 0 (Min.min y (H._min + getBinWidth eps H * ((i : ℚ) + 1)) -
            Max.max x (H._min + getBinWidth eps H * (i : ℚ))) / getBinWidth eps H := by
    intro hsu hym
    rw [getRangeWeight_upper_none hp lb ub y0 hy0 (by rw [wby]; exact hsu)]
    exact (overlap_sum_zero hp hpos x y (Or.inl (le_of_eq hym))).symm
  have zeroL : snapLower eps H x0 kx = none → x = H._max →
      getRangeWeight eps H lb ub =
      ∑ i in Finset.range H._bincount,
        H._bins.getD i 0 *
          Max.max 0 (Min.min y (H._min + getBinWidth eps H * ((i : ℚ) + 1)) -
            Max.max x (H._min + getBinWidth eps H * (i : ℚ))) / getBinWidth eps H := by
    intro hsl hxm
    rw [getRangeWeight_lower_none hp lb ub x0 hx0 (by rw [wbx]; exact hsl)]
    exact (overlap_sum_zero hp hpos x y (Or.inr (le_of_eq hxm.symm))).symm
  have fin : ∀ (a j : ℕ) (fa fj : Bool), snapUpper eps H y0 ky = some (y, j, fj) →
      snapLower eps H x0 kx = some (x, a, fa) → j < H._bincount → a ≤ j → x ≤ y →
      H._min + getBinWidth eps H * (a : ℚ) ≤ x →
      x ≤ H._min + getBinWidth eps H * ((a : ℚ) + 1) →
      H._min + getBinWidth eps H * (j : ℚ) ≤ y →
      y ≤ H._min + getBinWidth eps H * ((j : ℚ) + 1) →
      (fa = true → x = H._min + getBinWidth eps H * (a : ℚ)) →
      (fj = true → y = H._min + getBinWidth eps H * ((j : ℚ) + 1)) →
      getRangeWeight eps H lb ub =
      ∑ i in Finset.range H._bincount,
        H._bins.getD i 0 *
          Max.max 0 (Min.min y (H._min + getBinWidth eps H * ((i : ℚ) + 1)) -
            Max.max x (H._min + getBinWidth eps H * (i : ℚ))) / getBinWidth eps H := by
    intro a j fa fj hsu hsl hj haj hxy a1 a2 j1 j2 a3 j3
    exact getRangeWeight_of_snaps heps hp hlen hnn hpos lb ub x0 y0 x y a j fa fj hw hlo hhi
      hx0 hy0 (by rw [wby]; exact hsu) (by rw [wbx]; exact hsl) hj haj hxy a1 a2 j1 j2 a3 j3
  have hM' : H._max = H._min + getBinWidth eps H * (H._bincount : ℚ) := hM.symm
  rcases hU with ⟨u1, yv, hsu⟩ | ⟨u1, u2, yv, ⟨k0, hsu⟩ | ⟨k0, hsu⟩⟩ | ⟨u1, u2, yv, hsu⟩
  · -- the upper bound is moved up to the upper limit of its bin
    rcases hL with ⟨l1, xv, hsl⟩ | ⟨l1, l2, xv, ⟨kn, hsl⟩ | ⟨kn, hsl⟩⟩ | ⟨l1, l2, xv, hsl⟩
    · have := hgm kx ky hkk
      exact fin kx ky true true hsu hsl hky hkk (by linarith) (by linarith) (by linarith)
        (by linarith) (by linarith) (fun _ => xv) (fun _ => yv)
    · have hlt : kx + 1 ≤ ky := by
        by_contra hc
        have hke : kx = ky := by omega
        subst hke
        have e1 : x0 = lb := by
          rcases hxc with h | h
          · exact h
          · have := hg0 kx; linarith
        rcases hyc with h | h
        · rw [e1] at l2; rw [h] at yu u1; linarith
        · have := hgs (kx + 1) H._bincount kn
          push_cast at this
          rw [h, hM'] at yu
          linarith
      have := hgm (kx + 1) ky hlt
      push_cast at this
      exact fin (kx + 1) ky true true hsu hsl hky hlt (by linarith) (by push_cast; linarith)
        (by push_cast; linarith) (by linarith) (by linarith)
        (fun _ => by push_cast; exact xv) (fun _ => yv)
    · apply zeroL hsl
      rw [xv, hM', ← kn]
      push_cast
      rfl
    · exact fin kx ky false true hsu hsl hky hkk (by linarith) (by linarith) (by linarith)
        (by linarith) (by linarith) (fun h => by cases h) (fun _ => yv)
  · -- the upper bound is moved down to the lower limit of its bin
    have hc : ((ky - 1 : ℕ) : ℚ) + 1 = (ky : ℚ) := by
      have := Nat.sub_add_cancel k0
      exact_mod_cast this
    have hc' : ((ky - 1 : ℕ) : ℚ) = (ky : ℚ) - 1 := by linarith
    have ey : y0 = ub := by
      rcases hyc with h | h
      · exact h
      · have := hgn ky hky; linarith
    rcases hL with ⟨l1, xv, hsl⟩ | ⟨l1, l2, xv, ⟨kn, hsl⟩ | ⟨kn, hsl⟩⟩ | ⟨l1, l2, xv, hsl⟩
    · have hlt : kx ≤ ky - 1 := by
        by_contra hc2
        have hke : kx = ky := by omega
        subst hke
        have e1 : x0 = lb := by
          rcases hxc with h | h
          · exact h
          · have := hgs 0 kx k0
            simp only [Nat.cast_zero, zero_add, mul_one] at this
            linarith
        rw [e1] at xl; rw [ey] at u2
        linarith
      have := hgm kx (ky - 1) hlt
      rw [hc'] at this
      exact fin kx (ky - 1) true true hsu hsl (by omega) hlt (by linarith) (by linarith)
        (by linarith) (by rw [hc']; linarith) (by rw [hc]; linarith)
        (fun _ => xv) (fun _ => by rw [hc]; exact yv)
    · have hlt : kx + 1 ≤ ky - 1 := by
        by_contra hc2
        have e1 : x0 = lb := by
          rcases hxc with h | h
          · exact h
          · have := hg0 kx; linarith
        rcases Nat.lt_or_ge kx ky with h | h
        · have hke : ky = kx + 1 := by omega
          subst hke
          push_cast at u2 yl hns
          rw [e1] at l2 xu; rw [ey] at u2 yl
          rcases lt_or_eq_of_le yl with h2 | h2
          · have := hns (kx + 1) (by omega) hky
            push_cast at this
            exact this ⟨by linarith, by linarith, h2, by linarith⟩
          · linarith
        · have hke : kx = ky := by omega
          subst hke
          linarith
      have := hgm (kx + 1) (ky - 1) hlt
      rw [hc'] at this
      push_cast at this
      exact fin (kx + 1) (ky - 1) true true hsu hsl (by omega) hlt (by linarith)
        (by push_cast; linarith) (by push_cast; linarith) (by rw [hc']; linarith)
        (by rw [hc]; linarith) (fun _ => by push_cast; exact xv)
        (fun _ => by rw [hc]; exact yv)
    · apply zeroL hsl
      rw [xv, hM', ← kn]
      push_cast
      rfl
    · have hlt : kx ≤ ky - 1 := by
        by_contra hc2
        have hke : kx = ky := by omega
        subst hke
        linarith
      have h1 := hgm kx (ky - 1) hlt
      rw [hc'] at h1
      have h2 := hgs kx ky (by omega)
      exact fin kx (ky - 1) false true hsu hsl (by omega) hlt (by linarith) (by linarith)
        (by linarith) (by rw [hc']; linarith) (by rw [hc]; linarith)
        (fun h => by cases h) (fun _ => by rw [hc]; exact yv)
  · -- the upper bound is less than `eps` above `min`
    apply zeroU hsu
    rw [yv, k0]
    simp
  · -- the upper bound stays
    rcases hL with ⟨l1, xv, hsl⟩ | ⟨l1, l2, xv, ⟨kn, hsl⟩ | ⟨kn, hsl⟩⟩ | ⟨l1, l2, xv, hsl⟩
    · exact fin kx ky true false hsu hsl hky hkk (by linarith) (by linarith) (by linarith)
        (by linarith) (by linarith) (fun _ => xv) (fun h => by cases h)
    · have hlt : kx + 1 ≤ ky := by
        by_contra hc
        have hke : kx = ky := by omega
        subst hke
        linarith
      have := hgm (kx + 1) ky hlt
      push_cast at this
      exact fin (kx + 1) ky true false hsu hsl hky hlt (by linarith) (by push_cast; linarith)
        (by push_cast; linarith) (by linarith) (by linarith)
        (fun _ => by push_cast; exact xv) (fun h => by cases h)
    · apply zeroL hsl
      rw [xv, hM', ← kn]
      push_cast
      rfl
    · exact fin kx ky false false hsu hsl hky hkk (by linarith) (by linarith) (by linarith)
        (by linarith) (by linarith) (fun h => by cases h) (fun h => by cases h)

/-- Two lower bounds at or below `min` give the same weight. -/
theorem getRangeWeight_lb_below {eps : ℚ} (heps : 0 < eps) {H : CPHistogram}
    (hp : isPoint eps H = false) (hpos : 0 < getBinWidth eps H) (lb1 lb2 ub : ℚ)
    (h1 : lb1 ≤ H._min) (h2 : lb2 ≤ H._min) (g1 : eps ≤ ub - lb1) (g2 : eps ≤ ub - lb2) :
    getRangeWeight eps H lb1 ub = getRangeWeight eps H lb2 ub := by
  obtain ⟨_, hmM, _⟩ := grid_of_pos hp hpos
  have c1 : ∀ lb, lb ≤ H._min → eps ≤ ub - lb →
      ¬ (lb > ub) ∧ ¬ (ub - lb < eps) ∧ ¬ (lb ≥ H._max) ∧
      (if lb < H._min then H._min else lb) = H._min := by
    intro lb h g
    refine ⟨by intro hc; linarith, by intro hc; linarith, by intro hc; linarith, ?_⟩
    split
    · rfl
    · rename_i hc; exact le_antisymm h (not_lt.mp hc)
  obtain ⟨a1, a2, a3, a4⟩ := c1 lb1 h1 g1
  obtain ⟨b1, b2, b3, b4⟩ := c1 lb2 h2 g2
  unfold getRangeWeight
  simp only [nonZero_of_not_point hp, Bool.not_true, Bool.false_eq_true, if_false, hp,
    a1, a2, a3, a4, b1, b2, b3, b4]

/-- Two upper bounds at or above `max` give the same weight. -/
theorem getRangeWeight_ub_above {eps : ℚ} (heps : 0 < eps) {H : CPHistogram}
    (hp : isPoint eps H = false) (hpos : 0 < getBinWidth eps H) (lb ub1 ub2 : ℚ)
    (h1 : H._max ≤ ub1) (h2 : H._max ≤ ub2) (g1 : eps ≤ ub1 - lb) (g2 : eps ≤ ub2 - lb) :
    getRangeWeight eps H lb ub1 = getRangeWeight eps H lb ub2 := by
  obtain ⟨_, hmM, _⟩ := grid_of_pos hp hpos
  have c1 : ∀ ub, H._max ≤ ub → eps ≤ ub - lb →
      ¬ (lb > ub) ∧ ¬ (ub - lb < eps) ∧ ¬ (ub ≤ H._min) ∧
      (if ub > H._max then H._max else ub) = H._max := by
    intro ub h g
    refine ⟨by intro hc; linarith, by intro hc; linarith, by intro hc; linarith, ?_⟩
    split
    · rfl
    · rename_i hc; exact le_antisymm (not_lt.mp hc) h
  obtain ⟨a1, a2, a3, a4⟩ := c1 ub1 h1 g1
  obtain ⟨b1, b2, b3, b4⟩ := c1 ub2 h2 g2
  unfold getRangeWeight
  simp only [nonZero_of_not_point hp, Bool.not_true, Bool.false_eq_true, if_false, hp,
    a1, a2, a3, a4, b1, b2, b3, b4]

/-- The block that snaps the lower bound keeps the order of two bounds. -/
theorem snapLower_value_mono {eps : ℚ} {H : CPHistogram}
    (hp : isPoint eps H = false) (hpos : 0 < getBinWidth eps H) (v v' x x' : ℚ)
    (h1 : H._min ≤ v) (h2 : v < v') (h3 : v' < H._max)
    (hx : x = if v < getBinLowerLimit eps H (whichBin eps H v) + eps then
        getBinLowerLimit eps H (whichBin eps H v)
      else if v > getBinUpperLimit eps H (whichBin eps H v) - eps then
        getBinUpperLimit eps H (whichBin eps H v)
      else v)
    (hx' : x' = if v' < getBinLowerLimit eps H (whichBin eps H v') + eps then
        getBinLowerLimit eps H (whichBin eps H v')
      else if v' > getBinUpperLimit eps H (whichBin eps H v') - eps then
        getBinUpperLimit eps H (whichBin eps H v')
      else v') : x ≤ x' := by
  obtain ⟨k, _, _, l, u, hL⟩ := snapLower_outcome hp hpos v x h1 (by linarith) hx
  obtain ⟨k', _, _, l', u', hL'⟩ := snapLower_outcome hp hpos v' x' (by linarith) h3 hx'
  have hb : H._min + getBinWidth eps H * (k : ℚ) ≤ x ∧
      x ≤ H._min + getBinWidth eps H * ((k : ℚ) + 1) := by
    rcases hL with ⟨_, xv, _⟩ | ⟨_, _, xv, _⟩ | ⟨_, _, xv, _⟩ <;> rw [xv] <;>
      constructor <;> linarith
  have hb' : H._min + getBinWidth eps H * (k' : ℚ) ≤ x' ∧
      x' ≤ H._min + getBinWidth eps H * ((k' : ℚ) + 1) := by
    rcases hL' with ⟨_, xv, _⟩ | ⟨_, _, xv, _⟩ | ⟨_, _, xv, _⟩ <;> rw [xv] <;>
      constructor <;> linarith
  rcases Nat.lt_trichotomy k k' with h | h | h
  · have := grid_sep hpos.le H._min h
    linarith
  · subst h
    rcases hL with ⟨_, xv, _⟩ | ⟨l1, l2, xv, _⟩ | ⟨l1, l2, xv, _⟩
    · rw [xv]; exact hb'.1
    · rcases hL' with ⟨m1, _, _⟩ | ⟨_, _, xv', _⟩ | ⟨_, m2, _, _⟩
      · linarith
      · rw [xv, xv']
      · linarith
    · rcases hL' with ⟨m1, _, _⟩ | ⟨_, _, xv', _⟩ | ⟨_, _, xv', _⟩
      · linarith
      · rw [xv, xv']; linarith
      · rw [xv, xv']; linarith
  · have := grid_sep hpos.le H._min h
    linarith

/-- The block that snaps the upper bound keeps the order of two bounds. -/
theorem snapUpper_value_mono {eps : ℚ} {H : CPHistogram}
    (hp : isPoint eps H = false) (hpos : 0 < getBinWidth eps H) (v v' y y' : ℚ)
    (h1 : H._min < v) (h2 : v < v') (h3 : v' ≤ H._max)
    (hy : y = if v > getBinUpperLimit eps H (whichBin eps H v) - eps then
        getBinUpperLimit eps H (whichBin eps H v)
      else if v < getBinLowerLimit eps H (whichBin eps H v) + eps then
        getBinLowerLimit eps H (whichBin eps H v)
      else v)
    (hy' : y' = if v' > getBinUpperLimit eps H (whichBin eps H v') - eps then
        getBinUpperLimit eps H (whichBin eps H v')
      else if v' < getBinLowerLimit eps H (whichBin eps H v') + eps then
        getBinLowerLimit eps H (whichBin eps H v')
      else v') : y ≤ y' := by
  obtain ⟨k, _, _, l, u, hU⟩ := snapUpper_outcome hp hpos v y h1 (by linarith) hy
  obtain ⟨k', _, _, l', u', hU'⟩ := snapUpper_outcome hp hpos v' y' (by linarith) h3 hy'
  have hb : H._min + getBinWidth eps H * (k : ℚ) ≤ y ∧
      y ≤ H._min + getBinWidth eps H * ((k : ℚ) + 1) := by
    rcases hU with ⟨_, yv, _⟩ | ⟨_, _, yv, _⟩ | ⟨_, _, yv, _⟩ <;> rw [yv] <;>
      constructor <;> linarith
  have hb' : H._min + getBinWidth eps H * (k' : ℚ) ≤ y' ∧
      y' ≤ H._min + getBinWidth eps H * ((k' : ℚ) + 1) := by
    rcases hU' with ⟨_, yv, _⟩ | ⟨_, _, yv, _⟩ | ⟨_, _, yv, _⟩ <;> rw [yv] <;>
      constructor <;> linarith
  rcases Nat.lt_trichotomy k k' with h | h | h
  · have := grid_sep hpos.le H._min h
    linarith
  · subst h
    rcases hU' with ⟨_, yv', _⟩ | ⟨m1, m2, yv', _⟩ | ⟨m1, m2, yv', _⟩
    · rw [yv']; exact hb.2
    · rcases hU with ⟨n1, _, _⟩ | ⟨_, _, yv, _⟩ | ⟨_, n2, _, _⟩
      · linarith
      · rw [yv, yv']
      · linarith
    · rcases hU with ⟨n1, _, _⟩ | ⟨_, _, yv, _⟩ | ⟨_, _, yv, _⟩
      · linarith
      · rw [yv, yv']; linarith
      · rw [yv, yv']; linarith
  · have := grid_sep hpos.le H._min h
    linarith

/-- Adjoining queries add up when both are at least `eps` wide, the bound they
share is not less than `eps` away from both limits of its bin, and neither query
has its ends on either side of one interior bin boundary, less than `eps` away
from it. -/
theorem getRangeWeight_add_general {eps : ℚ} (heps : 0 < eps) {H : CPHistogram}
    (hp : isPoint eps H = false) (hlen : H._bins.length = H._bincount)
    (hnn : ∀ x ∈ H._bins, 0 ≤ x) (hpos : 0 < getBinWidth eps H)
    (a b c : ℚ) (hab : eps ≤ b - a) (hbc : eps ≤ c - b)
    (hzone : H._min < b → b < H._max →
      ¬ (getBinUpperLimit eps H (whichBin eps H b) - eps < b ∧
         b < getBinLowerLimit eps H (whichBin eps H b) + eps))
    (hsab : ∀ k : ℕ, 0 < k → k < H._bincount →
      ¬ (H._min + getBinWidth eps H * (k : ℚ) - eps < a ∧
         a < H._min + getBinWidth eps H * (k : ℚ) ∧
         H._min + getBinWidth eps H * (k : ℚ) < b ∧
         b < H._min + getBinWidth eps H * (k : ℚ) + eps))
    (hsbc : ∀ k : ℕ, 0 < k → k < H._bincount →
      ¬ (H._min + getBinWidth eps H * (k : ℚ) - eps < b ∧
         b < H._min + getBinWidth eps H * (k : ℚ) ∧
         H._min + getBinWidth eps H * (k : ℚ) < c ∧
         c < H._min + getBinWidth eps H * (k : ℚ) + eps)) :
    getRangeWeight eps H a b + getRangeWeight eps H b c = getRangeWeight eps H a c := by
  obtain ⟨hn, hmM, hM⟩ := grid_of_pos hp hpos
  have hsac : ∀ k : ℕ, 0 < k → k < H._bincount →
      ¬ (H._min + getBinWidth eps H * (k : ℚ) - eps < a ∧
         a < H._min + getBinWidth eps H * (k : ℚ) ∧
         H._min + getBinWidth eps H * (k : ℚ) < c ∧
         c < H._min + getBinWidth eps H * (k : ℚ) + eps) := by
    intro k _ _ h
    obtain ⟨h1, _, _, h4⟩ := h
    linarith
  rcases le_or_lt b H._min with hb1 | hb1
  · -- `[a, b]` lies below the histogram
    have hz : getRangeWeight eps H a b = 0 := by
      unfold getRangeWeight
      simp only [nonZero_of_not_point hp, Bool.not_true, Bool.false_eq_true, if_false, hp,
        hb1, true_or, if_true]
      split_ifs <;> rfl
    rw [hz, zero_add]
    exact getRangeWeight_lb_below heps hp hpos b a c hb1 (by linarith) hbc (by linarith)
  rcases le_or_lt H._max b with hb2 | hb2
  · -- `[b, c]` lies above the histogram
    have hz : getRangeWeight eps H b c = 0 := by
      unfold getRangeWeight
      simp only [nonZero_of_not_point hp, Bool.not_true, Bool.false_eq_true, if_false, hp,
        ge_iff_le, hb2, or_true, if_true]
      split_ifs <;> rfl
    rw [hz, add_zero]
    exact getRangeWeight_ub_above heps hp hpos a b c hb2 (by linarith) hab (by linarith)
  -- `b` lies inside the range
  obtain ⟨a0, ha0⟩ : ∃ a0, a0 = if a < H._min then H._min else a := ⟨_, rfl⟩
  obtain ⟨c0, hc0⟩ : ∃ c0, c0 = if c > H._max then H._max else c := ⟨_, rfl⟩
  have hbl : b = if b < H._min then H._min else b := by rw [if_neg (by linarith)]
  have hbu : b = if b > H._max then H._max else b := by rw [if_neg (by linarith)]
  have ha1 : H._min ≤ a0 := by rw [ha0]; split <;> linarith
  have ha2 : a0 < b := by rw [ha0]; split <;> linarith
  have hc1 : b < c0 := by rw [hc0]; split <;> linarith
  have hc2 : c0 ≤ H._max := by rw [hc0]; split <;> linarith
  obtain ⟨xa, hxa⟩ : ∃ xa, xa =
      if a0 < getBinLowerLimit eps H (whichBin eps H a0) + eps then
        getBinLowerLimit eps H (whichBin eps H a0)
      else if a0 > getBinUpperLimit eps H (whichBin eps H a0) - eps then
        getBinUpperLimit eps H (whichBin eps H a0)
      else a0 := ⟨_, rfl⟩
  obtain ⟨xb, hxb⟩ : ∃ xb, xb =
      if b < getBinLowerLimit eps H (whichBin eps H b) + eps then
        getBinLowerLimit eps H (whichBin eps H b)
      else if b > getBinUpperLimit eps H (whichBin eps H b) - eps then
        getBinUpperLimit eps H (whichBin eps H b)
      else b := ⟨_, rfl⟩
  obtain ⟨yb, hyb⟩ : ∃ yb, yb =
      if b > getBinUpperLimit eps H (whichBin eps H b) - eps then
        getBinUpperLimit eps H (whichBin eps H b)
      else if b < getBinLowerLimit eps H (whichBin eps H b) + eps then
        getBinLowerLimit eps H (whichBin eps H b)
      else b := ⟨_, rfl⟩
  obtain ⟨yc, hyc⟩ : ∃ yc, yc =
      if c0 > getBinUpperLimit eps H (whichBin eps H c0) - eps then
        getBinUpperLimit eps H (whichBin eps H c0)
      else if c0 < getBinLowerLimit eps H (whichBin eps H c0) + eps then
        getBinLowerLimit eps H (whichBin eps H c0)
      else c0 := ⟨_, rfl⟩
  have hsame : yb = xb := by
    have hz := hzone hb1 hb2
    rw [hyb, hxb]
    by_cases e1 : b > getBinUpperLimit eps H (whichBin eps H b) - eps
    · have e2 : ¬ (b < getBinLowerLimit eps H (whichBin eps H b) + eps) :=
        fun h => hz ⟨e1, h⟩
      rw [if_pos e1, if_neg e2, if_pos e1]
    · rw [if_neg e1]
      by_cases e2 : b < getBinLowerLimit eps H (whichBin eps H b) + eps
      · rw [if_pos e2, if_pos e2]
      · rw [if_neg e2, if_neg e2, if_neg e1]
  have hle1 : xa ≤ xb := snapLower_value_mono hp hpos a0 b xa xb ha1 ha2 hb2 hxa hxb
  have hle2 : yb ≤ yc := snapUpper_value_mono hp hpos b c0 yb yc hb1 hc1 hc2 hyb hyc
  rw [getRangeWeight_inrange heps hp hlen hnn hpos a b a0 b xa yb hab hb1 (by linarith) hsab
      ha0 hbu hxa hyb,
    getRangeWeight_inrange heps hp hlen hnn hpos b c b c0 xb yc hbc (by linarith) hb2 hsbc
      hbl hc0 hxb hyc,
    getRangeWeight_inrange heps hp hlen hnn hpos a c a0 c0 xa yc (by linarith) (by linarith)
      (by linarith) hsac ha0 hc0 hxa hyc,
    ← Finset.sum_add_distrib, hsame]
  apply Finset.sum_congr rfl
  intro i _
  have hlu : H._min + getBinWidth eps H * (i : ℚ) ≤
      H._min + getBinWidth eps H * ((i : ℚ) + 1) := by nlinarith
  rw [← overlap_add xa xb yc _ _ hle1 (by rw [← hsame]; exact hle2) hlu]
  ring

/-- C24 (counterexample): with `FP_FUDGE_EPS = 1/10^10`.  On the Scenario A
histogram (bins `[3, 1]` on `[2, 6]`): (a) for `a = 3`, `b = 3 + 5/10^11`, `c = 4`
the range `[a, b]` is narrower than `FP_FUDGE_EPS` and counts 0, `[b, c]` counts
`59999999997/40000000000` and `[a, c]` counts `3/2`; (b) for `a = 4 - 6/10^11`,
`b = 4 + 6/10^11`, `c = 5`, with `a` and `b` within `FP_FUDGE_EPS` of the boundary
4 on either side, `[a, b]` counts 4, `[b, c]` counts `1/2` and `[a, c]` counts
`1/2`.  (c) On the histogram with bins `[3, 1]` on `[2, 2 + 3/10^10]`, whose bins
are `3/2 * FP_FUDGE_EPS` wide, `b = 2 + 3/(4*10^10)` is within `FP_FUDGE_EPS` of
both limits of bin 0: as an upper bound it is moved up and as a lower bound down,
so `[1, b]` counts 3, `[b, 3]` counts 4 and `[1, 3]` counts 4. -/
theorem getRangeWeight_adjoining_ranges_differ :
    (∃ H : CPHistogram,
      buildFromList (1 / 10 ^ 10) (withList [(2, 3), (6, 1)]) 2 4 2 6 = some H ∧
      isPoint (1 / 10 ^ 10) H = false ∧ (∀ x ∈ H._bins, 0 ≤ x) ∧
      ((3 : ℚ) < 3 + 5 / 10 ^ 11 ∧ (3 + 5 / 10 ^ 11 : ℚ) < 4 ∧
        getRangeWeight (1 / 10 ^ 10) H 3 (3 + 5 / 10 ^ 11) +
          getRangeWeight (1 / 10 ^ 10) H (3 + 5 / 10 ^ 11) 4 ≠
            getRangeWeight (1 / 10 ^ 10) H 3 4) ∧
      ((4 - 6 / 10 ^ 11 : ℚ) < 4 + 6 / 10 ^ 11 ∧ (4 + 6 / 10 ^ 11 : ℚ) < 5 ∧
        getRangeWeight (1 / 10 ^ 10) H (4 - 6 / 10 ^ 11) (4 + 6 / 10 ^ 11) = 4 ∧
        getRangeWeight (1 / 10 ^ 10) H (4 + 6 / 10 ^ 11) 5 = 1 / 2 ∧
        getRangeWeight (1 / 10 ^ 10) H (4 - 6 / 10 ^ 11) 5 = 1 / 2)) ∧
    (∃ H : CPHistogram,
      buildFromList (1 / 10 ^ 10) (withList [(2, 3), (2 + 3 / 10 ^ 10, 1)]) 2 4 2
        (2 + 3 / 10 ^ 10) = some H ∧
      isPoint (1 / 10 ^ 10) H = false ∧ (∀ x ∈ H._bins, 0 ≤ x) ∧
      getBinWidth (1 / 10 ^ 10) H = 3 / 2 * (1 / 10 ^ 10) ∧
      (1 / 10 ^ 10 : ℚ) ≤ 2 + 3 / (4 * 10 ^ 10) - 1 ∧
      (1 / 10 ^ 10 : ℚ) ≤ 3 - (2 + 3 / (4 * 10 ^ 10)) ∧
      getRangeWeight (1 / 10 ^ 10) H 1 (2 + 3 / (4 * 10 ^ 10)) = 3 ∧
      getRangeWeight (1 / 10 ^ 10) H (2 + 3 / (4 * 10 ^ 10)) 3 = 4 ∧
      getRangeWeight (1 / 10 ^ 10) H 1 3 = 4) :=
  ⟨⟨{ _min := 2, _max := 6, _bincount := 2, _bins := [3, 1], _stats := ⟨12, 12, 4, 4⟩,
      _addList := [] },
    by decide!, by decide!, by decide!, by decide!, by decide!⟩,
   ⟨{ _min := 2, _max := 2 + 3 / 10 ^ 10, _bincount := 2, _bins := [3, 1],
      _stats := ⟨27 / 400000000000000000000, 80000000003 / 10000000000, 4, 4⟩,
      _addList := [] },
    by decide!, by decide!, by decide!, by decide!, by decide!, by decide!, by decide!,
    by decide!, by decide!⟩⟩

/-- A histogram that is not a point and has no bin array reports the weight 0. -/
theorem getRangeWeight_no_bins {eps : ℚ} {H : CPHistogram} (hp : isPoint eps H = false)
    (hb : H._bins = []) (lb ub : ℚ) : getRangeWeight eps H lb ub = 0 := by
  unfold getRangeWeight
  simp only [nonZero_of_not_point hp, Bool.not_true, Bool.false_eq_true, if_false, hp, hb,
    if_true]
  split_ifs <;> rfl

/-- C24 (amended): for every histogram that is not a point, with `min ≤ max` and a
bin array of `binCount` non-negative entries, and every `a`, `b`, `c` with
`b - a ≥ FP_FUDGE_EPS` and `c - b ≥ FP_FUDGE_EPS` such that `b`, when it lies
strictly between `min` and `max`, is not less than `FP_FUDGE_EPS` away from both
limits of its bin (no value is when the bins are at least `2 * FP_FUDGE_EPS`
wide), and such that no interior bin boundary has `a` less than `FP_FUDGE_EPS`
below it and `b` less than `FP_FUDGE_EPS` above it, nor `b` less than
`FP_FUDGE_EPS` below it and `c` less than `FP_FUDGE_EPS` above it,
`getRangeWeight(a, b) + getRangeWeight(b, c) = getRangeWeight(a, c)`. -/
theorem getRangeWeight_adjoining_ranges (eps : ℚ) (heps : 0 < eps) (H : CPHistogram)
    (hp : isPoint eps H = false) (hle : H._min ≤ H._max)
    (hlen : H._bins.length = H._bincount) (hnn : ∀ x ∈ H._bins, 0 ≤ x)
    (a b c : ℚ) (hab : eps ≤ b - a) (hbc : eps ≤ c - b)
    (hb : H._min < b → b < H._max →
      ¬ (getBinUpperLimit eps H (whichBin eps H b) - eps < b ∧
         b < getBinLowerLimit eps H (whichBin eps H b) + eps))
    (hsab : ∀ k, k < H._bincount → 0 < k →
      ¬ (getBinLowerLimit eps H k - eps < a ∧ a < getBinLowerLimit eps H k ∧
         getBinLowerLimit eps H k < b ∧ b < getBinLowerLimit eps H k + eps))
    (hsbc : ∀ k, k < H._bincount → 0 < k →
      ¬ (getBinLowerLimit eps H k - eps < b ∧ b < getBinLowerLimit eps H k ∧
         getBinLowerLimit eps H k < c ∧ c < getBinLowerLimit eps H k + eps)) :
    getRangeWeight eps H a b + getRangeWeight eps H b c = getRangeWeight eps H a c := by
  rcases Nat.eq_zero_or_pos H._bincount with h0 | h0
  · have hbins : H._bins = [] := List.length_eq_zero.mp (by rw [hlen, h0])
    rw [getRangeWeight_no_bins hp hbins, getRangeWeight_no_bins hp hbins,
      getRangeWeight_no_bins hp hbins, add_zero]
  · have hpos : 0 < getBinWidth eps H := by
      rw [getBinWidth_eq hp]
      have hlt : H._min < H._max := lt_of_le_of_ne hle ((isPoint_false_iff eps H).mp hp).2
      have hnQ : (0 : ℚ) < H._bincount := by exact_mod_cast h0
      exact div_pos (by linarith) hnQ
    apply getRangeWeight_add_general heps hp hlen hnn hpos a b c hab hbc hb
    · intro k h0 hk
      have := hsab k hk h0
      rw [(limits_eq hp k).1] at this
      exact this
    · intro k h0 hk
      have := hsbc k hk h0
      rw [(limits_eq hp k).1] at this
      exact this

theorem getRangeWeight_adjoining_ranges_witness :
    getRangeWeight (1 / 10 ^ 10)
      { _min := 2, _max := 6, _bincount := 2, _bins := [3, 1], _stats := ⟨12, 12, 4, 4⟩,
        _addList := [] } 3 (4 - 5 / 10 ^ 11) +
    getRangeWeight (1 / 10 ^ 10)
      { _min := 2, _max := 6, _bincount := 2, _bins := [3, 1], _stats := ⟨12, 12, 4, 4⟩,
        _addList := [] } (4 - 5 / 10 ^ 11) 5 =
    getRangeWeight (1 / 10 ^ 10)
      { _min := 2, _max := 6, _bincount := 2, _bins := [3, 1], _stats := ⟨12, 12, 4, 4⟩,
        _addList := [] } 3 5 :=
  getRangeWeight_adjoining_ranges (1 / 10 ^ 10) (by norm_num)
    { _min := 2, _max := 6, _bincount := 2, _bins := [3, 1], _stats := ⟨12, 12, 4, 4⟩,
      _addList := [] }
    (by decide!) (by norm_num) (by decide!) (by decide!) 3 (4 - 5 / 10 ^ 11) 5
    (by norm_num) (by norm_num) (by decide!) (by decide!) (by decide!)

theorem foldl_addToListWV {α : Type} (g : α → WeightedValue) (l : List α) (h : CPHistogram) :
    l.foldl (fun rc x => addToListWV rc (g x)) h =
      { h with _addList := h._addList ++
          (l.map g).filter (fun wv => decide (wv.1 > 0 ∧ wv.2 > 0)) } := by
  induction l generalizing h with
  | nil => simp
  | cons x t ih =>
    simp only [List.foldl_cons, ih, List.map_cons]
    by_cases hx : (g x).1 > 0 ∧ (g x).2 > 0
    · simp [addToListWV, hx, List.filter_cons]
    · simp [addToListWV, hx, List.filter_cons]

theorem foldl_foldl_addToListWV (g : Nat → Nat → WeightedValue) (l1 l2 : List Nat)
    (h : CPHistogram) :
    l1.foldl (fun rc i => l2.foldl (fun rc j => addToListWV rc (g i j)) rc) h =
      { h with _addList := h._addList ++
          (l1.flatMap (fun i => l2.map (g i))).filter (fun wv => decide (wv.1 > 0 ∧ wv.2 > 0)) } := by
  induction l1 generalizing h with
  | nil => simp
  | cons i t ih =>
    simp only [List.foldl_cons, foldl_addToListWV (g i) l2 h, ih, List.flatMap_cons,
      List.filter_append, List.append_assoc]

theorem survivors_filter_pos {eps : ℚ} (heps : 0 < eps) (l : List WeightedValue) :
    survivors eps (l.filter (fun wv => decide (wv.1 > 0 ∧ wv.2 > 0))) = survivors eps l := by
  unfold survivors
  rw [List.filter_filter]
  apply List.filter_congr
  intro wv _
  by_cases h : wv.1 > eps ∧ wv.2 > eps
  · have h1 : wv.1 > 0 := lt_trans heps h.1
    have h2 : wv.2 > 0 := lt_trans heps h.2
    simp [h, h1, h2]
  · simp [h]

/-- Dropping the entries whose weight is 0 does not change the summed weight. -/
theorem sum_survivors_of_zero_or_big {eps : ℚ} (l : List WeightedValue)
    (h : ∀ wv ∈ l, (wv.1 > eps ∧ wv.2 > eps) ∨ wv.2 = 0) :
    ((survivors eps l).map Prod.snd).sum = (l.map Prod.snd).sum := by
  induction l with
  | nil => rfl
  | cons wv t ih =>
    have ht := ih (fun x hx => h x (List.mem_cons_of_mem _ hx))
    unfold survivors at ht ⊢
    rcases h wv (List.mem_cons_self _ _) with h1 | h1
    · simp only [List.filter_cons, h1, and_self, decide_True, if_true, List.map_cons,
        List.sum_cons, ht]
    · by_cases h2 : wv.1 > eps ∧ wv.2 > eps
      · simp only [List.filter_cons, h2, and_self, decide_True, if_true, List.map_cons,
          List.sum_cons, ht]
      · simp only [List.filter_cons, h2, decide_False, Bool.false_eq_true, if_false,
          List.map_cons, List.sum_cons, ht]
        rw [h1, zero_add]

theorem sum_product_weights (c : Nat → Nat → ℚ) (u v : Nat → ℚ) (l1 l2 : List Nat) :
    ((l1.flatMap (fun i => l2.map (fun j => ((c i j, u i * v j) : WeightedValue)))).map
      Prod.snd).sum = (l1.map u).sum * (l2.map v).sum := by
  induction l1 with
  | nil => simp
  | cons i t ih =>
    simp only [List.flatMap_cons, List.map_append, List.sum_append, ih, List.map_cons,
      List.sum_cons, List.map_map]
    have : (List.map (Prod.snd ∘ fun j => ((c i j, u i * v j) : WeightedValue)) l2).sum =
        u i * (l2.map v).sum := by
      rw [← List.sum_map_mul_left]
      rfl
    rw [this]
    ring

theorem foldl_min_of_le (l : List ℚ) (lb : ℚ) (h : ∀ v ∈ l, lb ≤ v) :
    l.foldl Min.min lb = lb := by
  induction l with
  | nil => rfl
  | cons v t ih =>
    simp only [List.foldl_cons]
    rw [min_eq_left (h v (List.mem_cons_self _ _))]
    exact ih (fun x hx => h x (List.mem_cons_of_mem _ hx))

theorem foldl_max_of_le (l : List ℚ) (ub : ℚ) (h : ∀ v ∈ l, v ≤ ub) :
    l.foldl Max.max ub = ub := by
  induction l with
  | nil => rfl
  | cons v t ih =>
    simp only [List.foldl_cons]
    rw [max_eq_left (h v (List.mem_cons_self _ _))]
    exact ih (fun x hx => h x (List.mem_cons_of_mem _ hx))

theorem getBinWidth_pos {eps : ℚ} {H : CPHistogram} (hp : isPoint eps H = false)
    (hle : H._min ≤ H._max) (hb : 1 ≤ H._bincount) : 0 < getBinWidth eps H := by
  rw [getBinWidth_eq hp]
  have hne := ((isPoint_false_iff eps H).mp hp).2
  have hlt : H._min < H._max := lt_of_le_of_ne hle hne
  have hnQ : (0 : ℚ) < H._bincount := by exact_mod_cast hb
  exact div_pos (by linarith) hnQ

theorem getBinCenter_bounds {eps : ℚ} {H : CPHistogram} (hp : isPoint eps H = false)
    (hpos : 0 < getBinWidth eps H) (i : Nat) (hi : i < H._bincount) :
    H._min ≤ getBinCenter eps H i ∧ getBinCenter eps H i ≤ H._max := by
  obtain ⟨h1, h2⟩ := limits_le_max hp hpos i hi
  have hc : getBinCenter eps H i = H._min + getBinWidth eps H * ((i : ℚ) + 1 / 2) := by
    simp [getBinCenter, nonZero_of_not_point hp]
  rw [hc]
  constructor <;> nlinarith

theorem bins_nonempty {eps : ℚ} (heps : 0 < eps) {H : CPHistogram}
    (hp : isPoint eps H = false) (hlen : H._bins.length = H._bincount)
    (hsum : H._bins.sum = nonZeroWeight eps H) :
    1 ≤ H._bincount ∧ nonZeroWeight eps H = H._stats.sumOfWeights ∧
      eps < nonZeroWeight eps H := by
  have hpf := (isPoint_false_iff eps H).mp hp
  have hN : nonZeroWeight eps H = H._stats.sumOfWeights := by
    simp [nonZeroWeight, not_lt.mpr (le_of_lt hpf.1)]
  refine ⟨?_, hN, by rw [hN]; exact hpf.1⟩
  rw [← hlen]
  by_contra hc
  have h0 : H._bins = [] := List.length_eq_zero.mp (by omega)
  rw [h0, hN] at hsum
  simp at hsum
  linarith [hpf.1]

/-- A list of non-negative numbers with a positive sum has a positive entry. -/
theorem exists_pos_of_sum_pos (l : List ℚ) (hnn : ∀ x ∈ l, 0 ≤ x) (hs : 0 < l.sum) :
    ∃ x ∈ l, 0 < x := by
  induction l with
  | nil => simp at hs
  | cons a t ih =>
    by_cases ha : 0 < a
    · exact ⟨a, List.mem_cons_self _ _, ha⟩
    · have h0 : a = 0 := le_antisymm (not_lt.mp ha) (hnn a (List.mem_cons_self _ _))
      rw [List.sum_cons, h0, zero_add] at hs
      obtain ⟨x, hx, hpos⟩ := ih (fun x hx => hnn x (List.mem_cons_of_mem _ hx)) hs
      exact ⟨x, List.mem_cons_of_mem _ hx, hpos⟩

theorem getD_mem_of_lt (bs : List ℚ) (i : Nat) (hi : i < bs.length) : bs.getD i 0 ∈ bs := by
  rw [List.getD_eq_getElem _ _ hi]
  exact List.getElem_mem hi

/-- C25 (counterexample): `A` is the histogram on `[2, 6]` with bins
`[1, 1/10^6]`, built by `buildFromList`.  In `A.cross(A)` the pair of the two
second bins has the weight `1/10^12`, which `buildFromList` drops for
`FP_FUDGE_EPS = 1/10^10`: the result has `nonZeroWeight() = 500001/500000`, while
`A.nonZeroWeight() * A.nonZeroWeight()` is `(1000001/1000000)^2`. -/
theorem cross_drops_small_products :
    ∃ A R : CPHistogram,
      buildFromList (1 / 10 ^ 10) (withList [(3, 1), (5, 1 / 10 ^ 6)]) 2 (1 + 1 / 10 ^ 6) 2 6 =
        some A ∧
      isPoint (1 / 10 ^ 10) A = false ∧ A._bins = [1, 1 / 10 ^ 6] ∧
      A._bins.sum = nonZeroWeight (1 / 10 ^ 10) A ∧
      cross (1 / 10 ^ 10) A A = some R ∧
      nonZeroWeight (1 / 10 ^ 10) R = 500001 / 500000 ∧
      nonZeroWeight (1 / 10 ^ 10) A * nonZeroWeight (1 / 10 ^ 10) A =
        (1000001 / 1000000) ^ 2 ∧
      (500001 / 500000 : ℚ) ≠ (1000001 / 1000000) ^ 2 :=
  ⟨{ _min := 2, _max := 6, _bincount := 2, _bins := [1, 1 / 10 ^ 6],
     _stats := ⟨4 / 1000001, 600001 / 200000, 1000001 / 1000000, 1000001 / 1000000⟩,
     _addList := [] },
   { _min := 4, _max := 36, _bincount := 2, _bins := [500001 / 500000, 0],
     _stats := builtStats (1 / 10 ^ 10)
       [(9, 1), (15, 1 / 10 ^ 6), (15, 1 / 10 ^ 6), (25, 1 / 10 ^ 12)]
       ((1000001 / 1000000) * (1000001 / 1000000)),
     _addList := [] },
   by decide!, by decide!, by decide!, by decide!, by decide!, by decide!, by decide!,
   by decide!⟩

/-- C25 (amended): for every two histograms `A` and `B` that are not points, with
`0 ≤ min ≤ max`, `sumOfWeights ≤ totalWeight` and bin arrays of `binCount`
entries summing to `nonZeroWeight()`, such that every product of a bin
centre of `A` and a bin centre of `B` exceeds `FP_FUDGE_EPS` and every product of
a bin weight of `A` and a bin weight of `B` is 0 or exceeds `FP_FUDGE_EPS`,
`A.cross(B)` has range `[A.min*B.min, A.max*B.max]`,
`Stats.totalWeight = A.totalWeight * B.totalWeight`,
`nonZeroWeight = A.nonZeroWeight * B.nonZeroWeight`, and `A`'s bin count of bins,
which sum to that `nonZeroWeight`. -/
theorem cross_histograms (eps : ℚ) (heps : 0 < eps) (A B : CPHistogram)
    (hpA : isPoint eps A = false) (hpB : isPoint eps B = false)
    (hlenA : A._bins.length = A._bincount) (hlenB : B._bins.length = B._bincount)
    (hminA : 0 ≤ A._min) (hleA : A._min ≤ A._max)
    (hminB : 0 ≤ B._min) (hleB : B._min ≤ B._max)
    (hsumA : A._bins.sum = nonZeroWeight eps A) (hsumB : B._bins.sum = nonZeroWeight eps B)
    (htwA : A._stats.sumOfWeights ≤ A._stats.totalWeight)
    (htwB : B._stats.sumOfWeights ≤ B._stats.totalWeight)
    (hc : ∀ i, i < A._bincount → ∀ j, j < B._bincount →
      eps < getBinCenter eps A i * getBinCenter eps B j)
    (hw : ∀ x ∈ A._bins, ∀ y ∈ B._bins, x * y = 0 ∨ eps < x * y) :
    ∃ R, cross eps A B = some R ∧
      R._min = A._min * B._min ∧ R._max = A._max * B._max ∧
      R._stats.totalWeight = totalWeight eps A * totalWeight eps B ∧
      nonZeroWeight eps R = nonZeroWeight eps A * nonZeroWeight eps B ∧
      R._bincount = A._bincount ∧ R._bins.length = A._bincount ∧
      R._bins.sum = nonZeroWeight eps R := by
  obtain ⟨hnA, hNA, hzA⟩ := bins_nonempty heps hpA hlenA hsumA
  obtain ⟨hnB, hNB, hzB⟩ := bins_nonempty heps hpB hlenB hsumB
  have hposA := getBinWidth_pos hpA hleA hnA
  have hposB := getBinWidth_pos hpB hleB hnB
  have hltA : A._min < A._max := (grid_of_pos hpA hposA).2.1
  have hltB : B._min < B._max := (grid_of_pos hpB hposB).2.1
  obtain ⟨pairs, hpairs⟩ : ∃ pairs : List WeightedValue, pairs =
      (List.range A._bincount).flatMap (fun i => (List.range B._bincount).map (fun j =>
        ((getBinCenter eps A i * getBinCenter eps B j,
          A._bins.getD i 0 * B._bins.getD j 0) : WeightedValue))) := ⟨_, rfl⟩
  have hcross : cross eps A B = buildFromList eps
      (withList (pairs.filter (fun wv => decide (wv.1 > 0 ∧ wv.2 > 0)))) A._bincount
      (A._stats.totalWeight * B._stats.totalWeight) (A._min * B._min) (A._max * B._max) := by
    unfold cross
    simp only [nonZero_of_not_point hpA, nonZero_of_not_point hpB, hpA, hpB, Bool.and_self,
      Bool.not_true, Bool.or_self, Bool.false_eq_true, if_false]
    rw [foldl_foldl_addToListWV, hpairs]
    rfl
  have hmem : ∀ wv ∈ pairs, ∃ i, i < A._bincount ∧ ∃ j, j < B._bincount ∧
      wv = (getBinCenter eps A i * getBinCenter eps B j,
        A._bins.getD i 0 * B._bins.getD j 0) := by
    intro wv hwv
    rw [hpairs, List.mem_flatMap] at hwv
    obtain ⟨i, hi, hwv⟩ := hwv
    rw [List.mem_map] at hwv
    obtain ⟨j, hj, rfl⟩ := hwv
    exact ⟨i, List.mem_range.mp hi, j, List.mem_range.mp hj, rfl⟩
  have hsurv : survivors eps
      (withList (pairs.filter (fun wv => decide (wv.1 > 0 ∧ wv.2 > 0))))._addList =
      survivors eps pairs := survivors_filter_pos heps pairs
  have hzb : ∀ wv ∈ pairs, (wv.1 > eps ∧ wv.2 > eps) ∨ wv.2 = 0 := by
    intro wv hwv
    obtain ⟨i, hi, j, hj, rfl⟩ := hmem wv hwv
    rcases hw _ (getD_mem_of_lt A._bins i (by omega)) _ (getD_mem_of_lt B._bins j (by omega))
      with h | h
    · exact Or.inr h
    · exact Or.inl ⟨hc i hi j hj, h⟩
  have hSw : ((survivors eps pairs).map Prod.snd).sum =
      nonZeroWeight eps A * nonZeroWeight eps B := by
    rw [sum_survivors_of_zero_or_big pairs hzb, hpairs, sum_product_weights,
      ← hsumA, ← hsumB, sum_eq_sum_range_getD A._bins, sum_eq_sum_range_getD B._bins,
      hlenA, hlenB]
  have hs : survivors eps
      (withList (pairs.filter (fun wv => decide (wv.1 > 0 ∧ wv.2 > 0))))._addList ≠ [] := by
    rw [hsurv]
    intro hnil
    rw [hnil] at hSw
    simp at hSw
    rcases hSw with h | h <;> linarith
  obtain ⟨R, hR, hst, hmin, hmax, _, _, hnp⟩ := buildFromList_spec eps _ A._bincount hnA
    (A._stats.totalWeight * B._stats.totalWeight) (A._min * B._min) (A._max * B._max) hs
  obtain ⟨r1, r2⟩ := rangedHist_min_max heps _
    (A._stats.totalWeight * B._stats.totalWeight) (A._min * B._min) (A._max * B._max) hs
  obtain ⟨s1, _, _, s4⟩ := builtStats_sums heps
    (withList (pairs.filter (fun wv => decide (wv.1 > 0 ∧ wv.2 > 0))))._addList
    (A._stats.totalWeight * B._stats.totalWeight)
  rw [hsurv] at r1 r2 s1 s4
  rw [hSw] at s1 s4
  -- the values lie in the product range
  have hvals : ∀ v ∈ (survivors eps pairs).map Prod.fst,
      A._min * B._min ≤ v ∧ v ≤ A._max * B._max := by
    intro v hv
    obtain ⟨wv, hwv, rfl⟩ := List.mem_map.mp hv
    obtain ⟨i, hi, j, hj, rfl⟩ := hmem wv (mem_survivors hwv).1
    obtain ⟨a1, a2⟩ := getBinCenter_bounds hpA hposA i hi
    obtain ⟨b1, b2⟩ := getBinCenter_bounds hpB hposB j hj
    constructor
    · exact mul_le_mul a1 b1 hminB (by linarith)
    · exact mul_le_mul a2 b2 (by linarith) (by linarith)
  rw [foldl_min_of_le _ _ (fun v hv => (hvals v hv).1),
    max_eq_right (mul_nonneg hminA hminB)] at r1
  rw [foldl_max_of_le _ _ (fun v hv => (hvals v hv).2)] at r2
  have hRmin : R._min = A._min * B._min := by rw [hmin, r1]
  have hRmax : R._max = A._max * B._max := by rw [hmax, r2]
  have hRsw : R._stats.sumOfWeights = nonZeroWeight eps A * nonZeroWeight eps B := by
    rw [hst, s1]
  have hbig : eps < nonZeroWeight eps A * nonZeroWeight eps B := by
    rw [← hSw, ← hsurv]
    exact sum_weights_survivors_pos heps _ hs
  have hRp : isPoint eps R = false := by
    rw [isPoint_false_iff, hRsw, hRmin, hRmax]
    refine ⟨hbig, ?_⟩
    have : A._min * B._min < A._max * B._max := by nlinarith
    exact ne_of_lt this
  obtain ⟨n1, n2, _, n4⟩ := hnp hRp
  have hRN : nonZeroWeight eps R = nonZeroWeight eps A * nonZeroWeight eps B := by
    unfold nonZeroWeight at hbig ⊢
    rw [hRsw]
    unfold nonZeroWeight
    rw [if_neg (not_lt.mpr (le_of_lt hbig))]
  have hTA : totalWeight eps A = A._stats.totalWeight := by
    unfold totalWeight
    rw [if_neg (not_lt.mpr (by rw [hNA] at hzA; linarith))]
  have hTB : totalWeight eps B = B._stats.totalWeight := by
    unfold totalWeight
    rw [if_neg (not_lt.mpr (by rw [hNB] at hzB; linarith))]
  have hRtw : R._stats.totalWeight = totalWeight eps A * totalWeight eps B := by
    rw [hst, s4, hTA, hTB, hNA, hNB]
    have hle : A._stats.sumOfWeights * B._stats.sumOfWeights ≤
        A._stats.totalWeight * B._stats.totalWeight := by
      rw [hNA] at hzA
      rw [hNB] at hzB
      exact mul_le_mul htwA htwB (by linarith) (by linarith)
    split
    · rfl
    · rename_i hn
      exact le_antisymm hle (not_lt.mp hn)
  refine ⟨R, by rw [hcross]; exact hR, hRmin, hRmax, hRtw, hRN, n1, n2, ?_⟩
  rw [n4, hsurv, hSw, hRN]

theorem cross_histograms_witness :
    ∃ R, cross (1 / 10 ^ 10)
        { _min := 2, _max := 6, _bincount := 2, _bins := [3, 1], _stats := ⟨12, 12, 4, 4⟩,
          _addList := [] }
        { _min := 2, _max := 6, _bincount := 2, _bins := [3, 1], _stats := ⟨12, 12, 4, 4⟩,
          _addList := [] } = some R ∧
      R._min = 2 * 2 ∧ R._max = 6 * 6 ∧
      R._stats.totalWeight =
        totalWeight (1 / 10 ^ 10)
          { _min := 2, _max := 6, _bincount := 2, _bins := [3, 1], _stats := ⟨12, 12, 4, 4⟩,
            _addList := [] } *
        totalWeight (1 / 10 ^ 10)
          { _min := 2, _max := 6, _bincount := 2, _bins := [3, 1], _stats := ⟨12, 12, 4, 4⟩,
            _addList := [] } ∧
      nonZeroWeight (1 / 10 ^ 10) R =
        nonZeroWeight (1 / 10 ^ 10)
          { _min := 2, _max := 6, _bincount := 2, _bins := [3, 1], _stats := ⟨12, 12, 4, 4⟩,
            _addList := [] } *
        nonZeroWeight (1 / 10 ^ 10)
          { _min := 2, _max := 6, _bincount := 2, _bins := [3, 1], _stats := ⟨12, 12, 4, 4⟩,
            _addList := [] } ∧
      R._bincount = 2 ∧ R._bins.length = 2 ∧
      R._bins.sum = nonZeroWeight (1 / 10 ^ 10) R :=
  cross_histograms (1 / 10 ^ 10) (by norm_num)
    { _min := 2, _max := 6, _bincount := 2, _bins := [3, 1], _stats := ⟨12, 12, 4, 4⟩,
      _addList := [] }
    { _min := 2, _max := 6, _bincount := 2, _bins := [3, 1], _stats := ⟨12, 12, 4, 4⟩,
      _addList := [] }
    (by decide!) (by decide!) (by decide!) (by decide!) (by norm_num) (by norm_num)
    (by norm_num) (by norm_num) (by decide!) (by decide!) (by norm_num) (by norm_num)
    (by decide!) (by decide!)

/-- The rounding function agrees with binary64 on sample values: 0.1 and 1/3 are
rounded to the nearest double, ties go to the even significand, and numbers with
at most 53 significant bits are kept. -/
theorem roundBinary64_values :
    roundBinary64 (1 / 10) = 3602879701896397 / 36028797018963968 ∧
    roundBinary64 (1 / 3) = 6004799503160661 / 18014398509481984 ∧
    roundBinary64 (-(1 / 3)) = -(6004799503160661 / 18014398509481984) ∧
    roundBinary64 (2 ^ 53 + 1) = 2 ^ 53 ∧ roundBinary64 (2 ^ 53 + 3) = 2 ^ 53 + 4 ∧
    roundBinary64 (3 / 4) = 3 / 4 ∧ roundBinary64 (2 ^ 100) = 2 ^ 100 ∧
    roundBinary64 (1 / 2 ^ 100 + 1 / 2 ^ 160) = 1 / 2 ^ 100 := by
  refine ⟨by decide!, by decide!, by decide!, by decide!, by decide!, by decide!, by decide!,
    by decide!⟩

/-! With exact arithmetic the functions with explicit rounding are the functions of
the first embedding. -/

theorem getBinWidthFl_exact (eps : ℚ) (h : CPHistogram) :
    getBinWidthFl Arith.exact eps h = getBinWidth eps h := rfl

theorem getBinLowerLimitFl_exact (eps : ℚ) (h : CPHistogram) (b : Nat) :
    getBinLowerLimitFl Arith.exact eps h b = getBinLowerLimit eps h b := rfl

theorem getBinUpperLimitFl_exact (eps : ℚ) (h : CPHistogram) (b : Nat) :
    getBinUpperLimitFl Arith.exact eps h b = getBinUpperLimit eps h b := rfl

theorem getBinCenterFl_exact (eps : ℚ) (h : CPHistogram) (b : Nat) :
    getBinCenterFl Arith.exact eps h b = getBinCenter eps h b := rfl

theorem whichBinFl_exact (eps : ℚ) (h : CPHistogram) (v : ℚ) :
    whichBinFl Arith.exact eps h v = whichBin eps h v := rfl

theorem getRangeWeightFl_exact (eps : ℚ) (h : CPHistogram) (lb ub : ℚ) :
    getRangeWeightFl Arith.exact eps h lb ub = getRangeWeight eps h lb ub := rfl

theorem probLessThanFl_exact (eps : ℚ) (h : CPHistogram) (v : ℚ) :
    probLessThanFl Arith.exact eps h v = probLessThan eps h v := rfl

theorem estProbLessThanFl_exact (eps : ℚ) (h Y : CPHistogram) :
    estProbLessThanFl Arith.exact eps h Y = estProbLessThan eps h Y := rfl

theorem quantileScanFl_exact (q2 : ℚ) (w : ℚ) (i : Nat) (bs : List ℚ) :
    quantileScanFl Arith.exact q2 w i bs = quantileScan q2 w i bs := by
  induction bs generalizing w i with
  | nil => rfl
  | cons b rest ih =>
    simp only [quantileScanFl, quantileScan, Arith.exact]
    split
    · exact ih _ _
    · rfl

theorem quantileFl_exact (eps : ℚ) (h : CPHistogram) (q : ℚ) :
    quantileFl Arith.exact eps h q = quantile eps h q := by
  unfold quantileFl quantile
  simp only [quantileScanFl_exact]
  rfl

/-- The conversion to `int` of a floor outside the range of `int`: on the Scenario A
histogram (bins `[3, 1]` on `[2, 6]`) the floor of `(10^10 - 2) / 2` exceeds
`2^31 - 1`; with the conversion of x86 the `int` is `-2^31`, the first clamp makes
it bin 0, and `whichBin(10^10) = 0`, where exact arithmetic with an unbounded `int`
answers the last bin. -/
theorem whichBinFl_out_of_range :
    whichBinFl Arith.binary64 (1 / 10 ^ 10)
      { _min := 2, _max := 6, _bincount := 2, _bins := [3, 1], _stats := ⟨12, 12, 4, 4⟩,
        _addList := [] } (10 ^ 10) = 0 ∧
    whichBin (1 / 10 ^ 10)
      { _min := 2, _max := 6, _bincount := 2, _bins := [3, 1], _stats := ⟨12, 12, 4, 4⟩,
        _addList := [] } (10 ^ 10) = 1 := by
  refine ⟨by decide!, by decide!⟩

/-- In exact arithmetic, for every histogram that is not a point, with `min ≤ max`
and a bin array of `binCount` entries summing to `nonZeroWeight()`, and every
`0 < q < 1`, the scan of `quantile(q)` stops at an index `i < binCount` with
`bins[i] > 0`, and `quantile(q)` has a result between `min` and `max`.  (With the
running sum rounded the scan can pass the last bin; the evaluation that follows
this lemma shows it.) -/
theorem quantile_exact_in_bounds (eps : ℚ) (heps : 0 < eps) (h : CPHistogram)
    (hp : isPoint eps h = false) (hlen : h._bins.length = h._bincount)
    (hle : h._min ≤ h._max) (hsum : h._bins.sum = nonZeroWeight eps h)
    (q : ℚ) (hq0 : 0 < q) (hq1 : q < 1) :
    ∃ i v, i < h._bincount ∧ 0 < h._bins.getD i 0 ∧
      quantileScan (q * nonZeroWeight eps h) 0 0 h._bins = some ((h._bins.take i).sum, i) ∧
      quantile eps h q = some v ∧ h._min ≤ v ∧ v ≤ h._max := by
  have hpf := (isPoint_false_iff eps h).mp hp
  have hN : nonZeroWeight eps h = h._stats.sumOfWeights := by
    simp [nonZeroWeight, not_lt.mpr (le_of_lt hpf.1)]
  have hnz : 0 < nonZeroWeight eps h := by rw [hN]; linarith [hpf.1]
  have hq2 : 0 < q * nonZeroWeight eps h := mul_pos hq0 hnz
  have hsl : q * nonZeroWeight eps h ≤ 0 + h._bins.sum := by
    rw [hsum, zero_add]
    nlinarith
  obtain ⟨k, k1, k2, k3, k4⟩ := quantileScan_spec (q * nonZeroWeight eps h) h._bins 0 0 hq2 hsl
  rw [zero_add] at k2 k3
  rw [zero_add] at k2
  have hk : k < h._bincount := by rw [← hlen]; exact k1
  have hcum : (h._bins.take k).sum < q * nonZeroWeight eps h := by
    cases k with
    | zero => simpa using hq2
    | succ j => simpa using k4 j (by omega)
  have hsucc := take_succ_sum h._bins k k1
  have hbpos : 0 < h._bins.getD k 0 := by linarith
  have hpos := getBinWidth_pos hp hle (by omega)
  obtain ⟨l1, l2⟩ := limits_le_max hp hpos k hk
  obtain ⟨d, hd⟩ : ∃ d, d = q * nonZeroWeight eps h - (h._bins.take k).sum := ⟨_, rfl⟩
  have hd0 : 0 < d := by rw [hd]; linarith
  have hdb : d ≤ h._bins.getD k 0 := by rw [hd]; linarith
  have hf0 : 0 ≤ d / h._bins.getD k 0 := div_nonneg hd0.le hbpos.le
  have hf1 : d / h._bins.getD k 0 ≤ 1 := (div_le_one hbpos).mpr hdb
  refine ⟨k, getBinLowerLimit eps h k + getBinWidth eps h * (d / h._bins.getD k 0), hk, hbpos,
    k2, ?_, ?_, ?_⟩
  · unfold quantile
    simp only [nonZero_of_not_point hp, hp, Bool.not_true, Bool.false_eq_true, if_false,
      not_le.mpr hq0, ge_iff_le, not_le.mpr hq1, k2, hd]
  · rw [(limits_eq hp k).1]
    nlinarith
  · rw [(limits_eq hp k).1]
    nlinarith

/-- C32 (evaluation at the failing input): in binary64, with `FP_FUDGE_EPS = 1/10^10`.
The add list `(2.5, 1), (3.5, 1), (4.5, 1), (5.5, 1), (1.5, 2^53)` with 5 bins on
`[1, 6]` gives the bins `[2^53, 1, 1, 1, 1]` and `sumOfWeights = 2^53 + 4` (in this
order every partial sum of the weights is a double; `sumOfSquares` and
`sumOfValues`, which `quantile` does not read, are those of exact arithmetic).  The
histogram is not a point, its bins are non-negative and sum to `nonZeroWeight()`.
For `q = 1 - 2^-53` the product `q * nonZeroWeight()` is rounded to `2^53 + 2`,
and `2^53 + 1` is rounded to `2^53`: the running sum stays at `2^53`, the test
`w + _bins[i] < q2` holds at every bin, and the scan reads `_bins[5]`, outside the
array of 5 bins (no result).  The same happens on the bins
`[2^20, 2^-33, 2^-33, 2^-33, 2^-33]` with `sumOfWeights = 2^20 + 2^-31`. -/
theorem quantile_scan_leaves_bins :
    ∃ H : CPHistogram,
      buildFromList (1 / 10 ^ 10)
        (withList [(5 / 2, 1), (7 / 2, 1), (9 / 2, 1), (11 / 2, 1), (3 / 2, 2 ^ 53)])
        5 0 1 6 = some H ∧
      isPoint (1 / 10 ^ 10) H = false ∧ H._bincount = 5 ∧
      H._bins = [2 ^ 53, 1, 1, 1, 1] ∧ H._bins.sum = nonZeroWeight (1 / 10 ^ 10) H ∧
      roundBinary64 ((1 - 1 / 2 ^ 53) * nonZeroWeight (1 / 10 ^ 10) H) = 2 ^ 53 + 2 ∧
      roundBinary64 (2 ^ 53 + 1) = 2 ^ 53 ∧
      quantileScanFl Arith.binary64 (2 ^ 53 + 2) 0 0 H._bins = none ∧
      quantileFl Arith.binary64 (1 / 10 ^ 10) H (1 - 1 / 2 ^ 53) = none ∧
      quantileFl Arith.binary64 (1 / 10 ^ 10)
        { _min := 1, _max := 6, _bincount := 5,
          _bins := [2 ^ 20, 1 / 2 ^ 33, 1 / 2 ^ 33, 1 / 2 ^ 33, 1 / 2 ^ 33],
          _stats := ⟨0, 0, 2 ^ 20 + 1 / 2 ^ 31, 2 ^ 20 + 1 / 2 ^ 31⟩, _addList := [] }
        (1 - 1 / 2 ^ 53) = none :=
  ⟨{ _min := 1, _max := 6, _bincount := 5, _bins := [2 ^ 53, 1, 1, 1, 1],
     _stats := ⟨67553994410557445 / 2251799813685249, 13510798882111504, 2 ^ 53 + 4,
       2 ^ 53 + 4⟩, _addList := [] },
   by decide!, by decide!, by decide!, by decide!, by decide!, by decide!, by decide!,
   by decide!, by decide!, by decide!⟩

/-- C33 (evaluation at the failing input): a readable header of a histogram that
is not a point (`min = 2`, `max = 6`, `sumOfWeights = 4`) declares one non-zero
bin and is read with `binCount = 2`; the bin record carries the index 5.
`deserialize` passes the test of `binsUsed` and calls `setBinWeight(5, 3)` on the
array of 2 bins: the write is outside the array (no result here).  With the
index 1 the record is stored and the ID 7 is returned. -/
theorem deserialize_writes_outside_bins :
    ¬ (2 < (⟨7, 12, 12, 4, 2, 6, 1⟩ : CPHistogramHeader).binsUsed) ∧
    setBinWeight (1 / 10 ^ 10)
      { _min := 2, _max := 6, _bincount := 2, _bins := [0, 0], _stats := ⟨12, 12, 4, 4⟩,
        _addList := [] } 5 3 = none ∧
    deserialize (1 / 10 ^ 10) empty 2 4 (some ⟨7, 12, 12, 4, 2, 6, 1⟩) [⟨5, 3⟩] = none ∧
    deserialize (1 / 10 ^ 10) empty 2 4 (some ⟨7, 12, 12, 4, 2, 6, 1⟩) [⟨1, 3⟩] =
      some (7, { _min := 2, _max := 6, _bincount := 2, _bins := [0, 3],
                 _stats := ⟨12, 12, 4, 4⟩, _addList := [] }) := by
  refine ⟨by decide, by decide!, by decide!, by decide!⟩

/-- What the block that snaps the upper bound can return for a bound in
`(min, max]`: the early exit, or a bound that lies in the closed range of the bin
it is assigned. -/
theorem snapUpper_cases {eps : ℚ} (heps : 0 < eps) {H : CPHistogram}
    (hp : isPoint eps H = false) (hpos : 0 < getBinWidth eps H) (v : ℚ)
    (h1 : H._min < v) (h2 : v ≤ H._max) :
    snapUpper eps H v (whichBin eps H v) = none ∨
    ∃ y j flag, snapUpper eps H v (whichBin eps H v) = some (y, j, flag) ∧
      j < H._bincount ∧ getBinLowerLimit eps H j ≤ y ∧ y ≤ getBinUpperLimit eps H j := by
  obtain ⟨hn, hlt, hM⟩ := grid_of_pos hp hpos
  have hLU : ∀ k : Nat, getBinUpperLimit eps H k = getBinLowerLimit eps H (k + 1) := by
    intro k
    rw [(limits_eq hp k).2, (limits_eq hp (k + 1)).1]
    push_cast
    ring
  have hlu : ∀ k : Nat, getBinLowerLimit eps H k ≤ getBinUpperLimit eps H k := by
    intro k
    rw [(limits_eq hp k).1, (limits_eq hp k).2]
    nlinarith
  by_cases hv : v = H._max
  · subst hv
    right
    refine ⟨H._max, H._bincount - 1, true, ?_, by omega, ?_, ?_⟩
    · rw [whichBin_max hp hn hlt, snapUpper_max heps hp hn]
    · rw [(limits_eq hp _).1, ← hM]
      have : ((H._bincount - 1 : ℕ) : ℚ) ≤ H._bincount := by exact_mod_cast Nat.sub_le _ _
      nlinarith
    · rw [(limits_eq hp _).2, ← hM]
      have : ((H._bincount - 1 : ℕ) : ℚ) + 1 = H._bincount := by
        have := Nat.sub_add_cancel hn
        exact_mod_cast this
      rw [this]
  · obtain ⟨k, hk, hlo, hup, hwb⟩ := exists_bin hp hpos v (le_of_lt h1) (lt_of_le_of_ne h2 hv)
    rw [hwb]
    unfold snapUpper
    split
    · right
      exact ⟨_, k, true, rfl, hk, hlu k, le_refl _⟩
    · split
      · split
        · right
          obtain ⟨j, rfl⟩ : ∃ j, k = j + 1 := ⟨k - 1, by omega⟩
          refine ⟨_, j, true, rfl, by omega, ?_, ?_⟩
          · rw [← hLU]; exact hlu j
          · rw [hLU]
        · left; rfl
      · right
        exact ⟨v, k, false, rfl, hk, hlo, le_of_lt hup⟩

/-- The weight that `getRangeWeight(0, v)` reports lies between 0 and the sum of
the bins, for every `v`. -/
theorem getRangeWeight_zero_bounds {eps : ℚ} (heps : 0 < eps) {H : CPHistogram}
    (hp : isPoint eps H = false) (hlen : H._bins.length = H._bincount)
    (hnn : ∀ x ∈ H._bins, 0 ≤ x) (hmin0 : 0 ≤ H._min) (hle : H._min ≤ H._max) (v : ℚ) :
    0 ≤ getRangeWeight eps H 0 v ∧ getRangeWeight eps H 0 v ≤ H._bins.sum := by
  have hs0 : 0 ≤ H._bins.sum := List.sum_nonneg hnn
  unfold getRangeWeight
  simp only [nonZero_of_not_point hp, Bool.not_true, Bool.false_eq_true, if_false, hp]
  split
  · exact ⟨le_refl _, hs0⟩
  split
  · exact ⟨le_refl _, hs0⟩
  split
  · exact ⟨le_refl _, hs0⟩
  split
  · exact ⟨le_refl _, hs0⟩
  rename_i c1 c2 hne c3
  have hn : 1 ≤ H._bincount := by
    rw [← hlen]
    rcases Nat.eq_zero_or_pos H._bins.length with h0 | h0
    · exact absurd (List.length_eq_zero.mp h0) hne
    · exact h0
  have hpos := getBinWidth_pos hp hle hn
  obtain ⟨_, hlt, hM⟩ := grid_of_pos hp hpos
  have hv1 : H._min < v := by
    by_contra h; exact c3 (Or.inl (not_lt.mp h))
  have ex : (if (0 : ℚ) < H._min then H._min else 0) = H._min := by
    split
    · rfl
    · rename_i hn0; linarith [not_lt.mp hn0]
  obtain ⟨y, hy⟩ : ∃ y, y = if v > H._max then H._max else v := ⟨_, rfl⟩
  have hy1 : H._min < y := by rw [hy]; split <;> linarith
  have hy2 : y ≤ H._max := by rw [hy]; split <;> linarith
  simp only [ex, ← hy, whichBin_min hp hn, snapLower_min heps hp]
  rcases snapUpper_cases heps hp hpos y hy1 hy2 with hsn | ⟨y2, j, flag, hsn, hj, j1, j2⟩
  · rw [hsn]
    exact ⟨le_refl _, hs0⟩
  rw [hsn]
  simp only
  obtain ⟨W, hW⟩ : ∃ W, W = getBinWidth eps H := ⟨_, rfl⟩
  rw [← hW] at hpos
  have hb : ∀ k, 0 ≤ H._bins.getD k 0 := getD_nonneg hnn
  -- the bins up to `j` weigh at most as much as all bins
  have htot : ∑ i in Finset.range (j + 1), H._bins.getD i 0 ≤ H._bins.sum := by
    rw [sum_eq_sum_range_getD H._bins, hlen, sum_range_eq_finset]
    apply Finset.sum_le_sum_of_subset_of_nonneg
    · intro i hi
      simp only [Finset.mem_range] at hi ⊢
      omega
    · intro i _ _
      exact hb i
  have hfrac : ∀ (a b : ℚ), 0 ≤ a → a ≤ W → 0 ≤ b → 0 ≤ a / W * b ∧ a / W * b ≤ b := by
    intro a b ha haW hb0
    have h1 : 0 ≤ a / W := div_nonneg ha hpos.le
    have h2 : a / W ≤ 1 := (div_le_one hpos).mpr haW
    exact ⟨mul_nonneg h1 hb0, by nlinarith⟩
  rw [(limits_eq hp j).1, ← hW] at j1
  rw [(limits_eq hp j).2, ← hW] at j2
  by_cases e : 0 = j
  · subst e
    rw [if_pos rfl]
    have hj0 : H._bins.getD 0 0 ≤ H._bins.sum := by
      simpa using htot
    simp only [Nat.cast_zero, mul_zero, add_zero, zero_add, mul_one] at j1 j2
    obtain ⟨f1, f2⟩ := hfrac (y2 - H._min) (H._bins.getD 0 0) (by linarith) (by linarith) (hb 0)
    cases flag
    · simp only [Bool.and_false, Bool.false_eq_true, if_false, ← hW, not_lt.mpr f1]
      exact ⟨f1, le_trans f2 hj0⟩
    · simp only [Bool.and_true, if_true]
      exact ⟨hb 0, hj0⟩
  · rw [if_neg e, foldl_add_getD, sum_range'_eq_finset]
    have hj1 : 1 ≤ j := by omega
    have e2 : 0 + 1 + (j - (0 + 1)) = j := by omega
    rw [e2]
    simp only [zero_add, if_true, not_lt.mpr (hb 0), if_false, (limits_eq hp j).1, ← hW]
    obtain ⟨f1, f2⟩ := hfrac (y2 - (H._min + W * (j : ℚ))) (H._bins.getD j 0)
      (by linarith) (by linarith) (hb j)
    have hmid : 0 ≤ ∑ i in Finset.Ico 1 j, H._bins.getD i 0 :=
      Finset.sum_nonneg (fun i _ => hb i)
    have hsplit : ∑ i in Finset.range (j + 1), H._bins.getD i 0 =
        H._bins.getD 0 0 + ∑ i in Finset.Ico 1 j, H._bins.getD i 0 + H._bins.getD j 0 := by
      rw [Finset.range_eq_Ico, Finset.sum_eq_sum_Ico_succ_bot (by omega),
        Finset.sum_Ico_succ_top (by omega)]
      ring
    obtain ⟨w2, hw2⟩ : ∃ w2, w2 = if flag = true then H._bins.getD j 0
        else (y2 - (H._min + W * (j : ℚ))) / W * H._bins.getD j 0 := ⟨_, rfl⟩
    have hw2b : 0 ≤ w2 ∧ w2 ≤ H._bins.getD j 0 := by
      rw [hw2]
      split
      · exact ⟨hb j, le_refl _⟩
      · exact ⟨f1, f2⟩
    rw [← hw2, if_neg (not_lt.mpr hw2b.1)]
    constructor
    · linarith [hb 0, hw2b.1]
    · linarith [hw2b.2]

/-- For a non-empty histogram, a point or not, `getRangeWeight(0, v)` lies between 0
and `sumOfWeights`. -/
theorem getRangeWeight_zero_le_sumOfWeights {eps : ℚ} (heps : 0 < eps) {X : CPHistogram}
    (hnz : nonZero eps X = true) (hlen : X._bins.length = X._bincount)
    (hnn : ∀ x ∈ X._bins, 0 ≤ x) (hmin0 : 0 ≤ X._min) (hle : X._min ≤ X._max)
    (hsum : isPoint eps X = false → X._bins.sum = X._stats.sumOfWeights) (v : ℚ) :
    0 ≤ getRangeWeight eps X 0 v ∧ getRangeWeight eps X 0 v ≤ X._stats.sumOfWeights := by
  have hsw : eps < X._stats.sumOfWeights := (nonZero_eq_true_iff eps X).mp hnz
  by_cases hp : isPoint eps X = true
  · have hN : nonZeroWeight eps X = X._stats.sumOfWeights := by
      simp [nonZeroWeight, not_lt.mpr (le_of_lt hsw)]
    unfold getRangeWeight
    simp only [hnz, Bool.not_true, Bool.false_eq_true, if_false, hp, if_true, hN]
    split
    · exact ⟨le_refl _, by linarith⟩
    split
    · exact ⟨le_refl _, by linarith⟩
    split
    · exact ⟨by linarith, le_refl _⟩
    · exact ⟨le_refl _, by linarith⟩
  · have hp' : isPoint eps X = false := by simpa using hp
    rw [← hsum hp']
    exact getRangeWeight_zero_bounds heps hp' hlen hnn hmin0 hle v

theorem probLessThan_bounds {eps : ℚ} (heps : 0 < eps) {X : CPHistogram}
    (hnz : nonZero eps X = true) (hlen : X._bins.length = X._bincount)
    (hnn : ∀ x ∈ X._bins, 0 ≤ x) (hmin0 : 0 ≤ X._min) (hle : X._min ≤ X._max)
    (hsum : isPoint eps X = false → X._bins.sum = X._stats.sumOfWeights) (v : ℚ) :
    0 ≤ probLessThan eps X v ∧ probLessThan eps X v ≤ 1 := by
  have hsw : eps < X._stats.sumOfWeights := (nonZero_eq_true_iff eps X).mp hnz
  have hpos : 0 < X._stats.sumOfWeights := by linarith
  obtain ⟨g0, g1⟩ := getRangeWeight_zero_le_sumOfWeights heps hnz hlen hnn hmin0 hle hsum v
  unfold probLessThan
  simp only [hnz, Bool.not_true, Bool.false_eq_true, if_false]
  split
  · exact ⟨le_refl _, zero_le_one⟩
  · exact ⟨div_nonneg g0 hpos.le, (div_le_one hpos).mpr g1⟩

/-- In exact arithmetic, for every pair of non-empty histograms `X` and `Y` with bin
arrays of `binCount` non-negative entries that sum to `sumOfWeights` when the
histogram is not a point (a point has no bins), and with `0 ≤ X.min ≤ X.max`,
`X.estProbLessThan(Y)` has a result `p` with `0 ≤ p ≤ 1`; and for every `y`,
`getRangeWeight(0, y) ≤ sumOfWeights` and `probLessThan(y) ≤ 1` on `X`.  (With
every operation rounded the assertion `p <= 1` can fail; the evaluation that
follows this lemma shows it.) -/
theorem estProbLessThan_exact_asserts (eps : ℚ) (heps : 0 < eps) (X Y : CPHistogram)
    (hX : nonZero eps X = true) (hY : nonZero eps Y = true)
    (hlenX : X._bins.length = X._bincount) (hnnX : ∀ x ∈ X._bins, 0 ≤ x)
    (hminX : 0 ≤ X._min) (hleX : X._min ≤ X._max)
    (hsumX : isPoint eps X = false → X._bins.sum = X._stats.sumOfWeights)
    (hlenY : Y._bins.length = Y._bincount) (hnnY : ∀ x ∈ Y._bins, 0 ≤ x)
    (hptY : isPoint eps Y = true → Y._bincount = 0)
    (hsumY : isPoint eps Y = false → Y._bins.sum = Y._stats.sumOfWeights) :
    (∃ p, estProbLessThan eps X Y = some p ∧ 0 ≤ p ∧ p ≤ 1) ∧
    ∀ y, getRangeWeight eps X 0 y ≤ X._stats.sumOfWeights ∧ probLessThan eps X y ≤ 1 := by
  refine ⟨?_, fun y =>
    ⟨(getRangeWeight_zero_le_sumOfWeights heps hX hlenX hnnX hminX hleX hsumX y).2,
     (probLessThan_bounds heps hX hlenX hnnX hminX hleX hsumX y).2⟩⟩
  have hsw : eps < Y._stats.sumOfWeights := (nonZero_eq_true_iff eps Y).mp hY
  have hpos : 0 < Y._stats.sumOfWeights := by linarith
  have hYsum : Y._bins.sum ≤ Y._stats.sumOfWeights := by
    by_cases hp : isPoint eps Y = true
    · have h0 : Y._bins = [] := List.length_eq_zero.mp (by rw [hlenY, hptY hp])
      rw [h0]
      simpa using hpos.le
    · exact le_of_eq (hsumY (by simpa using hp))
  unfold estProbLessThan
  simp only [hX, hY, Bool.and_self, Bool.not_true, Bool.false_eq_true, if_false]
  split
  · exact ⟨1, rfl, zero_le_one, le_refl _⟩
  split
  · exact ⟨0, rfl, le_refl _, zero_le_one⟩
  rw [if_neg (by omega)]
  rw [foldl_add_map (fun i => probLessThan eps X (getBinCenter eps Y i) *
    (Y._bins.getD i 0 / Y._stats.sumOfWeights)), zero_add, sum_range_eq_finset]
  have hterm : ∀ i, 0 ≤ probLessThan eps X (getBinCenter eps Y i) *
        (Y._bins.getD i 0 / Y._stats.sumOfWeights) ∧
      probLessThan eps X (getBinCenter eps Y i) *
        (Y._bins.getD i 0 / Y._stats.sumOfWeights) ≤
        Y._bins.getD i 0 / Y._stats.sumOfWeights := by
    intro i
    obtain ⟨p0, p1⟩ := probLessThan_bounds heps hX hlenX hnnX hminX hleX hsumX
      (getBinCenter eps Y i)
    have hq : 0 ≤ Y._bins.getD i 0 / Y._stats.sumOfWeights :=
      div_nonneg (getD_nonneg hnnY i) hpos.le
    exact ⟨mul_nonneg p0 hq, by nlinarith⟩
  have h0 : 0 ≤ ∑ i in Finset.range Y._bincount,
      probLessThan eps X (getBinCenter eps Y i) *
        (Y._bins.getD i 0 / Y._stats.sumOfWeights) :=
    Finset.sum_nonneg (fun i _ => (hterm i).1)
  have h1 : ∑ i in Finset.range Y._bincount,
      probLessThan eps X (getBinCenter eps Y i) *
        (Y._bins.getD i 0 / Y._stats.sumOfWeights) ≤ 1 := by
    calc ∑ i in Finset.range Y._bincount,
          probLessThan eps X (getBinCenter eps Y i) *
            (Y._bins.getD i 0 / Y._stats.sumOfWeights)
        ≤ ∑ i in Finset.range Y._bincount, Y._bins.getD i 0 / Y._stats.sumOfWeights :=
          Finset.sum_le_sum (fun i _ => (hterm i).2)
      _ = Y._bins.sum / Y._stats.sumOfWeights := by
          rw [← Finset.sum_div, sum_eq_sum_range_getD Y._bins, hlenY, sum_range_eq_finset]
      _ ≤ 1 := (div_le_one hpos).mpr hYsum
  rw [if_pos ⟨h0, h1⟩]
  exact ⟨_, rfl, h0, h1⟩

/-- C34 (evaluation at the failing input): in binary64, with `FP_FUDGE_EPS = 1/10^10`.
`X` is the point at 2 with weight 1 and `Y` the histogram with bins `[6, 23, 1]` on
`[2, 8]` (`sumOfWeights = 30`; `sumOfSquares`, which is not read, is that of exact
arithmetic).  Neither early return applies (`X.max = Y.min`), and
`X.probLessThan(y) = 1` at the three bin centres 3, 5, 7 of `Y`.  The loop adds the
doubles nearest to `6/30`, `23/30` and `1/30`; the sum is rounded to
`0.9666666666666668` and then to `1 + 2^-52`, so `assert(p <= 1)` fails (no
result). -/
theorem estProbLessThan_assert_fails :
    ∃ X Y : CPHistogram,
      buildFromList (1 / 10 ^ 10) (withList [(2, 1)]) 3 1 2 2 = some X ∧
      buildFromList (1 / 10 ^ 10) (withList [(3, 6), (5, 23), (7, 1)]) 3 30 2 8 = some Y ∧
      nonZero (1 / 10 ^ 10) X = true ∧ isPoint (1 / 10 ^ 10) X = true ∧
      nonZero (1 / 10 ^ 10) Y = true ∧ isPoint (1 / 10 ^ 10) Y = false ∧
      Y._bins = [6, 23, 1] ∧ Y._bins.sum = Y._stats.sumOfWeights ∧
      (∀ i ∈ [0, 1, 2],
        probLessThanFl Arith.binary64 (1 / 10 ^ 10) X
          (getBinCenterFl Arith.binary64 (1 / 10 ^ 10) Y i) = 1) ∧
      estProbLessThanSum Arith.binary64 (1 / 10 ^ 10) X Y = 1 + 1 / 2 ^ 52 ∧
      estProbLessThanFl Arith.binary64 (1 / 10 ^ 10) X Y = none :=
  ⟨{ _min := 2, _max := 2, _bincount := 0, _bins := [], _stats := ⟨0, 2, 1, 1⟩,
     _addList := [] },
   { _min := 2, _max := 8, _bincount := 3, _bins := [6, 23, 1],
     _stats := ⟨74 / 3, 140, 30, 30⟩, _addList := [] },
   by decide!, by decide!, by decide!, by decide!, by decide!, by decide!, by decide!,
   by decide!, by decide!, by decide!, by decide!⟩

end CPHistogram
